import Mathlib

/-!
Verification of the Optihire resume ingestion and structured-extraction
pipeline, shallowly embedded from
`apps/backend/app/services/resume_service.py`.

Conventions of the embedding:
* Python strings are Lean `String`s (sequences of unicode code points, as in
  CPython); `len` is `String.length` / `List.length` on `String.data`.
* Python byte payloads (`bytes`) are `List Nat` values; only their length is
  inspected by the embedded code.
* A Python function that can `raise ValueError(msg)` is embedded as a
  function into `Except String α`, the `String` being the exception message.
* External collaborators (the Supabase storage client, pdfminer, python-docx,
  the database session) are parameters describing the outcome of the one
  call the embedded code makes to them.
* Python `str.strip()` / `str.lower()` / `"sub" in s` are embedded below;
  `lower` is exact on ASCII, which is the alphabet of every string the
  embedded code compares case-insensitively.
-/

/-! ## Python string primitives -/

/-- The characters matched by Python `str.strip()` and by `\s` in the
`re` patterns of the source (ASCII whitespace). -/
def pyWs (c : Char) : Bool :=
  c = ' ' || c = '\t' || c = '\n' || c = '\r' || c = '\x0b' || c = '\x0c'

/-- Python `str.strip()` on a character list: drop leading and trailing
whitespace. -/
def pyStripList (cs : List Char) : List Char :=
  ((cs.dropWhile pyWs).reverse.dropWhile pyWs).reverse

/-- Python `str.strip()`. -/
def pythonStrip (s : String) : String :=
  ⟨pyStripList s.data⟩

/-- Python `str.lower()` on one character (exact on ASCII, which is the
alphabet of every string the source lowers before comparing). -/
def pyLowerChar (c : Char) : Char :=
  if 'A' ≤ c && c ≤ 'Z' then Char.ofNat (c.toNat + 32) else c

/-- Python `str.lower()`. -/
def pyLower (s : String) : String :=
  ⟨s.data.map pyLowerChar⟩

/-- Does `cs` start with `pat`? (helper for the substring test). -/
def listStartsWith (pat cs : List Char) : Bool :=
  match pat, cs with
  | [], _ => true
  | _ :: _, [] => false
  | p :: ps, c :: rest => p = c && listStartsWith ps rest

/-- Does `pat` occur as a contiguous run inside `cs`? -/
def listHasInfix (pat cs : List Char) : Bool :=
  match cs with
  | [] => listStartsWith pat []
  | _ :: rest => listStartsWith pat cs || listHasInfix pat rest

/-- Python `pat in s` (substring containment). -/
def hasSub (s pat : String) : Bool :=
  listHasInfix pat.data s.data

/-! ## Constants of `resume_service.py` -/

/-- `MIN_TEXT_LENGTH_THRESHOLD = 50` (scanned-PDF detection, Task 4555). -/
def MIN_TEXT_LENGTH_THRESHOLD : Nat := 50

/-- `MAX_FILE_SIZE_BYTES = 5 * 1024 * 1024`. -/
def MAX_FILE_SIZE_BYTES : Nat := 5 * 1024 * 1024

/-! ## `download_resume_file` (file download, size ceiling)

```python
try:
    response = client.storage.from_(bucket).download(file_path)
    if response is None:
        raise ValueError(f"ParseError: FileNotFound - \x7bfile_path\x7d")
    file_size = len(response)
    if file_size > MAX_FILE_SIZE_BYTES:
        raise ValueError("ParseError: Oversize")
    return response
except Exception as e:
    error_msg = str(e)
    if "not found" in error_msg.lower() or "404" in error_msg:
        raise ValueError(f"ParseError: FileNotFound - \x7bfile_path\x7d")
    raise ValueError(f"ParseError: DownloadFailed - \x7berror_msg\x7d")
```

The storage call is a parameter: it either raises (with some message) or
returns `None` or returns a byte payload.  Note that in CPython the
`except Exception` clause also catches the two `ValueError`s raised inside
the `try` body, and re-wraps them.
-/

/-- Outcome of `client.storage.from_(bucket).download(file_path)`:
an exception message, or `None`, or a byte payload. -/
inductive StorageDownload where
  | raised (msg : String)
  | returnedNone
  | payload (content : List Nat)
deriving DecidableEq, Repr

/-- The body of the `try:` block of `download_resume_file`. -/
def download_try_body (file_path : String) (storage : StorageDownload) :
    Except String (List Nat) :=
  match storage with
  | .raised msg => .error msg
  | .returnedNone => .error ("ParseError: FileNotFound - " ++ file_path)
  | .payload content =>
    if content.length > MAX_FILE_SIZE_BYTES then
      .error ("ParseError: Oversize")
    else
      .ok content

/-- `download_resume_file`: the `try` body together with the
`except Exception` re-classification clause. -/
def download_resume_file (file_path : String) (storage : StorageDownload) :
    Except String (List Nat) :=
  match download_try_body file_path storage with
  | .ok content => .ok content
  | .error error_msg =>
    if hasSub (pyLower error_msg) ("not found") || hasSub error_msg ("404") then
      .error ("ParseError: FileNotFound - " ++ file_path)
    else
      .error ("ParseError: DownloadFailed - " ++ error_msg)

/-- A payload of exactly `MAX_FILE_SIZE_BYTES` bytes (all zero). -/
def maxSizePayload : List Nat := List.replicate MAX_FILE_SIZE_BYTES 0

/-- A payload one byte over the ceiling. -/
def oversizePayload : List Nat := List.replicate (MAX_FILE_SIZE_BYTES + 1) 0

/-- C1: the claim says an oversize payload always fails with the `Oversize`
classification.  On the code, the `ValueError("ParseError: Oversize")`
raised inside the `try` block is caught by the function's own
`except Exception` clause and re-raised wrapped as
`"ParseError: DownloadFailed - ParseError: Oversize"`, so the surfaced
classification is `DownloadFailed`, not `Oversize` — contradicting the
function's docstring (`ParseError: Oversize - File exceeds 5MB limit`).
A payload of exactly `MAX` bytes is returned unchanged, as claimed. -/
theorem download_oversize_misclassified :
    download_resume_file ("resumes/f.pdf") (.payload oversizePayload) =
      .error ("ParseError: DownloadFailed - ParseError: Oversize") ∧
    download_resume_file ("resumes/f.pdf") (.payload maxSizePayload) =
      .ok maxSizePayload := by
  have hgt : oversizePayload.length > MAX_FILE_SIZE_BYTES := by
    rw [oversizePayload, List.length_replicate]
    omega
  have hle : ¬ maxSizePayload.length > MAX_FILE_SIZE_BYTES := by
    rw [maxSizePayload, List.length_replicate]
    omega
  have hsub : (hasSub (pyLower ("ParseError: Oversize")) ("not found")
      || hasSub ("ParseError: Oversize") ("404")) = false := by decide
  constructor
  · have h1 : download_try_body ("resumes/f.pdf") (.payload oversizePayload) =
        .error ("ParseError: Oversize") := by
      simp [download_try_body, hgt]
    rw [download_resume_file, h1]
    simp only [Bool.or_eq_false_iff] at hsub
    simp [hsub.1, hsub.2]
  · have h1 : download_try_body ("resumes/f.pdf") (.payload maxSizePayload) =
        .ok maxSizePayload := by
      simp [download_try_body, hle]
    rw [download_resume_file, h1]

/-! ## `parse_pdf_resume` (PDF decoding, scanned-PDF guard)

```python
try:
    extracted_text = extract_pdf_text(pdf_file)
    stripped_text = extracted_text.strip() if extracted_text else ""
    if len(stripped_text) < MIN_TEXT_LENGTH_THRESHOLD:
        raise ValueError("ParseError: ScannedPdfNoText")
    return stripped_text
except PDFEncryptionError: raise ValueError("ParseError: EncryptedPdf")
except PDFTextExtractionNotAllowed: raise ValueError("ParseError: EncryptedPdf")
except PDFSyntaxError: raise ValueError("ParseError: CorruptedPdf")
except ValueError: raise
except Exception as e:
    ...sniff "encrypt"/"password" → EncryptedPdf,
       "corrupt"/"invalid"/"malformed" → CorruptedPdf,
       else "ParseError: CorruptedPdf - " + str(e)
```

Unlike `download_resume_file`, this function re-raises its own
`ValueError`s unwrapped (the bare `except ValueError: raise` clause), so
`ScannedPdfNoText` propagates intact.  The pdfminer call is a parameter.
-/

/-- Outcome of `extract_pdf_text`: a text, or one of the pdfminer
exceptions, or an arbitrary other exception. -/
inductive PdfExtract where
  | text (t : String)
  | encryptionError
  | extractionNotAllowed
  | syntaxError (msg : String)
  | otherError (msg : String)
deriving DecidableEq, Repr

/-- `parse_pdf_resume`. -/
def parse_pdf_resume (outcome : PdfExtract) : Except String String :=
  match outcome with
  | .text extracted_text =>
    let stripped_text := if extracted_text.data.isEmpty then "" else pythonStrip extracted_text
    if stripped_text.length < MIN_TEXT_LENGTH_THRESHOLD then
      .error ("ParseError: ScannedPdfNoText")
    else
      .ok stripped_text
  | .encryptionError => .error ("ParseError: EncryptedPdf")
  | .extractionNotAllowed => .error ("ParseError: EncryptedPdf")
  | .syntaxError _ => .error ("ParseError: CorruptedPdf")
  | .otherError msg =>
    if hasSub (pyLower msg) ("encrypt") || hasSub (pyLower msg) ("password") then
      .error ("ParseError: EncryptedPdf")
    else if hasSub (pyLower msg) ("corrupt") || hasSub (pyLower msg) ("invalid")
        || hasSub (pyLower msg) ("malformed") then
      .error ("ParseError: CorruptedPdf")
    else
      .error ("ParseError: CorruptedPdf - " ++ msg)

/-- C3: a PDF whose extracted, stripped text is shorter than 50 characters
fails with `ScannedPdfNoText`; stripped text of exactly 50 characters
succeeds and is returned. -/
theorem parse_pdf_scanned_guard (t : String) :
    ((pythonStrip t).length < MIN_TEXT_LENGTH_THRESHOLD →
      parse_pdf_resume (.text t) = .error ("ParseError: ScannedPdfNoText")) ∧
    ((pythonStrip t).length = MIN_TEXT_LENGTH_THRESHOLD →
      parse_pdf_resume (.text t) = .ok (pythonStrip t)) := by
  have hemp : t.data.isEmpty = true → pythonStrip t = "" := by
    intro h
    cases t with
    | mk data =>
      cases data with
      | nil => rfl
      | cons c cs => simp at h
  constructor
  · intro hlt
    by_cases he : t.data.isEmpty
    · rw [parse_pdf_resume]
      simp only [he, if_true]
      rw [if_pos]
      rw [MIN_TEXT_LENGTH_THRESHOLD]
      norm_num [String.length]
    · rw [parse_pdf_resume]
      simp only [he, if_false, Bool.false_eq_true]
      rw [if_pos hlt]
  · intro heq
    by_cases he : t.data.isEmpty
    · rw [hemp he] at heq
      simp [String.length, MIN_TEXT_LENGTH_THRESHOLD] at heq
    · rw [parse_pdf_resume]
      simp only [he, if_false, Bool.false_eq_true]
      rw [if_neg (by omega)]

/-- Witness for C3 at concrete inputs: a 49-character stripped text fails,
a 50-character stripped text is returned. -/
theorem parse_pdf_scanned_guard_witness :
    parse_pdf_resume (.text ("  " ++ String.mk (List.replicate 49 'a') ++ " ")) =
      .error ("ParseError: ScannedPdfNoText") ∧
    parse_pdf_resume (.text (String.mk (List.replicate 50 'b'))) =
      .ok (String.mk (List.replicate 50 'b')) := by
  constructor
  · exact (parse_pdf_scanned_guard _).1 (by decide)
  · have h := (parse_pdf_scanned_guard (String.mk (List.replicate 50 'b'))).2 (by decide)
    rw [show pythonStrip (String.mk (List.replicate 50 'b')) =
      String.mk (List.replicate 50 'b') from by decide] at h
    exact h

/-! ## `update_resume_status` and `parse_resume_background` (ingestion job)

`update_resume_status(resume_id, status, error_message, db)` is the status
store boundary call of the job: it looks up the resume row and writes
`processing_status`, `error_message`, and — exactly when the new status is
`"Completed"` — `last_analyzed_at = datetime.utcnow()`; any exception it
meets internally is logged and swallowed, so it never throws back into the
job.  We model one invocation of it as the `StatusWrite` record it sends to
the status store.

`parse_resume_background(resume_id, file_path)` is embedded as a function
from the outcomes of its four collaborator steps (resume lookup, byte
download, content parsing, persistence) to the list of status writes it
performs, in order.  The caller (`resumes.py`) always invokes it with
`resume_id=str(resume.id)`, a well-formed UUID string, so the
`UUID(resume_id)` conversion never fails.
-/

/-- One status-store write performed by `update_resume_status`. -/
structure StatusWrite where
  status : String
  error_message : Option String
  sets_last_analyzed : Bool
deriving DecidableEq, Repr

/-- `update_resume_status`: sets `processing_status` and `error_message`,
and stamps `last_analyzed_at` exactly when the status is `"Completed"`. -/
def update_resume_status (status : String) (error_message : Option String) :
    StatusWrite :=
  { status := status
    error_message := error_message
    sets_last_analyzed := status == "Completed" }

/-- Outcome of one embedded Python call: a value, a raised `ValueError`,
or any other raised exception. -/
inductive PyCall (α : Type) where
  | ok (a : α)
  | valueError (msg : String)
  | otherExc (msg : String)
deriving DecidableEq, Repr

/-- Did the call return normally? -/
def PyCall.succeeded : PyCall α → Bool
  | .ok _ => true
  | .valueError _ => false
  | .otherExc _ => false

/-- The environment of one job invocation: whether the resume row exists,
and the outcomes of `download_resume_file`, `parse_resume_content`, and
`update_resume_with_parsed_data`. -/
structure JobEnv where
  resume_found : Bool
  download : PyCall (List Nat)
  parseContent : PyCall Unit
  persist : PyCall Unit
deriving DecidableEq, Repr

/-- `parse_resume_background`: the ordered list of status writes of one
invocation.  First the `"Processing"` write; then the body runs under
`except ValueError` (which writes `Failed` with the exception message) and
`except Exception` (which writes `Failed` with
`"ParseError: UnexpectedError - " + str(e)`); a fully successful body ends
with the `"Completed"` write. -/
def parse_resume_background (resume_id : String) (env : JobEnv) :
    List StatusWrite :=
  let w1 := update_resume_status ("Processing") none
  let rest : List StatusWrite :=
    if env.resume_found = false then
      [update_resume_status ("Failed")
        (some ("ParseError: ResumeNotFound - " ++ resume_id))]
    else
      match env.download with
      | .valueError m => [update_resume_status ("Failed") (some m)]
      | .otherExc m =>
        [update_resume_status ("Failed") (some ("ParseError: UnexpectedError - " ++ m))]
      | .ok _ =>
        match env.parseContent with
        | .valueError m => [update_resume_status ("Failed") (some m)]
        | .otherExc m =>
          [update_resume_status ("Failed") (some ("ParseError: UnexpectedError - " ++ m))]
        | .ok _ =>
          match env.persist with
          | .valueError m => [update_resume_status ("Failed") (some m)]
          | .otherExc m =>
            [update_resume_status ("Failed") (some ("ParseError: UnexpectedError - " ++ m))]
          | .ok _ => [update_resume_status ("Completed") none]
  w1 :: rest

/-- The initial `"Processing"` write. -/
def processingWrite : StatusWrite := update_resume_status ("Processing") none

/-- C2: every invocation first writes `Processing`, then ends with exactly
one terminal write — `Completed` (stamping the completion timestamp) iff
every step succeeded, otherwise `Failed` carrying an error detail; the last
write is never `Pending` or `Processing`. -/
theorem ingestion_status_trace (resume_id : String) (env : JobEnv) :
    ∃ w : StatusWrite,
      parse_resume_background resume_id env = [processingWrite, w] ∧
      (w.status = "Completed" ∨ w.status = "Failed") ∧
      (w.status = "Completed" ↔
        env.resume_found = true ∧ env.download.succeeded = true ∧
        env.parseContent.succeeded = true ∧ env.persist.succeeded = true) ∧
      (w.status = "Completed" → w.sets_last_analyzed = true ∧ w.error_message = none) ∧
      (w.status = "Failed" → ∃ m, w.error_message = some m) := by
  obtain ⟨found, download, parseC, persist⟩ := env
  cases found <;> cases download <;> cases parseC <;> cases persist <;>
    exact ⟨_, rfl, by simp [update_resume_status, PyCall.succeeded]⟩

/-- Witness for C2 at a concrete environment (all steps succeed). -/
theorem ingestion_status_trace_witness :
    ∃ w : StatusWrite,
      parse_resume_background ("5e8f") ⟨true, .ok [], .ok (), .ok ()⟩ =
        [processingWrite, w] ∧
      (w.status = "Completed" ∨ w.status = "Failed") ∧
      (w.status = "Completed" ↔
        (true : Bool) = true ∧ (PyCall.ok (α := List Nat) []).succeeded = true ∧
        (PyCall.ok ()).succeeded = true ∧ (PyCall.ok ()).succeeded = true) ∧
      (w.status = "Completed" → w.sets_last_analyzed = true ∧ w.error_message = none) ∧
      (w.status = "Failed" → ∃ m, w.error_message = some m) :=
  ingestion_status_trace ("5e8f") ⟨true, .ok [], .ok (), .ok ()⟩

/-! ## `update_resume_with_parsed_data` (experience persistence, C9)

```python
for i, exp in enumerate(experiences_list):
    if isinstance(exp, dict):
        experience = ResumeExperience(
            resume_id=resume.id,
            company_name=exp.get("company_name") or "Unknown Company",
            job_title=exp.get("job_title") or "Position",
            description=exp.get("raw_text") or exp.get("description"),
            start_date=exp.get("start_date") or date.today(),
            end_date=exp.get("end_date"),
            is_current=exp.get("is_current", False),
            display_order=i)
```

`resume_model.py` declares `company_name`, `job_title` and `start_date` as
non-nullable columns, so the row type below has them non-optional.
`date.today()` is a parameter `today`.
-/

/-- A `datetime.date` value. -/
structure PyDate where
  year : Nat
  month : Nat
  day : Nat
deriving DecidableEq, Repr

/-- One experience dict as produced by `_parse_experience_section` (its
dicts carry exactly the keys below; `description` is never set by the
extractor and models `exp.get("description")`). -/
structure ExperienceDict where
  raw_text : Option String
  company_name : Option String
  job_title : Option String
  start_date : Option PyDate
  end_date : Option PyDate
  is_current : Bool
  description : Option String
deriving DecidableEq, Repr

/-- A `ResumeExperience` row as constructed by
`update_resume_with_parsed_data`. -/
structure ResumeExperienceRow where
  company_name : String
  job_title : String
  description : Option String
  start_date : PyDate
  end_date : Option PyDate
  is_current : Bool
  display_order : Nat
deriving DecidableEq, Repr

/-- Python `a or b` for an optional string `a` (both `None` and `""` are
falsy, so both fall through to the default). -/
def pyOrStr (a : Option String) (b : String) : String :=
  match a with
  | some s => if s.data.isEmpty then b else s
  | none => b

/-- Python `a or b` for two optional strings. -/
def pyOrOpt (a b : Option String) : Option String :=
  match a with
  | some s => if s.data.isEmpty then b else some s
  | none => b

/-- Python `a or b` for an optional date (a `date` object is always
truthy). -/
def pyOrDate (a : Option PyDate) (b : PyDate) : PyDate :=
  match a with
  | some d => d
  | none => b

/-- The row built for the `i`-th experience dict. -/
def experienceRowOfDict (today : PyDate) (i : Nat) (exp : ExperienceDict) :
    ResumeExperienceRow :=
  { company_name := pyOrStr exp.company_name ("Unknown Company")
    job_title := pyOrStr exp.job_title ("Position")
    description := pyOrOpt exp.raw_text exp.description
    start_date := pyOrDate exp.start_date today
    end_date := exp.end_date
    is_current := exp.is_current
    display_order := i }

/-- All experience rows persisted by `update_resume_with_parsed_data`. -/
def persistExperienceRows (today : PyDate) (exps : List ExperienceDict) :
    List ResumeExperienceRow :=
  exps.enum.map fun p => experienceRowOfDict today p.1 p.2

/-- C9: persistence replaces absent experience sub-fields with sentinels —
no `company_name` becomes `"Unknown Company"`, no `job_title` becomes
`"Position"`, no `start_date` becomes the current date — so the persisted
row (whose `company_name`, `job_title`, `start_date` columns are
non-nullable) never records those fields as absent. -/
theorem experience_sentinel_fill (today : PyDate) (i : Nat) (exp : ExperienceDict) :
    (exp.company_name = none →
      (experienceRowOfDict today i exp).company_name = "Unknown Company") ∧
    (exp.job_title = none →
      (experienceRowOfDict today i exp).job_title = "Position") ∧
    (exp.start_date = none →
      (experienceRowOfDict today i exp).start_date = today) := by
  refine ⟨fun h => ?_, fun h => ?_, fun h => ?_⟩ <;>
    simp [experienceRowOfDict, pyOrStr, pyOrDate, h]

/-- Witness for C9 at a concrete dict with all three fields absent. -/
theorem experience_sentinel_fill_witness :
    (experienceRowOfDict ⟨2026, 10, 12⟩ 0
      ⟨some "Did things", none, none, none, none, false, none⟩).company_name =
        "Unknown Company" ∧
    (experienceRowOfDict ⟨2026, 10, 12⟩ 0
      ⟨some "Did things", none, none, none, none, false, none⟩).job_title =
        "Position" ∧
    (experienceRowOfDict ⟨2026, 10, 12⟩ 0
      ⟨some "Did things", none, none, none, none, false, none⟩).start_date =
        ⟨2026, 10, 12⟩ := by
  have h := experience_sentinel_fill ⟨2026, 10, 12⟩ 0
    ⟨some "Did things", none, none, none, none, false, none⟩
  exact ⟨h.1 rfl, h.2.1 rfl, h.2.2 rfl⟩

/-! ## `_parse_skills_section` (skills extraction, C5)

```python
skills = []
for line in skills_text.split("\n"):
    line = line.strip()
    if not line: continue
    colon_match = re.match(r"^([A-Za-z\s]+):\s*(.+)$", line)
    if colon_match: line = colon_match.group(2)
    parts = re.split(r"[,;|•·▪◦‣⁃]\s*", line)
    for part in parts:
        skill = part.strip().strip("-•·").strip()
        if skill and len(skill) < 50 and len(skill) > 1:
            skills.append(skill)
seen = set(); unique_skills = []
for skill in skills:
    if skill.lower() not in seen:
        seen.add(skill.lower()); unique_skills.append(skill)
return unique_skills[:50]
```

The two small regexes are compiled to direct scanners:
* `re.match(r"^([A-Za-z\s]+):\s*(.+)$", line)` succeeds iff the maximal
  leading run of `[A-Za-z\s]` characters is nonempty and is followed by a
  colon (`:` is outside the class, so the greedy group cannot backtrack to
  any other split), and at least one character follows the colon (`.+`);
  group 2 is the text after the colon with its leading whitespace dropped,
  except that the greedy `\s*` gives one whitespace character back when
  everything after the colon is whitespace (so that `.+` can match).
* `re.split(r"[,;|•·▪◦‣⁃]\s*", line)` cuts at every delimiter character and
  drops the whitespace run following each cut; whitespace is never a
  delimiter, so cutting first and then dropping leading whitespace of the
  later pieces is the same splitting.
-/

/-- Split a character list at every occurrence of `sep`, keeping empty
segments (Python `str.split(sep)`). -/
def splitOnChar (sep : Char) : List Char → List (List Char)
  | [] => [[]]
  | c :: rest =>
    if c = sep then [] :: splitOnChar sep rest
    else
      match splitOnChar sep rest with
      | [] => [[c]]
      | seg :: segs => (c :: seg) :: segs

/-- Python `str.strip(chars)`: drop the given characters from both ends. -/
def stripChars (p : Char → Bool) (cs : List Char) : List Char :=
  ((cs.dropWhile p).reverse.dropWhile p).reverse

/-- The class `[A-Za-z\s]` of the category-label pattern. -/
def letterOrWs (c : Char) : Bool :=
  ('A' ≤ c && c ≤ 'Z') || ('a' ≤ c && c ≤ 'z') || pyWs c

/-- `re.match(r"^([A-Za-z\s]+):\s*(.+)$", line)`: on success replace the
line by group 2, otherwise keep it. -/
def skillsColonRelabel (line : List Char) : List Char :=
  let run := (line.takeWhile letterOrWs).length
  if run ≥ 1 then
    match line.drop run with
    | ':' :: rest =>
      if rest.isEmpty then line
      else
        let w := (rest.takeWhile pyWs).length
        rest.drop (min w (rest.length - 1))
    | _ => line
  else line

/-- The delimiter class `[,;|•·▪◦‣⁃]`. -/
def skillDelim (c : Char) : Bool :=
  c = ',' || c = ';' || c = '|' || c = '•' || c = '·' || c = '▪' ||
  c = '◦' || c = '‣' || c = '⁃'

/-- Split at every delimiter character (the pieces between cuts). -/
def splitAtDelims : List Char → List (List Char)
  | [] => [[]]
  | c :: rest =>
    if skillDelim c then [] :: splitAtDelims rest
    else
      match splitAtDelims rest with
      | [] => [[c]]
      | seg :: segs => (c :: seg) :: segs

/-- `re.split(r"[,;|•·▪◦‣⁃]\s*", line)`: each delimiter match also
swallows the whitespace run after the delimiter. -/
def splitSkillParts (line : List Char) : List (List Char) :=
  match splitAtDelims line with
  | [] => []
  | first :: later => first :: later.map (List.dropWhile pyWs)

/-- The characters stripped by `part.strip("-•·")`. -/
def bulletChar (c : Char) : Bool :=
  c = '-' || c = '•' || c = '·'

/-- `part.strip().strip("-•·").strip()`. -/
def cleanSkillToken (part : List Char) : List Char :=
  stripChars pyWs (stripChars bulletChar (stripChars pyWs part))

/-- `if skill and len(skill) < 50 and len(skill) > 1`. -/
def skillAccept (skill : List Char) : Bool :=
  !skill.isEmpty && skill.length < 50 && skill.length > 1

/-- The `skills` list of `_parse_skills_section` before deduplication: the
accepted tokens in acceptance order. -/
def skillsRawTokens (skills_text : String) : List String :=
  ((splitOnChar '\n' skills_text.data).map fun l =>
    let line := pyStripList l
    if line.isEmpty then []
    else
      let line2 := skillsColonRelabel line
      ((splitSkillParts line2).map cleanSkillToken).filter skillAccept
  ).flatten.map fun cs => (⟨cs⟩ : String)

/-- The case-insensitive deduplication loop (`seen` holds the lowered
strings already kept). -/
def uniqueSkillsAux (seen : List String) : List String → List String
  | [] => []
  | s :: rest =>
    if seen.contains (pyLower s) then uniqueSkillsAux seen rest
    else s :: uniqueSkillsAux (pyLower s :: seen) rest

/-- `_parse_skills_section`. -/
def parse_skills_section (skills_text : String) : List String :=
  if skills_text.data.isEmpty then []
  else (uniqueSkillsAux [] (skillsRawTokens skills_text)).take 50

/-- Elements kept by the dedupe loop have lowerings outside `seen`. -/
theorem uniqueSkillsAux_lower_notMem (seen : List String) (l : List String) :
    ∀ s ∈ uniqueSkillsAux seen l, ¬ seen.contains (pyLower s) = true := by
  induction l generalizing seen with
  | nil => simp [uniqueSkillsAux]
  | cons t rest ih =>
    intro s hs
    rw [uniqueSkillsAux] at hs
    by_cases hc : seen.contains (pyLower t) = true
    · rw [if_pos hc] at hs
      exact ih seen s hs
    · rw [if_neg hc] at hs
      rcases List.mem_cons.mp hs with hs | hs
      · subst hs; exact hc
      · have := ih (pyLower t :: seen) s hs
        intro hmem
        exact this (by simp [List.contains] at hmem ⊢; exact .inr hmem)

/-- The dedupe loop output is pairwise distinct under lowering. -/
theorem uniqueSkillsAux_pairwise (seen : List String) (l : List String) :
    (uniqueSkillsAux seen l).Pairwise (fun a b => pyLower a ≠ pyLower b) := by
  induction l generalizing seen with
  | nil => simp [uniqueSkillsAux]
  | cons t rest ih =>
    rw [uniqueSkillsAux]
    by_cases hc : seen.contains (pyLower t) = true
    · rw [if_pos hc]; exact ih seen
    · rw [if_neg hc]
      refine List.Pairwise.cons ?_ (ih (pyLower t :: seen))
      intro b hb hedge
      have := uniqueSkillsAux_lower_notMem (pyLower t :: seen) rest b hb
      exact this (by simp [List.contains, hedge])

/-- The dedupe loop output is a sublist of its input. -/
theorem uniqueSkillsAux_sublist (seen : List String) (l : List String) :
    (uniqueSkillsAux seen l).Sublist l := by
  induction l generalizing seen with
  | nil => simp [uniqueSkillsAux]
  | cons t rest ih =>
    rw [uniqueSkillsAux]
    by_cases hc : seen.contains (pyLower t) = true
    · rw [if_pos hc]; exact (ih seen).cons t
    · rw [if_neg hc]; exact (ih (pyLower t :: seen)).cons₂ t

/-- Each kept element is the first input element with its lowering (among
inputs whose lowering is not already in `seen`). -/
theorem uniqueSkillsAux_first_occurrence (seen : List String) (l : List String) :
    ∀ s ∈ uniqueSkillsAux seen l,
      (l.filter fun t => pyLower t == pyLower s).head? = some s := by
  induction l generalizing seen with
  | nil => simp [uniqueSkillsAux]
  | cons t rest ih =>
    intro s hs
    rw [uniqueSkillsAux] at hs
    by_cases hc : seen.contains (pyLower t) = true
    · rw [if_pos hc] at hs
      have hne : pyLower t ≠ pyLower s := by
        intro he
        exact uniqueSkillsAux_lower_notMem seen rest s hs (he ▸ hc)
      rw [List.filter_cons, if_neg (by simpa using hne)]
      exact ih seen s hs
    · rw [if_neg hc] at hs
      rcases List.mem_cons.mp hs with hs | hs
      · subst hs
        rw [List.filter_cons, if_pos (by simp)]
        rfl
      · have hnotin := uniqueSkillsAux_lower_notMem (pyLower t :: seen) rest s hs
        have hne : pyLower t ≠ pyLower s := by
          intro he
          exact hnotin (by simp [List.contains, he])
        rw [List.filter_cons, if_neg (by simpa using hne)]
        exact ih (pyLower t :: seen) s hs

/-- C5: the extracted skill list has no two entries equal after lowering,
is a sublist of the accepted tokens in acceptance order, keeps for each
entry the casing of its first accepted occurrence, and has at most 50
entries. -/
theorem skills_dedupe_invariant (skills_text : String) :
    (parse_skills_section skills_text).Pairwise (fun a b => pyLower a ≠ pyLower b) ∧
    (parse_skills_section skills_text).length ≤ 50 ∧
    (parse_skills_section skills_text).Sublist (skillsRawTokens skills_text) ∧
    ∀ s ∈ parse_skills_section skills_text,
      ((skillsRawTokens skills_text).filter fun t => pyLower t == pyLower s).head? =
        some s := by
  rw [parse_skills_section]
  by_cases he : skills_text.data.isEmpty
  · simp [he]
  · rw [if_neg he]
    refine ⟨?_, ?_, ?_, ?_⟩
    · exact (uniqueSkillsAux_pairwise [] _).sublist (List.take_sublist _ _)
    · simp
    · exact (List.take_sublist _ _).trans (uniqueSkillsAux_sublist [] _)
    · intro s hs
      exact uniqueSkillsAux_first_occurrence [] _ s (List.mem_of_mem_take hs)

/-! ## A small backtracking regex engine

The remaining extractors use Python `re` patterns with features beyond the
two scanners above: greedy/lazy quantifiers over character classes,
case-insensitive literals, optional groups, alternation, `^`/`$` (with and
without `re.MULTILINE`), `\b`, and one two-character negative lookbehind.
`reMatch` below implements exactly CPython's backtracking order for these
constructs: alternatives left to right, optional groups with the present
branch first, greedy quantifiers longest first, lazy quantifiers shortest
first, `re.search` trying start positions left to right.  The matcher
carries the reversed left context (for `^`, `\b` and the lookbehind) and is
written in continuation-passing style so that a failing tail backtracks
into earlier choice points, as in CPython.
-/

/-- Regex abstract syntax (the fragment used by `resume_service.py`). -/
inductive Re where
  | eps
  | cls (p : Char → Bool)
  | litCI (s : List Char)
  | seq (a b : Re)
  | alt (a b : Re)
  | opt (a : Re)
  | starCls (p : Char → Bool)
  | plusCls (p : Char → Bool)
  | repCls (lo hi : Nat) (p : Char → Bool)
  | lazyPlusCls (p : Char → Bool)
  | bolM
  | eolM
  | eolS
  | wordB
  | nlb2 (p1 p2 : Char → Bool)

/-- Case-insensitive character comparison (`re.IGNORECASE`, ASCII). -/
def charCI (c d : Char) : Bool :=
  pyLowerChar c = pyLowerChar d

/-- `\w` (ASCII scope). -/
def wordChar (c : Char) : Bool :=
  ('A' ≤ c && c ≤ 'Z') || ('a' ≤ c && c ≤ 'z') || ('0' ≤ c && c ≤ '9') || c = '_'

/-- Is the optional character a word character? (for `\b`). -/
def wordCharOpt : Option Char → Bool
  | some c => wordChar c
  | none => false

/-- Length of the maximal run of `p`-characters at the head. -/
def countWhile (p : Char → Bool) (cs : List Char) : Nat :=
  (cs.takeWhile p).length

/-- Push `n` consumed characters onto the reversed left context. -/
def pushLeft (cs left : List Char) (n : Nat) : List Char :=
  (cs.take n).reverse ++ left

/-- Case-insensitive literal matching, in CPS. -/
def matchLitCI (s : List Char) (left cs : List Char)
    (k : List Char → List Char → Option α) : Option α :=
  match s, cs with
  | [], _ => k left cs
  | _ :: _, [] => none
  | a :: s1, c :: cs1 => if charCI a c then matchLitCI s1 (c :: left) cs1 k else none

/-- Try consuming `j, j-1, …, floor` characters of a class run (greedy). -/
def tryDropsDown (floor : Nat) (left cs : List Char)
    (k : List Char → List Char → Option α) : Nat → Option α
  | 0 => if floor = 0 then k left cs else none
  | j + 1 =>
    if j + 1 < floor then none
    else
      (k (pushLeft cs left (j + 1)) (cs.drop (j + 1))) <|>
        tryDropsDown floor left cs k j

/-- Try consuming `j, j+1, …` characters, at most `fuel` attempts (lazy). -/
def tryDropsUp (left cs : List Char) (k : List Char → List Char → Option α) :
    Nat → Nat → Option α
  | _, 0 => none
  | j, fuel + 1 =>
    (k (pushLeft cs left j) (cs.drop j)) <|> tryDropsUp left cs k (j + 1) fuel

/-- The backtracking matcher.  `left` is the reversed text before the
current position; `cs` the text from it; `k` the continuation receiving the
updated context on each candidate parse, in CPython's attempt order. -/
def reMatch : Re → List Char → List Char → (List Char → List Char → Option α) → Option α
  | .eps, left, cs, k => k left cs
  | .cls p, left, cs, k =>
    match cs with
    | [] => none
    | c :: rest => if p c then k (c :: left) rest else none
  | .litCI s, left, cs, k => matchLitCI s left cs k
  | .seq a b, left, cs, k => reMatch a left cs fun l r => reMatch b l r k
  | .alt a b, left, cs, k => reMatch a left cs k <|> reMatch b left cs k
  | .opt a, left, cs, k => reMatch a left cs k <|> k left cs
  | .starCls p, left, cs, k => tryDropsDown 0 left cs k (countWhile p cs)
  | .plusCls p, left, cs, k => tryDropsDown 1 left cs k (countWhile p cs)
  | .repCls lo hi p, left, cs, k => tryDropsDown lo left cs k (min hi (countWhile p cs))
  | .lazyPlusCls p, left, cs, k => tryDropsUp left cs k 1 (countWhile p cs)
  | .bolM, left, cs, k =>
    if left.isEmpty || left.head? = some '\n' then k left cs else none
  | .eolM, left, cs, k =>
    if cs.isEmpty || cs.head? = some '\n' then k left cs else none
  | .eolS, left, cs, k =>
    if cs.isEmpty || cs = ['\n'] then k left cs else none
  | .wordB, left, cs, k =>
    if wordCharOpt left.head? != wordCharOpt cs.head? then k left cs else none
  | .nlb2 p1 p2, left, cs, k =>
    match left with
    | c1 :: c2 :: _ => if p2 c1 && p1 c2 then none else k left cs
    | _ => k left cs

/-- Does `r` match at position `i` of `text`?  On success, the suffix after
the match (first success in CPython order). -/
def reMatchAt (r : Re) (text : List Char) (i : Nat) : Option (List Char) :=
  reMatch r ((text.take i).reverse) (text.drop i) fun _ rest => some rest

/-- Scan start positions `i, i+1, …` (`fuel` bounds the scan). -/
def reSearchAux (r : Re) (text : List Char) (i : Nat) : Nat → Option (Nat × Nat)
  | 0 => none
  | fuel + 1 =>
    match reMatchAt r text i with
    | some rest => some (i, text.length - rest.length)
    | none => reSearchAux r text (i + 1) fuel

/-- `re.search` from position `i`: the leftmost match, as a
`(start, end)` span. -/
def reSearchFrom (r : Re) (text : List Char) (i : Nat) : Option (Nat × Nat) :=
  reSearchAux r text i (text.length + 1 - i)

/-- `re.search`. -/
def reSearch (r : Re) (text : List Char) : Option (Nat × Nat) :=
  reSearchFrom r text 0

/-- `re.match` (anchored at position 0). -/
def reMatchStart (r : Re) (text : List Char) : Option (List Char) :=
  reMatchAt r text 0

/-- Slice `text[s:e]` (Python slicing on code points). -/
def pySlice (text : List Char) (s e : Nat) : List Char :=
  (text.take e).drop s

/-- `re.sub(r, "", text)` from position `i` (all matches removed; the
patterns this is used with never match the empty string, the `e ≤ s` guard
only keeps the recursion well-founded). -/
def reSubEmptyAux (r : Re) (text : List Char) (i : Nat) : Nat → List Char
  | 0 => text.drop i
  | fuel + 1 =>
    match reSearchFrom r text i with
    | none => text.drop i
    | some (s, e) =>
      if e ≤ s then
        pySlice text i (s + 1) ++ reSubEmptyAux r text (s + 1) fuel
      else
        pySlice text i s ++ reSubEmptyAux r text e fuel

/-- `re.sub(r, "", text)`. -/
def reSubEmpty (r : Re) (text : List Char) : List Char :=
  reSubEmptyAux r text 0 (text.length + 1)

/-- `re.findall(r, text)` for a pattern whose single group spans the whole
match body: the list of matched spans, left to right, non-overlapping. -/
def reFindAllAux (r : Re) (text : List Char) (i : Nat) : Nat → List (List Char)
  | 0 => []
  | fuel + 1 =>
    match reSearchFrom r text i with
    | none => []
    | some (s, e) =>
      if e ≤ s then pySlice text s e :: reFindAllAux r text (s + 1) fuel
      else pySlice text s e :: reFindAllAux r text e fuel

/-- `re.findall(r, text)`. -/
def reFindAll (r : Re) (text : List Char) : List (List Char) :=
  reFindAllAux r text 0 (text.length + 1)

/-! ## Contact patterns and `_extract_contact_info` / `_extract_name` (C7)

The four `PATTERNS` entries used by `_extract_contact_info` are compiled
with `re.IGNORECASE`; their literals are embedded as `litCI`.  `\d`, `\w`
and the explicit classes are embedded at ASCII scope.
-/

/-- `[0-9]` (`\d`). -/
def digitChar (c : Char) : Bool := '0' ≤ c && c ≤ '9'

/-- ASCII letter (the class `[A-Z]` under `re.IGNORECASE`). -/
def asciiLetter (c : Char) : Bool := ('A' ≤ c && c ≤ 'Z') || ('a' ≤ c && c ≤ 'z')

/-- A case-insensitive literal. -/
def lit (s : String) : Re := .litCI s.data

/-- `p{n,}` as `p p … p p*` (same greedy attempt order). -/
def emailLocalChar (c : Char) : Bool :=
  asciiLetter c || digitChar c || c = '.' || c = '_' || c = '%' || c = '+' || c = '-'

/-- `[A-Za-z0-9.-]`. -/
def emailDomainChar (c : Char) : Bool :=
  asciiLetter c || digitChar c || c = '.' || c = '-'

/-- `[A-Z|a-z]` (the class literally contains `|`). -/
def emailTldChar (c : Char) : Bool :=
  asciiLetter c || c = '|'

/-- `PATTERNS["email"]`:
`\b[A-Za-z0-9._%+-]+@[A-Za-z0-9.-]+\.[A-Z|a-z]{2,}\b`. -/
def emailRe : Re :=
  .seq .wordB (.seq (.plusCls emailLocalChar)
    (.seq (lit ("@")) (.seq (.plusCls emailDomainChar)
      (.seq (lit (".")) (.seq (.seq (.cls emailTldChar)
        (.seq (.cls emailTldChar) (.starCls emailTldChar))) .wordB)))))

/-- `[-.\s]` (phone separators). -/
def phoneSep (c : Char) : Bool := c = '-' || c = '.' || pyWs c

/-- `PATTERNS["phone"]`:
`(?:\+?1[-.\s]?)?(?:\(?\d{3}\)?[-.\s]?)\d{3}[-.\s]?\d{4}|\+\d{1,3}[-.\s]?\d{1,14}`. -/
def phoneRe : Re :=
  .alt
    (.seq (.opt (.seq (.opt (lit ("+"))) (.seq (lit ("1")) (.opt (.cls phoneSep)))))
      (.seq (.seq (.opt (lit ("(")))
          (.seq (.repCls 3 3 digitChar) (.seq (.opt (lit (")"))) (.opt (.cls phoneSep)))))
        (.seq (.repCls 3 3 digitChar) (.seq (.opt (.cls phoneSep)) (.repCls 4 4 digitChar)))))
    (.seq (lit ("+"))
      (.seq (.repCls 1 3 digitChar) (.seq (.opt (.cls phoneSep)) (.repCls 1 14 digitChar))))

/-- `[\w-]`. -/
def wordDashChar (c : Char) : Bool := wordChar c || c = '-'

/-- `(?:https?://)?(?:www\.)?` (shared prefix of the URL patterns). -/
def urlPrefixRe : Re :=
  .seq (.opt (.seq (lit ("http")) (.seq (.opt (lit ("s"))) (lit ("://")))))
    (.opt (lit ("www.")))

/-- `PATTERNS["linkedin"]`:
`(?:https?://)?(?:www\.)?linkedin\.com/in/[\w-]+/?`. -/
def linkedinRe : Re :=
  .seq urlPrefixRe (.seq (lit ("linkedin.com/in/")) (.seq (.plusCls wordDashChar) (.opt (lit ("/")))))

/-- `PATTERNS["github"]`:
`(?:https?://)?(?:www\.)?github\.com/[\w-]+/?`. -/
def githubRe : Re :=
  .seq urlPrefixRe (.seq (lit ("github.com/")) (.seq (.plusCls wordDashChar) (.opt (lit ("/")))))

/-- `match.group(0)` of a span. -/
def group0 (text : List Char) (span : Nat × Nat) : List Char :=
  pySlice text span.1 span.2

/-- The result record of `_extract_contact_info` (the function never sets
`portfolio_url`; it stays `None`). -/
structure ContactInfo where
  email : Option String
  phone : Option String
  linkedin_url : Option String
  github_url : Option String
  portfolio_url : Option String
deriving DecidableEq, Repr

/-- `url if url.startswith("http") else "https://" + url` (case
sensitive, as in the source). -/
def normalizeUrl (url : List Char) : String :=
  if listStartsWith ("http".data) url then ⟨url⟩ else "https://" ++ ⟨url⟩

/-- `_extract_contact_info`. -/
def extract_contact_info (text : String) : ContactInfo :=
  let cs := text.data
  { email :=
      match reSearch emailRe cs with
      | some sp => some (pyLower ⟨group0 cs sp⟩)
      | none => none
    phone :=
      match reSearch phoneRe cs with
      | some sp => some ⟨(group0 cs sp).filter fun c => digitChar c || c = '+'⟩
      | none => none
    linkedin_url :=
      match reSearch linkedinRe cs with
      | some sp => some (normalizeUrl (group0 cs sp))
      | none => none
    github_url :=
      match reSearch githubRe cs with
      | some sp => some (normalizeUrl (group0 cs sp))
      | none => none
    portfolio_url := none }

/-! `_extract_name`:

```python
lines = text.strip().split("\n")
for line in lines[:10]:
    line = line.strip()
    if not line: continue
    if "@" in line or "http" in line.lower(): continue
    if re.match(r"^[\d\s\-\(\)\+]+$", line): continue   # phone numbers
    if len(line) > 50: continue
    if any(keyword in line.lower() for keyword in
           ["resume", "curriculum", "cv", "objective", "summary", "experience"]):
        continue
    words = line.split()
    if 1 <= len(words) <= 4:
        if all(re.match(r"^[A-Za-z\.\-\']+$", word) for word in words):
            return line
return None
```

`re.match(r"^[C]+$", s)` for a one-character class `C` succeeds exactly when
`s` is nonempty and consists of `C`-characters only, and `str.split()` with
no argument splits on whitespace runs discarding empty tokens. -/

/-- The class `[\d\s\-\(\)\+]` (a line that is only a phone number). -/
def phoneLineChar (c : Char) : Bool :=
  digitChar c || pyWs c || c = '-' || c = '(' || c = ')' || c = '+'

/-- The class `[A-Za-z\.\-\']` (characters of a name word). -/
def nameWordChar (c : Char) : Bool :=
  asciiLetter c || c = '.' || c = '-' || c = Char.ofNat 39

/-- Python `str.split()` (split on whitespace, no empty tokens). -/
def pySplitWsAux (cur : List Char) : List Char → List (List Char)
  | [] => if cur.isEmpty then [] else [cur.reverse]
  | c :: rest =>
    if pyWs c then
      if cur.isEmpty then pySplitWsAux [] rest
      else cur.reverse :: pySplitWsAux [] rest
    else pySplitWsAux (c :: cur) rest

/-- Python `str.split()`. -/
def pySplitWs (cs : List Char) : List (List Char) :=
  pySplitWsAux [] cs

/-- Is one of the boilerplate keywords contained in the lowered line? -/
def nameBoilerplate (lower : List Char) : Bool :=
  listHasInfix ("resume".data) lower || listHasInfix ("curriculum".data) lower ||
  listHasInfix ("cv".data) lower || listHasInfix ("objective".data) lower ||
  listHasInfix ("summary".data) lower || listHasInfix ("experience".data) lower

/-- The loop body of `_extract_name` over the (at most 10) scanned lines. -/
def nameFromLines : List (List Char) → Option String
  | [] => none
  | l :: rest =>
    let line := pyStripList l
    if line.isEmpty then nameFromLines rest
    else if listHasInfix ("@".data) line
        || listHasInfix ("http".data) (line.map pyLowerChar) then nameFromLines rest
    else if line.all phoneLineChar then nameFromLines rest
    else if line.length > 50 then nameFromLines rest
    else if nameBoilerplate (line.map pyLowerChar) then nameFromLines rest
    else
      let words := pySplitWs line
      if 1 ≤ words.length && words.length ≤ 4 &&
          words.all (fun w => w.all nameWordChar) then
        some ⟨line⟩
      else nameFromLines rest

/-- `_extract_name`. -/
def extract_name (text : String) : Option String :=
  nameFromLines ((splitOnChar '\n' (pyStripList text.data)).take 10)

/-- The C7 scenario input. -/
def contactScenarioText : String :=
  "John Doe\njohn@example.com | (555) 123-4567\nlinkedin.com/in/johndoe"

/-- C7: on the scenario input, extraction yields the name `John Doe`, the
lower-cased email, the phone digits `5551234567`, and the LinkedIn URL
normalized with an `https://` prefix. -/
theorem contact_scenario_extraction :
    extract_name contactScenarioText = some "John Doe" ∧
    (extract_contact_info contactScenarioText).email = some "john@example.com" ∧
    (extract_contact_info contactScenarioText).phone = some "5551234567" ∧
    (extract_contact_info contactScenarioText).linkedin_url =
      some "https://linkedin.com/in/johndoe" := by
  refine ⟨by decide, by decide, by decide, by decide⟩

/-! ## `_parse_experience_section` (experience extraction, C6)

The three patterns of the function:

* `date_pattern` (IGNORECASE): three alternatives — `MM/YYYY`, `Month
  YYYY`, bare `YYYY` ranges, each with `Present`/`Current` permitted on the
  right, separated by `\s*[-–—to]+\s*` (under IGNORECASE the class also
  matches `T`/`O`).
* `company_location_pattern` (no flags):
  `^(.+?)\s*[-–—]\s*([A-Za-z\s]+,\s*[A-Z]{2})\s*$`, used with `.match`;
  only group 1 is consumed by the code.  The lazy group is embedded as an
  ascending scan over its length, testing the rest of the pattern with the
  engine — exactly CPython's attempt order for `.+?`.
* `job_title_pattern` (IGNORECASE): `^([A-Z][A-Za-z\s]+(?:Manager|…))\s*$`;
  under IGNORECASE `[A-Z]` is any ASCII letter.  When it matches, group 1
  is the line without its trailing whitespace (the only part `\s*$` can
  claim; the first character cannot be whitespace), so
  `group(1).strip()` equals the stripped line.
-/

/-- Right-nested alternation `a|b|…` (left-to-right attempt order). -/
def altChain : List Re → Re
  | [] => .cls fun _ => false
  | [r] => r
  | r :: rest => .alt r (altChain rest)

/-- The month-name alternation of `date_pattern`, in source order. -/
def monthRe : Re :=
  altChain
    [.seq (lit ("Jan")) (.opt (lit ("uary"))),
     .seq (lit ("Feb")) (.opt (lit ("ruary"))),
     .seq (lit ("Mar")) (.opt (lit ("ch"))),
     .seq (lit ("Apr")) (.opt (lit ("il"))),
     lit ("May"),
     .seq (lit ("Jun")) (.opt (lit ("e"))),
     .seq (lit ("Jul")) (.opt (lit ("y"))),
     .seq (lit ("Aug")) (.opt (lit ("ust"))),
     .seq (lit ("Sep")) (.opt (lit ("tember"))),
     .seq (lit ("Oct")) (.opt (lit ("ober"))),
     .seq (lit ("Nov")) (.opt (lit ("ember"))),
     .seq (lit ("Dec")) (.opt (lit ("ember")))]

/-- `[-–—to]` under IGNORECASE. -/
def dashToCharCI (c : Char) : Bool :=
  c = '-' || c = '–' || c = '—' || charCI c 't' || charCI c 'o'

/-- `[-–—to]` without flags (the `re.split` call on the matched date). -/
def dashToCharCS (c : Char) : Bool :=
  c = '-' || c = '–' || c = '—' || c = 't' || c = 'o'

/-- `[\s,\.]`. -/
def monthSepChar (c : Char) : Bool :=
  pyWs c || c = ',' || c = '.'

/-- `\s*[-–—to]+\s*` inside `date_pattern` (IGNORECASE). -/
def rangeSepRe : Re :=
  .seq (.starCls pyWs) (.seq (.plusCls dashToCharCI) (.starCls pyWs))

/-- `Month[\s,\.]*\d{4}`. -/
def monthYearRe : Re :=
  .seq monthRe (.seq (.starCls monthSepChar) (.repCls 4 4 digitChar))

/-- `date_pattern` of `_parse_experience_section`. -/
def dateRe : Re :=
  altChain
    [.seq (.repCls 1 2 digitChar) (.seq (lit ("/")) (.seq (.repCls 4 4 digitChar)
      (.seq rangeSepRe (altChain
        [.seq (.repCls 1 2 digitChar) (.seq (lit ("/")) (.repCls 4 4 digitChar)),
         lit ("Present"), lit ("Current")])))),
     .seq monthYearRe (.seq rangeSepRe (altChain
        [monthYearRe, lit ("Present"), lit ("Current")])),
     .seq (.repCls 4 4 digitChar) (.seq rangeSepRe (altChain
        [.repCls 4 4 digitChar, lit ("Present"), lit ("Current")]))]

/-- `[A-Z]` (no flags). -/
def upperChar (c : Char) : Bool := 'A' ≤ c && c ≤ 'Z'

/-- `[-–—]`. -/
def companyDash (c : Char) : Bool := c = '-' || c = '–' || c = '—'

/-- Everything after group 1 of `company_location_pattern`:
`\s*[-–—]\s*[A-Za-z\s]+,\s*[A-Z]{2}\s*$` (group 2 is unused by the code). -/
def companyTailRe : Re :=
  .seq (.starCls pyWs) (.seq (.cls companyDash) (.seq (.starCls pyWs)
    (.seq (.plusCls letterOrWs) (.seq (lit (","))
      (.seq (.starCls pyWs) (.seq (.repCls 2 2 upperChar)
        (.seq (.starCls pyWs) .eolS)))))))

/-- `.` (any character but a newline). -/
def dotChar (c : Char) : Bool := c ≠ '\n'

/-- The lazy scan for `^(.+?)` of `company_location_pattern`: try group
lengths `j, j+1, …` and return the first group for which the tail
matches. -/
def tryCompanyJ (line : List Char) : Nat → Nat → Option (List Char)
  | _, 0 => none
  | j, fuel + 1 =>
    if j > line.length then none
    else
      match reMatch companyTailRe ((line.take j).reverse) (line.drop j)
          (fun _ r => some r) with
      | some _ => some (line.take j)
      | none => tryCompanyJ line (j + 1) fuel

/-- `company_location_pattern.match(line)`, returning group 1. -/
def companyMatchGroup1 (line : List Char) : Option (List Char) :=
  tryCompanyJ line 1 (countWhile dotChar line)

/-- The title-word alternation of `job_title_pattern`, in source order. -/
def jobTitleWords : List String :=
  ["Manager", "Engineer", "Developer", "Analyst", "Director",
   "Coordinator", "Specialist", "Associate", "Intern", "Lead", "Senior",
   "Junior", "Assistant", "Supervisor", "Executive", "Officer",
   "Administrator", "Consultant", "Technician", "Representative",
   "Designer", "Architect", "Host", "Server", "Bartender", "Cook", "Chef",
   "Cashier", "Clerk", "Teacher", "Professor", "Nurse", "Doctor", "Lawyer",
   "Accountant", "Writer", "Editor", "Photographer", "Artist", "Scientist",
   "Researcher"]

/-- `job_title_pattern` (IGNORECASE). -/
def jobTitleRe : Re :=
  .seq (.cls asciiLetter) (.seq (.plusCls letterOrWs)
    (.seq (altChain (jobTitleWords.map lit)) (.seq (.starCls pyWs) .eolS)))

/-- `job_title_pattern.match(line)`, returning `group(1)` (the line
without its trailing whitespace; leading whitespace is impossible). -/
def jobTitleMatch (line : List Char) : Option (List Char) :=
  match reMatchStart jobTitleRe line with
  | some _ => some (pyStripList line)
  | none => none

/-! `_parse_date_string`:

```python
date_str = date_str.strip()
if date_str.lower() in ("present", "current"): return None
try:
    match = re.match(r"(\d{1,2})/(\d{4})", date_str)
    if match: return date(int(month), int(year), 1)
    match = re.match(r"([A-Za-z]+)\s*(\d{4})", date_str)
    if match and month_str in month_names: return date(year, month_names[month_str], 1)
    match = re.match(r"^(\d{4})$", date_str)
    if match: return date(int(year), 1, 1)
except (ValueError, TypeError): pass
return None
```

The three anchored patterns are compiled to direct scans (each greedy
group is over a class disjoint from its successor, so only the maximal run
can succeed), and `date(y, m, 1)` raising `ValueError` on an
out-of-range month or year is the `pyDateMake` guard.
-/

/-- The digits value of a character run. -/
def natOfDigits (cs : List Char) : Nat :=
  cs.foldl (fun n c => n * 10 + (c.toNat - 48)) 0

/-- `datetime.date(y, m, d)`, `None` when the constructor would raise. -/
def pyDateMake (y m d : Nat) : Option PyDate :=
  if 1 ≤ y && y ≤ 9999 && 1 ≤ m && m ≤ 12 && 1 ≤ d && d ≤ 28 then
    some ⟨y, m, d⟩
  else none

/-- `re.match(r"(\d{1,2})/(\d{4})", s)`: the groups on success. -/
def matchMMslashYYYY (cs : List Char) : Option (Nat × Nat) :=
  let d := countWhile digitChar cs
  let k := min 2 d
  if k ≥ 1 then
    match cs.drop k with
    | '/' :: rest =>
      if countWhile digitChar rest ≥ 4 then
        some (natOfDigits (cs.take k), natOfDigits (rest.take 4))
      else none
    | _ => none
  else none

/-- `re.match(r"([A-Za-z]+)\s*(\d{4})", s)`: the groups on success. -/
def matchMonthYYYY (cs : List Char) : Option (List Char × Nat) :=
  let l := countWhile asciiLetter cs
  if l ≥ 1 then
    let rest := (cs.drop l).dropWhile pyWs
    if countWhile digitChar rest ≥ 4 then
      some (cs.take l, natOfDigits (rest.take 4))
    else none
  else none

/-- `month_names`. -/
def monthNames : List (String × Nat) :=
  [("jan", 1), ("january", 1), ("feb", 2), ("february", 2), ("mar", 3),
   ("march", 3), ("apr", 4), ("april", 4), ("may", 5), ("jun", 6),
   ("june", 6), ("jul", 7), ("july", 7), ("aug", 8), ("august", 8),
   ("sep", 9), ("september", 9), ("oct", 10), ("october", 10), ("nov", 11),
   ("november", 11), ("dec", 12), ("december", 12)]

/-- `_parse_date_string`. -/
def parse_date_string (date_str : String) : Option PyDate :=
  let ds := pyStripList date_str.data
  if pyLower ⟨ds⟩ = "present" || pyLower ⟨ds⟩ = "current" then none
  else
    match matchMMslashYYYY ds with
    | some (m, y) => pyDateMake y m 1
    | none =>
      match matchMonthYYYY ds with
      | some (ms, y) =>
        match monthNames.lookup (pyLower ⟨ms⟩) with
        | some m => pyDateMake y m 1
        | none =>
          if ds.length = 4 && ds.all digitChar then
            pyDateMake (natOfDigits ds) 1 1
          else none
      | none =>
        if ds.length = 4 && ds.all digitChar then
          pyDateMake (natOfDigits ds) 1 1
        else none

/-- `re.split(r, text)` (all occurrences; the pattern used never matches
the empty string, the guard only keeps the recursion well-founded). -/
def reSplitAux (r : Re) (text : List Char) (i : Nat) : Nat → List (List Char)
  | 0 => [text.drop i]
  | fuel + 1 =>
    match reSearchFrom r text i with
    | none => [text.drop i]
    | some (s, e) =>
      if e ≤ s then [text.drop i]
      else pySlice text i s :: reSplitAux r text e fuel

/-- `re.split(r, text)`. -/
def reSplitAll (r : Re) (text : List Char) : List (List Char) :=
  reSplitAux r text 0 (text.length + 1)

/-- `\n\s*\n` (the blank-line fallback separator). -/
def blankLineRe : Re :=
  .seq (lit ("\n")) (.seq (.starCls pyWs) (lit ("\n")))

/-- `\s*[-–—to]+\s*` as used by `re.split(..., maxsplit=1)` on the matched
date string (compiled without flags, hence the case-sensitive class). -/
def splitSepRe : Re :=
  .seq (.starCls pyWs) (.seq (.plusCls dashToCharCS) (.starCls pyWs))

/-- `re.split(r"\s*[-–—to]+\s*", s, maxsplit=1)`. -/
def splitDateRange (cs : List Char) : List (List Char) :=
  match reSearch splitSepRe cs with
  | none => [cs]
  | some (s, e) => if e ≤ s then [cs] else [pySlice cs 0 s, cs.drop e]

/-- The line-grouping loop of `_parse_experience_section`: a line
containing a date range starts a new entry when lines have already
accumulated. -/
def groupExpLines (cur : List (List Char)) (acc : List (List (List Char))) :
    List (List Char) → List (List (List Char))
  | [] => if cur.isEmpty then acc else acc ++ [cur]
  | l :: rest =>
    let line := pyStripList l
    if line.isEmpty then groupExpLines cur acc rest
    else if (reSearch dateRe line).isSome && !cur.isEmpty then
      groupExpLines [line] (acc ++ [cur]) rest
    else groupExpLines (cur ++ [line]) acc rest

/-- The date block of the per-line field scan (runs when the stripped line
has a date match and `start_date` is still unset):

```python
date_str = date_match.group(0)
entry["is_current"] = "present" in date_str.lower() or "current" in date_str.lower()
dates = re.split(r"\s*[-–—to]+\s*", date_str, maxsplit=1)
if len(dates) >= 1: entry["start_date"] = _parse_date_string(dates[0])
if len(dates) >= 2 and not entry["is_current"]:
    entry["end_date"] = _parse_date_string(dates[1])
line_no_date = date_pattern.sub("", line_stripped).strip()
if line_no_date and not entry["job_title"]: entry["job_title"] = line_no_date
```
-/
def applyDateBlock (entry : ExperienceDict) (ls : List Char) (sp : Nat × Nat) :
    ExperienceDict :=
  let date_str := group0 ls sp
  let lowerDate := date_str.map pyLowerChar
  let is_current := listHasInfix ("present".data) lowerDate ||
    listHasInfix ("current".data) lowerDate
  let dates := splitDateRange date_str
  let start_date :=
    match dates.head? with
    | some d0 => parse_date_string ⟨d0⟩
    | none => entry.start_date
  let end_date :=
    if dates.length ≥ 2 && !is_current then
      match dates.get? 1 with
      | some d1 => parse_date_string ⟨d1⟩
      | none => entry.end_date
    else entry.end_date
  let line_no_date := pyStripList (reSubEmpty dateRe ls)
  let job_title :=
    if !line_no_date.isEmpty && entry.job_title.isNone then some (⟨line_no_date⟩ : String)
    else entry.job_title
  { entry with
    is_current := is_current,
    start_date := start_date,
    end_date := end_date,
    job_title := job_title }

/-- The per-line field scan of one entry (dates, then company/location),
threading the partial entry and `company_line_idx`. -/
def expFieldScan (entry : ExperienceDict) (cidx : Int) (idx : Nat) :
    List (List Char) → ExperienceDict × Int
  | [] => (entry, cidx)
  | l :: rest =>
    let ls := pyStripList l
    let entry1 :=
      match reSearch dateRe ls with
      | some sp => if entry.start_date.isNone then applyDateBlock entry ls sp else entry
      | none => entry
    let (entry2, cidx2) :=
      match companyMatchGroup1 ls with
      | some g =>
        if entry1.company_name.isNone then
          ({ entry1 with company_name := some (⟨pyStripList g⟩ : String) }, (idx : Int))
        else (entry1, cidx)
      | none => (entry1, cidx)
    expFieldScan entry2 cidx2 (idx + 1) rest

/-- The job-title fallback scan (skips the company line). -/
def titleFallback (cidx : Int) (idx : Nat) : List (List Char) → Option String
  | [] => none
  | l :: rest =>
    if (idx : Int) = cidx then titleFallback cidx (idx + 1) rest
    else
      match jobTitleMatch (pyStripList l) with
      | some g => some (⟨pyStripList g⟩ : String)
      | none => titleFallback cidx (idx + 1) rest

/-- Parse one grouped entry (`None` when the loop `continue`s it away). -/
def parseOneExpEntry (entry_lines : List (List Char)) : Option ExperienceDict :=
  if entry_lines.isEmpty then none
  else
    let raw_text := List.intercalate ['\n'] entry_lines
    if raw_text.length < 10 then none
    else
      let init : ExperienceDict :=
        { raw_text := some (⟨raw_text⟩ : String), company_name := none,
          job_title := none, start_date := none, end_date := none,
          is_current := false, description := none }
      let r := expFieldScan init (-1) 0 entry_lines
      let e := r.1
      let e2 :=
        if e.job_title.isNone then
          { e with job_title := titleFallback r.2 0 entry_lines }
        else e
      some e2

/-- `_parse_experience_section`. -/
def parse_experience_section (experience_text : String) : List ExperienceDict :=
  if experience_text.data.isEmpty then []
  else
    let lines := splitOnChar '\n' experience_text.data
    let entries0 := groupExpLines [] [] lines
    let entries :=
      if entries0.length ≤ 1 && !(pyStripList experience_text.data).isEmpty then
        (reSplitAll blankLineRe experience_text.data).filterMap fun p =>
          let q := pyStripList p
          if !q.isEmpty && q.length > 20 then some [q] else none
      else entries0
    (entries.filterMap parseOneExpEntry).take 20

/-- The C6 scenario input: two entries separated by the date ranges
`Jan 2020 - Present` and `Jun 2018 - Dec 2019`. -/
def expScenarioText : String :=
  "Software Engineer Jan 2020 - Present\nAcme Corp – Boston, MA\nBuilt cool systems\nData Analyst Jun 2018 - Dec 2019\nBeta LLC – Austin, TX\nAnalyzed data daily"

/-- C6: on the scenario input the extractor returns exactly two entries in
document order; the first is current with no end date. -/
theorem experience_two_entry_scenario :
    parse_experience_section expScenarioText =
      [{ raw_text := some "Software Engineer Jan 2020 - Present\nAcme Corp – Boston, MA\nBuilt cool systems",
         company_name := some "Acme Corp", job_title := some "Software Engineer",
         start_date := some ⟨2020, 1, 1⟩, end_date := none, is_current := true,
         description := none },
       { raw_text := some "Data Analyst Jun 2018 - Dec 2019\nBeta LLC – Austin, TX\nAnalyzed data daily",
         company_name := some "Beta LLC", job_title := some "Data Analyst",
         start_date := some ⟨2018, 6, 1⟩, end_date := some ⟨2019, 12, 1⟩,
         is_current := false, description := none }] := by
  decide

/-! ## `SECTION_HEADERS` and `_extract_section_content` (segmentation)

Every alternative of every `SECTION_HEADERS` pattern has the shape
`^\s*PHRASE(?:\s*:|\s*$)` (compiled with `re.IGNORECASE | re.MULTILINE`),
where `PHRASE` is a sequence of literal words joined by `\s+`, with
optional words/suffixes.  Expanding the optional parts in CPython's
attempt order (present branch first) turns each pattern into an ordered
list of word-sequence arms; e.g.
`^\s*(?:work\s+)?experience(?:\s+history)?(?:\s*:|\s*$)` becomes the arms
`[work, experience, history]`, `[work, experience]`,
`[experience, history]`, `[experience]`, and
`education(?:al\s+background)?` becomes `[educational, background]`,
`[education]` (`education` + `al` is the contiguous word `educational`).
The dedicated matcher below implements `^` (MULTILINE), greedy `\s*`/`\s+`
(longest first, backtracking), case-insensitive words, the
`(?:\s*:|\s*$)` tail (the `:` branch first, `$` MULTILINE), and
`re.search`'s left-to-right scan of start positions.
-/

/-- Case-insensitive prefix test for a literal word. -/
def ciPref (w cs : List Char) : Bool :=
  match w, cs with
  | [], _ => true
  | _ :: _, [] => false
  | a :: ws, c :: rest => charCI a c && ciPref ws rest

/-- Greedy `\s*`: try dropping `j, j-1, …, 0` whitespace characters. -/
def tryWsDown (cs : List Char) (k : List Char → Option (List Char)) :
    Nat → Option (List Char)
  | 0 => k cs
  | j + 1 => (k (cs.drop (j + 1))) <|> tryWsDown cs k j

/-- Greedy `\s+`: try dropping `j, j-1, …, 1` whitespace characters. -/
def tryWsDown1 (cs : List Char) (k : List Char → Option (List Char)) :
    Nat → Option (List Char)
  | 0 => none
  | j + 1 => (k (cs.drop (j + 1))) <|> tryWsDown1 cs k j

/-- `\s*` in CPS (greedy over the whitespace run at the head). -/
def wsStarK (cs : List Char) (k : List Char → Option (List Char)) :
    Option (List Char) :=
  tryWsDown cs k (countWhile pyWs cs)

/-- `\s+` in CPS. -/
def wsPlusK (cs : List Char) (k : List Char → Option (List Char)) :
    Option (List Char) :=
  tryWsDown1 cs k (countWhile pyWs cs)

/-- One arm's word sequence, the words joined by `\s+`, in CPS. -/
def matchWordsK : List String → List Char → (List Char → Option (List Char)) →
    Option (List Char)
  | [], cs, k => k cs
  | w :: ws, cs, k =>
    if ciPref w.data cs then
      let rest := cs.drop w.data.length
      match ws with
      | [] => k rest
      | _ :: _ => wsPlusK rest fun r2 => matchWordsK ws r2 k
    else none

/-- The common tail `(?:\s*:|\s*$)` (with `re.MULTILINE`, `$` holds at the
end of the text or before a `\n`). -/
def headerTailK (cs : List Char) : Option (List Char) :=
  (tryWsDown cs (fun r => match r with
      | ':' :: r2 => some r2
      | _ => none) (countWhile pyWs cs)) <|>
  (tryWsDown cs (fun r => if r.isEmpty || r.head? = some '\n' then some r else none)
    (countWhile pyWs cs))

/-- One full arm `\s*WORDS(?:\s*:|\s*$)` against a suffix (the `^` is
checked by the caller).  Returns the suffix after the match. -/
def armMatchK (arm : List String) (cs : List Char) : Option (List Char) :=
  wsStarK cs fun r => matchWordsK arm r headerTailK

/-- The arms of one pattern, in attempt order. -/
def armsFirst : List (List String) → List Char → Option (List Char)
  | [], _ => none
  | a :: rest, cs => armMatchK a cs <|> armsFirst rest cs

/-- Is position `i` at a line start (`^` under `re.MULTILINE`)? -/
def lineStartAt (text : List Char) (i : Nat) : Bool :=
  i = 0 || text.get? (i - 1) = some '\n'

/-- Match a header pattern at position `i`; on success the match's end
position. -/
def headerMatchAt (arms : List (List String)) (text : List Char) (i : Nat) :
    Option Nat :=
  if lineStartAt text i then
    match armsFirst arms (text.drop i) with
    | some rest => some (text.length - rest.length)
    | none => none
  else none

/-- `re.search` for a header pattern: leftmost start position. -/
def headerSearchAux (arms : List (List String)) (text : List Char) (i : Nat) :
    Nat → Option (Nat × Nat)
  | 0 => none
  | fuel + 1 =>
    match headerMatchAt arms text i with
    | some e => some (i, e)
    | none => headerSearchAux arms text (i + 1) fuel

/-- `re.search` for a header pattern. -/
def headerSearch (arms : List (List String)) (text : List Char) :
    Option (Nat × Nat) :=
  headerSearchAux arms text 0 (text.length + 1)

/-- `SECTION_HEADERS["experience"]`:
`^\s*(?:work\s+)?experience(?:\s+history)?(?:\s*:|\s*$)`
`|^\s*employment(?:\s+history)?(?:\s*:|\s*$)`
`|^\s*professional\s+(?:experience|background)(?:\s*:|\s*$)`
`|^\s*career\s+history(?:\s*:|\s*$)`. -/
def experienceArms : List (List String) :=
  [["work", "experience", "history"], ["work", "experience"],
   ["experience", "history"], ["experience"],
   ["employment", "history"], ["employment"],
   ["professional", "experience"], ["professional", "background"],
   ["career", "history"]]

/-- `SECTION_HEADERS["education"]`:
`^\s*education(?:al\s+background)?(?:\s*:|\s*$)`
`|^\s*academic(?:\s+background)?(?:\s*:|\s*$)`
`|^\s*qualifications(?:\s*:|\s*$)|^\s*degrees?(?:\s*:|\s*$)`. -/
def educationArms : List (List String) :=
  [["educational", "background"], ["education"],
   ["academic", "background"], ["academic"],
   ["qualifications"], ["degrees"], ["degree"]]

/-- `SECTION_HEADERS["skills"]`:
`^\s*(?:technical\s+)?skills(?:\s*:|\s*$)|^\s*competenc(?:ies|e)(?:\s*:|\s*$)`
`|^\s*expertise(?:\s*:|\s*$)|^\s*technologies(?:\s*:|\s*$)`
`|^\s*proficiencies(?:\s*:|\s*$)`. -/
def skillsArms : List (List String) :=
  [["technical", "skills"], ["skills"], ["competencies"], ["competence"],
   ["expertise"], ["technologies"], ["proficiencies"]]

/-- `SECTION_HEADERS["certifications"]`:
`^\s*certifications?(?:\s*:|\s*$)|^\s*licenses?(?:\s*:|\s*$)`
`|^\s*credentials?(?:\s*:|\s*$)|^\s*professional\s+development(?:\s*:|\s*$)`. -/
def certificationsArms : List (List String) :=
  [["certifications"], ["certification"], ["licenses"], ["license"],
   ["credentials"], ["credential"], ["professional", "development"]]

/-- `SECTION_HEADERS["projects"]`:
`^\s*projects?(?:\s*:|\s*$)|^\s*portfolio(?:\s*:|\s*$)`
`|^\s*personal\s+projects?(?:\s*:|\s*$)|^\s*side\s+projects?(?:\s*:|\s*$)`. -/
def projectsArms : List (List String) :=
  [["projects"], ["project"], ["portfolio"],
   ["personal", "projects"], ["personal", "project"],
   ["side", "projects"], ["side", "project"]]

/-- `SECTION_HEADERS["summary"]`:
`^\s*(?:professional\s+)?summary(?:\s*:|\s*$)|^\s*profile(?:\s*:|\s*$)`
`|^\s*objective(?:\s*:|\s*$)|^\s*about(?:\s+me)?(?:\s*:|\s*$)`
`|^\s*overview(?:\s*:|\s*$)`. -/
def summaryArms : List (List String) :=
  [["professional", "summary"], ["summary"], ["profile"], ["objective"],
   ["about", "me"], ["about"], ["overview"]]

/-- `SECTION_HEADERS`, in insertion order. -/
def SECTION_HEADERS : List (String × List (List String)) :=
  [("experience", experienceArms), ("education", educationArms),
   ("skills", skillsArms), ("certifications", certificationsArms),
   ("projects", projectsArms), ("summary", summaryArms)]

/-- The six section names. -/
def sectionNames : List String :=
  SECTION_HEADERS.map Prod.fst

/-- The minimum over the other sections' first match in
`text[section_start:]` (`next_section_start` of the source). -/
def minOtherStart (text : List Char) (name : String) (section_start : Nat) : Nat :=
  SECTION_HEADERS.foldl
    (fun acc p =>
      if p.1 = name then acc
      else
        match headerSearch p.2 (text.drop section_start) with
        | some (s, _) => min acc (section_start + s)
        | none => acc)
    text.length

/-- The span `[section_start, next_section_start)` computed by
`_extract_section_content` (before the final `.strip()`), or `None` when
the section's own header has no match. -/
def extract_section_span (text : List Char) (name : String) :
    Option (Nat × Nat) :=
  match SECTION_HEADERS.lookup name with
  | none => none
  | some arms =>
    match headerSearch arms text with
    | none => none
    | some (_, e) => some (e, minOtherStart text name e)

/-- `_extract_section_content`. -/
def extract_section_content (text : String) (section_name : String) : String :=
  match extract_section_span text.data section_name with
  | none => ""
  | some (s, e) => ⟨pyStripList (pySlice text.data s e)⟩

/-! ## `_parse_education_section` (education extraction, C8)

`degree_pattern` (IGNORECASE, no MULTILINE — it is only ever searched on
single lines):

```
(?<![,\s][A-Z])                       # no ", M" right before the match
(?:
Bachelor(?:'s)?(?:\s+(?:of\s+)?(?:Science|Arts|Engineering|Business|Fine Arts))?
|Master(?:'s)?(?:\s+(?:of\s+)?(?:Science|Arts|Business|Engineering|Fine Arts))?
|PhD|Ph\.?D\.?
|Doctorate
|Associate(?:'s)?(?:\s+(?:of\s+)?(?:Science|Arts|Applied Science))?
|B\.S\.?(?:\s|$)|B\.A\.?(?:\s|$)
|M\.S\.?(?:\s|$)|M\.A\.?(?:\s|$)
|MBA|M\.B\.A\.?
|B\.?Sc\.?|M\.?Sc\.?
|BBA|B\.B\.A\.?
|Doctor of
|Diploma
|Certificate
|GED
|High School(?:\s+Diploma)?
)
(?:\s+Degree)?
```

Under `re.IGNORECASE` the `[A-Z]` of the lookbehind matches any ASCII
letter.  The apostrophe of `'s` is written `Char.ofNat 39`.
-/

/-- The apostrophe character. -/
def apoChar : Char := Char.ofNat 39

/-- `(?:'s)?`. -/
def apoS : Re := .opt (.seq (.cls fun c => c = apoChar) (lit ("s")))

/-- `,` or whitespace (first class of the lookbehind). -/
def commaOrWs (c : Char) : Bool := c = ',' || pyWs c

/-- `(?:\s+(?:of\s+)?(?:F1|F2|…))?` — the optional field tail of the
worded degrees. -/
def degreeFieldSuffix (opts : List String) : Re :=
  .opt (.seq (.plusCls pyWs)
    (.seq (.opt (.seq (lit ("of")) (.plusCls pyWs))) (altChain (opts.map lit))))

/-- The degree alternation, in source order. -/
def degreeCore : Re :=
  altChain
    [.seq (lit ("Bachelor")) (.seq apoS (degreeFieldSuffix
        ["Science", "Arts", "Engineering", "Business", "Fine Arts"])),
     .seq (lit ("Master")) (.seq apoS (degreeFieldSuffix
        ["Science", "Arts", "Business", "Engineering", "Fine Arts"])),
     lit ("PhD"),
     .seq (lit ("Ph")) (.seq (.opt (lit ("."))) (.seq (lit ("D")) (.opt (lit ("."))))),
     lit ("Doctorate"),
     .seq (lit ("Associate")) (.seq apoS (degreeFieldSuffix
        ["Science", "Arts", "Applied Science"])),
     .seq (lit ("B.S")) (.seq (.opt (lit ("."))) (.alt (.cls pyWs) .eolS)),
     .seq (lit ("B.A")) (.seq (.opt (lit ("."))) (.alt (.cls pyWs) .eolS)),
     .seq (lit ("M.S")) (.seq (.opt (lit ("."))) (.alt (.cls pyWs) .eolS)),
     .seq (lit ("M.A")) (.seq (.opt (lit ("."))) (.alt (.cls pyWs) .eolS)),
     lit ("MBA"),
     .seq (lit ("M.B.A")) (.opt (lit ("."))),
     .seq (lit ("B")) (.seq (.opt (lit ("."))) (.seq (lit ("Sc")) (.opt (lit ("."))))),
     .seq (lit ("M")) (.seq (.opt (lit ("."))) (.seq (lit ("Sc")) (.opt (lit ("."))))),
     lit ("BBA"),
     .seq (lit ("B.B.A")) (.opt (lit ("."))),
     lit ("Doctor of"),
     lit ("Diploma"),
     lit ("Certificate"),
     lit ("GED"),
     .seq (lit ("High School")) (.opt (.seq (.plusCls pyWs) (lit ("Diploma"))))]

/-- `degree_pattern`. -/
def degreeRe : Re :=
  .seq (.nlb2 commaOrWs asciiLetter)
    (.seq degreeCore (.opt (.seq (.plusCls pyWs) (lit ("Degree")))))

/-- `institution_pattern` (IGNORECASE). -/
def institutionRe : Re :=
  altChain (["University", "College", "Institute", "School", "Academy",
    "Polytechnic", "Community College", "State University",
    "Technical School"].map lit)

/-- The education `date_pattern` (IGNORECASE; groups are unused — the
pattern is only applied through `re.sub`). -/
def eduDateRe : Re :=
  altChain
    [.seq (.repCls 4 4 digitChar) (.seq rangeSepRe (altChain
        [.repCls 4 4 digitChar, lit ("Present"), lit ("Current"), lit ("Expected")])),
     .seq (.opt (.seq (lit ("Expected")) (.plusCls pyWs)))
       (.seq monthRe (.seq (.plusCls pyWs) (.repCls 4 4 digitChar))),
     .seq (lit ("Class of")) (.seq (.plusCls pyWs) (.repCls 4 4 digitChar))]

/-- `\s*[-–—]+\s*[A-Za-z\s]+,\s*[A-Z]{2}\s*$` (the location suffix removed
from institution lines; compiled without flags). -/
def locSuffixRe : Re :=
  .seq (.starCls pyWs) (.seq (.plusCls companyDash) (.seq (.starCls pyWs)
    (.seq (.plusCls letterOrWs) (.seq (lit (","))
      (.seq (.starCls pyWs) (.seq (.repCls 2 2 upperChar)
        (.seq (.starCls pyWs) .eolS)))))))

/-- The tail of the fallback location pattern
`^(.+?)\s*[-–—]+\s*[A-Za-z\s]+,\s*[A-Z]{2}\s*$`. -/
def eduLocTailRe : Re := locSuffixRe

/-- The lazy `^(.+?)` scan of the fallback location pattern. -/
def tryEduLocJ (line : List Char) : Nat → Nat → Option (List Char)
  | _, 0 => none
  | j, fuel + 1 =>
    if j > line.length then none
    else
      match reMatch eduLocTailRe ((line.take j).reverse) (line.drop j)
          (fun _ r => some r) with
      | some _ => some (line.take j)
      | none => tryEduLocJ line (j + 1) fuel

/-- `re.match(r"^(.+?)\s*[-–—]+\s*[A-Za-z\s]+,\s*[A-Z]{2}\s*$", line)`,
returning group 1. -/
def eduLocMatchGroup1 (line : List Char) : Option (List Char) :=
  tryEduLocJ line 1 (countWhile dotChar line)

/-- `[A-Za-z\s,&]` (the field-of-study class). -/
def fieldClassChar (c : Char) : Bool :=
  asciiLetter c || pyWs c || c = ',' || c = '&'

/-- `(?:\s*[-–—,]|\s*$|\s*\d)` — the tail bounding the lazy field group
(`$` without MULTILINE; the searched strings contain no newline). -/
def fieldTailRe : Re :=
  altChain
    [.seq (.starCls pyWs) (.cls fun c => companyDash c || c = ','),
     .seq (.starCls pyWs) .eolS,
     .seq (.starCls pyWs) (.cls digitChar)]

/-- The lazy `([A-Za-z\s,&]+?)` scan: shortest group whose tail matches. -/
def lazyFieldLoop (cs : List Char) : Nat → Nat → Option (List Char)
  | _, 0 => none
  | j, fuel + 1 =>
    if j > countWhile fieldClassChar cs then none
    else
      match reMatch fieldTailRe ((cs.take j).reverse) (cs.drop j)
          (fun _ r => some r) with
      | some _ => some (cs.take j)
      | none => lazyFieldLoop cs (j + 1) fuel

/-- The prefix of `full_line_field_match`:
`(?:Bachelor|Master|Associate|Doctor)(?:'s)?\s+(?:of\s+)?`
`(?:Science|Arts|Engineering|Business)?\s*(?:in|of)?\s+` (IGNORECASE). -/
def fieldFullPrefixRe : Re :=
  .seq (altChain [lit ("Bachelor"), lit ("Master"), lit ("Associate"), lit ("Doctor")])
    (.seq apoS (.seq (.plusCls pyWs)
      (.seq (.opt (.seq (lit ("of")) (.plusCls pyWs)))
        (.seq (.opt (altChain [lit ("Science"), lit ("Arts"), lit ("Engineering"), lit ("Business")]))
          (.seq (.starCls pyWs) (.seq (.opt (altChain [lit ("in"), lit ("of")]))
            (.plusCls pyWs)))))))

/-- `in\s+` (the prefix of `in_match`). -/
def fieldInPrefixRe : Re :=
  .seq (lit ("in")) (.plusCls pyWs)

/-- `re.search` for a prefix-then-lazy-group-then-tail pattern, returning
group 1 of the leftmost match. -/
def searchLazyGroupAux (pre : Re) (line : List Char) (i : Nat) :
    Nat → Option (List Char)
  | 0 => none
  | fuel + 1 =>
    match reMatch pre ((line.take i).reverse) (line.drop i)
        (fun _ r2 => lazyFieldLoop r2 1 (countWhile fieldClassChar r2 + 1)) with
    | some g => some g
    | none => searchLazyGroupAux pre line (i + 1) fuel

/-- `re.search` for such a pattern. -/
def searchLazyGroup (pre : Re) (line : List Char) : Option (List Char) :=
  searchLazyGroupAux pre line 0 (line.length + 1)

/-- `re.sub(r"[,\.\-]+$", "", field)` (removes the trailing run of the
class, if any). -/
def stripFieldPunct (cs : List Char) : List Char :=
  (cs.reverse.dropWhile fun c => c = ',' || c = '.' || c = '-').reverse

/-- The field cleanup applied to a raw group:
`field.strip()`, then the trailing-punctuation sub, then `.strip()`, kept
when `2 < len < 80`. -/
def cleanField (g : List Char) : Option String :=
  let field := pyStripList (stripFieldPunct (pyStripList g))
  if !field.isEmpty && field.length > 2 && field.length < 80 then
    some (⟨field⟩ : String)
  else none

/-- One education dict as produced by `_parse_education_section`. -/
structure EducationDict where
  raw_text : Option String
  institution_name : Option String
  degree_type : Option String
  field_of_study : Option String
  start_date : Option PyDate
  end_date : Option PyDate
  is_current : Bool
deriving DecidableEq, Repr

/-- The institution block of the per-line scan:

```python
if institution_pattern.search(line) and not entry["institution_name"]:
    inst_name = line
    inst_name = date_pattern.sub("", inst_name)
    inst_name = re.sub(r"\s*[-–—]+\s*[A-Za-z\s]+,\s*[A-Z]{2}\s*$", "", inst_name)
    inst_name = inst_name.strip()
    if inst_name and len(inst_name) > 3:
        entry["institution_name"] = inst_name
```
-/
def applyInstitutionBlock (entry : EducationDict) (line : List Char) :
    EducationDict :=
  let inst_name := pyStripList (reSubEmpty locSuffixRe (reSubEmpty eduDateRe line))
  if !inst_name.isEmpty && inst_name.length > 3 then
    { entry with institution_name := some (⟨inst_name⟩ : String) }
  else entry

/-- The degree block of the per-line scan (degree type and field of
study). -/
def applyDegreeBlock (entry : EducationDict) (line : List Char) (sp : Nat × Nat) :
    EducationDict :=
  let degree_type := pyStripList (group0 line sp)
  let after_degree := pyStripList (line.drop sp.2)
  let field :=
    match searchLazyGroup fieldFullPrefixRe line with
    | some g => cleanField g
    | none =>
      if hasSub (⟨after_degree.map pyLowerChar⟩ : String) ("in ") then
        match searchLazyGroup fieldInPrefixRe after_degree with
        | some g => cleanField g
        | none => entry.field_of_study
      else entry.field_of_study
  { entry with
    degree_type := some (⟨degree_type⟩ : String),
    field_of_study := field }

/-- The per-line scan of one education entry (institution, then
degree/field). -/
def eduFieldScan (entry : EducationDict) : List (List Char) → EducationDict
  | [] => entry
  | l :: rest =>
    let line := pyStripList l
    let entry1 :=
      if (reSearch institutionRe line).isSome && entry.institution_name.isNone then
        applyInstitutionBlock entry line
      else entry
    let entry2 :=
      match reSearch degreeRe line with
      | some sp =>
        if entry1.degree_type.isNone then applyDegreeBlock entry1 line sp else entry1
      | none => entry1
    eduFieldScan entry2 rest

/-- The institution fallback scan (`Name – City, ST` lines). -/
def eduLocFallback : List (List Char) → Option String
  | [] => none
  | l :: rest =>
    match eduLocMatchGroup1 (pyStripList l) with
    | some g => some (⟨pyStripList g⟩ : String)
    | none => eduLocFallback rest

/-- `\b(20\d{2}|19\d{2})\b` (year harvesting; the single group spans the
whole match, `\b` being zero-width). -/
def yearRe : Re :=
  .seq .wordB (.seq (.alt (.seq (lit ("20")) (.repCls 2 2 digitChar))
    (.seq (lit ("19")) (.repCls 2 2 digitChar))) .wordB)

/-- Insertion into a sorted list (ascending). -/
def insertSorted (y : Nat) : List Nat → List Nat
  | [] => [y]
  | x :: r => if y ≤ x then y :: x :: r else x :: insertSorted y r

/-- `sorted(set(xs))`. -/
def sortedDistinct (l : List Nat) : List Nat :=
  (l.foldl (fun acc y => if acc.contains y then acc else acc ++ [y]) []).foldl
    (fun acc y => insertSorted y acc) []

/-- The date block at the end of one entry:

```python
combined_text = " ".join(entry_lines)
entry["is_current"] = bool(re.search(r"present|current|expected", combined_text, re.I))
all_years = re.findall(r"\b(20\d{2}|19\d{2})\b", combined_text)
if all_years:
    years = sorted([int(y) for y in set(all_years)])
    if len(years) >= 2:
        entry["start_date"] = date(years[0], 1, 1)
        if not entry["is_current"]: entry["end_date"] = date(years[-1], 1, 1)
    elif len(years) == 1:
        entry["end_date"] = date(years[0], 1, 1)
```
-/
def applyEduDates (entry : EducationDict) (entry_lines : List (List Char)) :
    EducationDict :=
  let combined := List.intercalate [' '] entry_lines
  let lowerC := combined.map pyLowerChar
  let is_current := listHasInfix ("present".data) lowerC ||
    listHasInfix ("current".data) lowerC || listHasInfix ("expected".data) lowerC
  let years := sortedDistinct ((reFindAll yearRe combined).map natOfDigits)
  if years.length ≥ 2 then
    { entry with
      is_current := is_current,
      start_date := (years.head?.map fun y => (⟨y, 1, 1⟩ : PyDate)),
      end_date := if is_current then entry.end_date
        else (years.getLast?.map fun y => (⟨y, 1, 1⟩ : PyDate)) }
  else if years.length = 1 then
    { entry with
      is_current := is_current,
      end_date := (years.head?.map fun y => (⟨y, 1, 1⟩ : PyDate)) }
  else { entry with is_current := is_current }

/-- Parse one grouped education entry (`None` when `continue`d away). -/
def parseOneEduEntry (entry_lines : List (List Char)) : Option EducationDict :=
  if entry_lines.isEmpty then none
  else
    let raw_text := List.intercalate ['\n'] entry_lines
    if raw_text.length < 5 then none
    else
      let init : EducationDict :=
        { raw_text := some (⟨raw_text⟩ : String), institution_name := none,
          degree_type := none, field_of_study := none, start_date := none,
          end_date := none, is_current := false }
      let e := eduFieldScan init entry_lines
      let e2 :=
        if e.institution_name.isNone then
          { e with institution_name := eduLocFallback entry_lines }
        else e
      some (applyEduDates e2 entry_lines)

/-- The degree-triggered line-grouping loop of `_parse_education_section`. -/
def groupEduLines (cur : List (List Char)) (acc : List (List (List Char))) :
    List (List Char) → List (List (List Char))
  | [] => if cur.isEmpty then acc else acc ++ [cur]
  | l :: rest =>
    let line := pyStripList l
    if line.isEmpty then groupEduLines cur acc rest
    else if (reSearch degreeRe line).isSome && !cur.isEmpty then
      groupEduLines [line] (acc ++ [cur]) rest
    else groupEduLines (cur ++ [line]) acc rest

/-- `_parse_education_section`. -/
def parse_education_section (education_text : String) : List EducationDict :=
  if education_text.data.isEmpty then []
  else
    let lines := splitOnChar '\n' education_text.data
    let entries0 := groupEduLines [] [] lines
    let entries :=
      if entries0.length ≤ 1 && !(pyStripList education_text.data).isEmpty then
        let paragraphs := reSplitAll blankLineRe education_text.data
        if paragraphs.length > 1 then
          paragraphs.filterMap fun p =>
            let q := pyStripList p
            if !q.isEmpty && q.length > 10 then some [q] else none
        else entries0
      else entries0
    (entries.filterMap parseOneEduEntry).take 10

/-! ## `extract_structured_data` (the extraction orchestrator, C10) -/

/-- The lighter pass-through entry used for certifications and projects:
`[{"raw_text": section_content}]`. -/
structure PassThroughDict where
  raw_text : String
deriving DecidableEq, Repr

/-- The result dict of `extract_structured_data`. -/
structure ExtractedData where
  full_name : Option String
  email : Option String
  phone : Option String
  location : Option String
  linkedin_url : Option String
  github_url : Option String
  portfolio_url : Option String
  professional_summary : Option String
  skills : List String
  experiences : List ExperienceDict
  education : List EducationDict
  certifications : List PassThroughDict
  projects : List PassThroughDict
  raw_text : String
deriving DecidableEq, Repr

/-- The initialized result returned unchanged for empty/blank input. -/
def emptyExtractedData (raw_text : String) : ExtractedData :=
  { full_name := none, email := none, phone := none, location := none,
    linkedin_url := none, github_url := none, portfolio_url := none,
    professional_summary := none, skills := [], experiences := [],
    education := [], certifications := [], projects := [],
    raw_text := raw_text }

/-- `extract_structured_data` (`location` is initialized `None` and never
assigned; `result.update(contact_info)` writes the five contact keys). -/
def extract_structured_data (raw_text : String) : ExtractedData :=
  if raw_text.data.isEmpty || (pyStripList raw_text.data).isEmpty then
    emptyExtractedData raw_text
  else
    let contact := extract_contact_info raw_text
    let summary_content := extract_section_content raw_text ("summary")
    let cert_content := extract_section_content raw_text ("certifications")
    let projects_content := extract_section_content raw_text ("projects")
    { full_name := extract_name raw_text
      email := contact.email
      phone := contact.phone
      location := none
      linkedin_url := contact.linkedin_url
      github_url := contact.github_url
      portfolio_url := contact.portfolio_url
      professional_summary :=
        if summary_content.data.isEmpty then none
        else some (⟨summary_content.data.take 2000⟩ : String)
      skills := parse_skills_section (extract_section_content raw_text ("skills"))
      experiences := parse_experience_section (extract_section_content raw_text ("experience"))
      education := parse_education_section (extract_section_content raw_text ("education"))
      certifications := if cert_content.data.isEmpty then [] else [⟨cert_content⟩]
      projects := if projects_content.data.isEmpty then [] else [⟨projects_content⟩]
      raw_text := raw_text }

/-- C10: certifications and projects are pass-through lists of length at
most one — a non-empty section yields exactly one entry carrying the whole
section content, an absent/empty section (or blank input) yields `[]`. -/
theorem cert_project_passthrough (raw_text : String) :
    (extract_structured_data raw_text).certifications.length ≤ 1 ∧
    (extract_structured_data raw_text).projects.length ≤ 1 ∧
    ((raw_text.data.isEmpty || (pyStripList raw_text.data).isEmpty) = true →
      (extract_structured_data raw_text).certifications = [] ∧
      (extract_structured_data raw_text).projects = []) ∧
    ((raw_text.data.isEmpty || (pyStripList raw_text.data).isEmpty) = false →
      (extract_structured_data raw_text).certifications =
        (if (extract_section_content raw_text ("certifications")).data.isEmpty
          then []
          else [⟨extract_section_content raw_text ("certifications")⟩]) ∧
      (extract_structured_data raw_text).projects =
        (if (extract_section_content raw_text ("projects")).data.isEmpty
          then []
          else [⟨extract_section_content raw_text ("projects")⟩])) := by
  cases hb : (raw_text.data.isEmpty || (pyStripList raw_text.data).isEmpty) with
  | true =>
    rw [extract_structured_data]
    simp [hb, emptyExtractedData]
  | false =>
    rw [extract_structured_data]
    simp only [hb, Bool.false_eq_true, if_false]
    refine ⟨?_, ?_, ?_, ?_⟩
    · by_cases hc : (extract_section_content raw_text ("certifications")).data.isEmpty <;>
        simp [hc]
    · by_cases hc : (extract_section_content raw_text ("projects")).data.isEmpty <;>
        simp [hc]
    · intro hcon; simp at hcon
    · intro _; exact ⟨trivial, trivial⟩

/-- Witness for C10 on a concrete input with a non-empty certifications
section and no projects section. -/
theorem cert_project_passthrough_witness :
    (extract_structured_data ("Certifications:\nAWS Certified\nCCNA")).certifications.length ≤ 1 ∧
    (extract_structured_data ("Certifications:\nAWS Certified\nCCNA")).projects.length ≤ 1 ∧
    (((("Certifications:\nAWS Certified\nCCNA" : String)).data.isEmpty ||
        (pyStripList (("Certifications:\nAWS Certified\nCCNA" : String)).data).isEmpty) = true →
      (extract_structured_data ("Certifications:\nAWS Certified\nCCNA")).certifications = [] ∧
      (extract_structured_data ("Certifications:\nAWS Certified\nCCNA")).projects = []) ∧
    (((("Certifications:\nAWS Certified\nCCNA" : String)).data.isEmpty ||
        (pyStripList (("Certifications:\nAWS Certified\nCCNA" : String)).data).isEmpty) = false →
      (extract_structured_data ("Certifications:\nAWS Certified\nCCNA")).certifications =
        (if (extract_section_content ("Certifications:\nAWS Certified\nCCNA") ("certifications")).data.isEmpty
          then []
          else [⟨extract_section_content ("Certifications:\nAWS Certified\nCCNA") ("certifications")⟩]) ∧
      (extract_structured_data ("Certifications:\nAWS Certified\nCCNA")).projects =
        (if (extract_section_content ("Certifications:\nAWS Certified\nCCNA") ("projects")).data.isEmpty
          then []
          else [⟨extract_section_content ("Certifications:\nAWS Certified\nCCNA") ("projects")⟩])) :=
  cert_project_passthrough ("Certifications:\nAWS Certified\nCCNA")

/-- Witness for C5 at a concrete skills section (a duplicate under
different casing and a category label). -/
theorem skills_dedupe_invariant_witness :
    (parse_skills_section ("Languages: Python, JavaScript, python")).Pairwise
      (fun a b => pyLower a ≠ pyLower b) ∧
    (parse_skills_section ("Languages: Python, JavaScript, python")).length ≤ 50 ∧
    (parse_skills_section ("Languages: Python, JavaScript, python")).Sublist
      (skillsRawTokens ("Languages: Python, JavaScript, python")) ∧
    ∀ s ∈ parse_skills_section ("Languages: Python, JavaScript, python"),
      ((skillsRawTokens ("Languages: Python, JavaScript, python")).filter
        fun t => pyLower t == pyLower s).head? = some s :=
  skills_dedupe_invariant ("Languages: Python, JavaScript, python")

/-! ## Character facts (for the degree-pattern theorems, C8) -/

/-- `Char.ofNat` of a valid code point keeps its value. -/
theorem charOfNat_toNat (n : Nat) (hv : n.isValidChar) :
    (Char.ofNat n).toNat = n := by
  unfold Char.ofNat
  split
  · rfl
  · rename_i hv2
    exact absurd hv hv2

/-- Characters with equal code points are equal. -/
theorem char_eq_of_toNat_eq {a b : Char} (h : a.toNat = b.toNat) : a = b :=
  Char.eq_of_val_eq (UInt32.toNat.inj h)

/-- The code point of `pyLowerChar`. -/
theorem pyLowerChar_toNat (c : Char) :
    (pyLowerChar c).toNat =
      if 65 ≤ c.toNat ∧ c.toNat ≤ 90 then c.toNat + 32 else c.toNat := by
  rw [pyLowerChar]
  by_cases hb : ('A' ≤ c && c ≤ 'Z') = true
  · rw [if_pos hb]
    simp only [Bool.and_eq_true, decide_eq_true_eq] at hb
    obtain ⟨h1, h2⟩ := hb
    rw [Char.le_def] at h1 h2
    have h1n : 65 ≤ c.toNat := h1
    have h2n : c.toNat ≤ 90 := h2
    rw [if_pos ⟨h1n, h2n⟩]
    exact charOfNat_toNat _ (Or.inl (by omega))
  · rw [if_neg hb]
    simp only [Bool.and_eq_true, decide_eq_true_eq, not_and_or] at hb
    rw [if_neg]
    intro hcon
    rcases hb with hb | hb
    · exact hb (by rw [Char.le_def]; exact hcon.1)
    · exact hb (by rw [Char.le_def]; exact hcon.2)

/-- `asciiLetter` in terms of the code point. -/
theorem asciiLetter_iff_toNat (c : Char) :
    asciiLetter c = true ↔
      (65 ≤ c.toNat ∧ c.toNat ≤ 90) ∨ (97 ≤ c.toNat ∧ c.toNat ≤ 122) := by
  rw [asciiLetter]
  simp only [Bool.or_eq_true, Bool.and_eq_true, decide_eq_true_eq]
  constructor
  · rintro (⟨h1, h2⟩ | ⟨h1, h2⟩)
    · exact Or.inl ⟨by rw [Char.le_def] at h1; exact h1, by rw [Char.le_def] at h2; exact h2⟩
    · exact Or.inr ⟨by rw [Char.le_def] at h1; exact h1, by rw [Char.le_def] at h2; exact h2⟩
  · rintro (⟨h1, h2⟩ | ⟨h1, h2⟩)
    · exact Or.inl ⟨by rw [Char.le_def]; exact h1, by rw [Char.le_def]; exact h2⟩
    · exact Or.inr ⟨by rw [Char.le_def]; exact h1, by rw [Char.le_def]; exact h2⟩

/-- `charCI` as equality of lowered code points. -/
theorem charCI_iff_toNat (c d : Char) :
    charCI c d = true ↔ (pyLowerChar c).toNat = (pyLowerChar d).toNat := by
  rw [charCI]
  simp only [decide_eq_true_eq]
  constructor
  · intro h; rw [h]
  · intro h; exact char_eq_of_toNat_eq h

/-- Lowering preserves being an ASCII letter. -/
theorem asciiLetter_pyLowerChar (c : Char) :
    asciiLetter (pyLowerChar c) = asciiLetter c := by
  by_cases h : asciiLetter c = true
  · rw [h]
    rw [asciiLetter_iff_toNat] at h ⊢
    rw [pyLowerChar_toNat]
    rcases h with ⟨h1, h2⟩ | ⟨h1, h2⟩
    · rw [if_pos ⟨h1, h2⟩]; omega
    · rw [if_neg (by omega)]; omega
  · rw [Bool.not_eq_true] at h
    rw [h]
    rw [Bool.eq_false_iff]
    intro hcon
    rw [asciiLetter_iff_toNat] at hcon
    rw [pyLowerChar_toNat] at hcon
    have hc : ¬ asciiLetter c = true := by rw [h]; simp
    rw [asciiLetter_iff_toNat] at hc
    by_cases hu : 65 ≤ c.toNat ∧ c.toNat ≤ 90
    · exact hc (Or.inl hu)
    · rw [if_neg hu] at hcon
      exact hc hcon

/-- Characters related by `charCI` are letters together. -/
theorem charCI_letter_eq (c d : Char) (h : charCI c d = true) :
    asciiLetter c = asciiLetter d := by
  rw [charCI_iff_toNat] at h
  have h1 := asciiLetter_pyLowerChar c
  have h2 := asciiLetter_pyLowerChar d
  have : asciiLetter (pyLowerChar c) = asciiLetter (pyLowerChar d) := by
    rw [char_eq_of_toNat_eq h]
  rw [h1, h2] at this
  exact this

/-- A character `charCI`-equal to `'.'` is `'.'`. -/
theorem charCI_dot (c : Char) (h : charCI c '.' = true) : c = '.' := by
  rw [charCI_iff_toNat] at h
  rw [pyLowerChar_toNat, pyLowerChar_toNat] at h
  rw [show ('.' : Char).toNat = 46 from rfl] at h
  rw [if_neg (show ¬ (65 ≤ 46 ∧ 46 ≤ 90) by omega)] at h
  by_cases hu : 65 ≤ c.toNat ∧ c.toNat ≤ 90
  · rw [if_pos hu] at h; omega
  · rw [if_neg hu] at h
    exact char_eq_of_toNat_eq (by rw [h]; rfl)

/-- Whitespace characters are not letters. -/
theorem pyWs_not_letter (c : Char) (h : pyWs c = true) : asciiLetter c = false := by
  rw [pyWs] at h
  simp only [Bool.or_eq_true, decide_eq_true_eq] at h
  rcases h with ((((h | h) | h) | h) | h) | h <;> (subst h; decide)

/-- Letters are not whitespace. -/
theorem asciiLetter_not_ws (c : Char) (h : asciiLetter c = true) : pyWs c = false := by
  by_cases hw : pyWs c = true
  · rw [pyWs_not_letter c hw] at h; exact absurd h (by simp)
  · exact Bool.eq_false_iff.mpr hw

/-! ## What each regex node consumes (inversion predicate) -/

/-- Case-insensitive correspondence of a consumed text with a literal. -/
def ciMatch : List Char → List Char → Prop
  | [], t => t = []
  | a :: s, t => ∃ c t2, t = c :: t2 ∧ charCI c a = true ∧ ciMatch s t2

/-- What a successful parse of `r` may consume. -/
def Consumed : Re → List Char → Prop
  | .eps, t => t = []
  | .cls p, t => ∃ c, t = [c] ∧ p c = true
  | .litCI s, t => ciMatch s t
  | .seq a b, t => ∃ t1 t2, t = t1 ++ t2 ∧ Consumed a t1 ∧ Consumed b t2
  | .alt a b, t => Consumed a t ∨ Consumed b t
  | .opt a, t => Consumed a t ∨ t = []
  | .starCls p, t => ∀ c ∈ t, p c = true
  | .plusCls p, t => t ≠ [] ∧ ∀ c ∈ t, p c = true
  | .repCls lo hi p, t => lo ≤ t.length ∧ t.length ≤ hi ∧ ∀ c ∈ t, p c = true
  | .lazyPlusCls p, t => t ≠ [] ∧ ∀ c ∈ t, p c = true
  | .bolM, t => t = []
  | .eolM, t => t = []
  | .eolS, t => t = []
  | .wordB, t => t = []
  | .nlb2 _ _, t => t = []

/-- Soundness of `matchLitCI`: it consumes a `ciMatch` image. -/
theorem matchLitCI_sound {α : Type} (s : List Char) :
    ∀ (left cs : List Char) (k : List Char → List Char → Option α) (v : α),
      matchLitCI s left cs k = some v →
      ∃ n, n ≤ cs.length ∧ ciMatch s (cs.take n) ∧
        k ((cs.take n).reverse ++ left) (cs.drop n) = some v := by
  induction s with
  | nil =>
    intro left cs k v h
    exact ⟨0, Nat.zero_le _, rfl, by simpa using h⟩
  | cons a s ih =>
    intro left cs k v h
    cases cs with
    | nil => exact absurd h (by simp [matchLitCI])
    | cons c cs1 =>
      have h2 : (if charCI a c = true then matchLitCI s (c :: left) cs1 k else none) =
          some v := h
      by_cases hc : charCI a c = true
      · rw [if_pos hc] at h2
        obtain ⟨n, hn, hm, hk⟩ := ih (c :: left) cs1 k v h2
        refine ⟨n + 1, by simpa using hn, ?_, ?_⟩
        · rw [ciMatch]
          refine ⟨c, cs1.take n, by simp, ?_, hm⟩
          rw [charCI_iff_toNat] at hc ⊢
          omega
        · simpa using hk
      · rw [if_neg hc] at h2
        exact absurd h2 (by simp)

/-- Soundness of the greedy descending quantifier scan. -/
theorem tryDropsDown_sound {α : Type} (floor : Nat) (left cs : List Char)
    (k : List Char → List Char → Option α) (v : α) :
    ∀ j, tryDropsDown floor left cs k j = some v →
      ∃ n, floor ≤ n ∧ n ≤ j ∧
        k ((cs.take n).reverse ++ left) (cs.drop n) = some v := by
  intro j
  induction j with
  | zero =>
    intro h
    rw [tryDropsDown] at h
    by_cases hf : floor = 0
    · rw [if_pos hf] at h
      exact ⟨0, by omega, by omega, by simpa using h⟩
    · rw [if_neg hf] at h
      exact absurd h (by simp)
  | succ j ih =>
    intro h
    rw [tryDropsDown] at h
    by_cases hf : j + 1 < floor
    · rw [if_pos hf] at h
      exact absurd h (by simp)
    · rw [if_neg hf] at h
      rcases (Option.orElse_eq_some _ _ _).mp h with h1 | ⟨_, h1⟩
      · exact ⟨j + 1, by omega, by omega, by rw [pushLeft] at h1; exact h1⟩
      · obtain ⟨n, hn1, hn2, hk⟩ := ih h1
        exact ⟨n, hn1, by omega, hk⟩

/-- Soundness of the lazy ascending quantifier scan. -/
theorem tryDropsUp_sound {α : Type} (left cs : List Char)
    (k : List Char → List Char → Option α) (v : α) :
    ∀ fuel j, tryDropsUp left cs k j fuel = some v →
      ∃ n, j ≤ n ∧ n < j + fuel ∧
        k ((cs.take n).reverse ++ left) (cs.drop n) = some v := by
  intro fuel
  induction fuel with
  | zero =>
    intro j h
    rw [tryDropsUp] at h
    exact absurd h (by simp)
  | succ fuel ih =>
    intro j h
    rw [tryDropsUp] at h
    rcases (Option.orElse_eq_some _ _ _).mp h with h1 | ⟨_, h1⟩
    · exact ⟨j, by omega, by omega, by rw [pushLeft] at h1; exact h1⟩
    · obtain ⟨n, hn1, hn2, hk⟩ := ih (j + 1) h1
      exact ⟨n, by omega, by omega, hk⟩

/-- A take bounded by the class run consists of class characters. -/
theorem take_le_countWhile_all (p : Char → Bool) :
    ∀ (cs : List Char) (n : Nat), n ≤ countWhile p cs →
      ∀ c ∈ cs.take n, p c = true := by
  intro cs
  induction cs with
  | nil => intro n _ c hc; simp at hc
  | cons a cs ih =>
    intro n hn c hc
    cases n with
    | zero => simp at hc
    | succ n =>
      rw [countWhile, List.takeWhile] at hn
      by_cases hp : p a = true
      · rw [hp] at hn
        simp only [List.length_cons] at hn
        rw [List.take_succ_cons] at hc
        rcases List.mem_cons.mp hc with hc | hc
        · exact hc ▸ hp
        · exact ih n (by rw [countWhile] at *; omega) c hc
      · rw [Bool.not_eq_true] at hp
        rw [hp] at hn
        simp at hn

/-- The class run at the head is no longer than the list. -/
theorem countWhile_le_length (p : Char → Bool) (cs : List Char) :
    countWhile p cs ≤ cs.length := by
  induction cs with
  | nil => simp [countWhile, List.takeWhile]
  | cons a rest ih =>
    rw [countWhile, List.takeWhile]
    by_cases hp : p a = true
    · rw [hp]
      simp only [List.length_cons]
      rw [countWhile] at ih
      omega
    · rw [Bool.not_eq_true] at hp
      rw [hp]
      simp

/-- Soundness of the matcher: a successful parse splits the input into a
consumed part (characterized by `Consumed`) and a continuation call. -/
theorem reMatch_sound {α : Type} (r : Re) :
    ∀ (left cs : List Char) (k : List Char → List Char → Option α) (v : α),
      reMatch r left cs k = some v →
      ∃ n, n ≤ cs.length ∧ Consumed r (cs.take n) ∧
        k ((cs.take n).reverse ++ left) (cs.drop n) = some v := by
  induction r with
  | eps =>
    intro left cs k v h
    rw [reMatch] at h
    exact ⟨0, Nat.zero_le _, rfl, by simpa using h⟩
  | cls p =>
    intro left cs k v h
    cases cs with
    | nil => exact absurd h (by simp [reMatch])
    | cons c rest =>
      have h2 : (if p c = true then k (c :: left) rest else none) = some v := h
      by_cases hp : p c = true
      · rw [if_pos hp] at h2
        refine ⟨1, by simp, ?_, by simpa using h2⟩
        rw [Consumed]
        exact ⟨c, by simp, hp⟩
      · rw [if_neg hp] at h2
        exact absurd h2 (by simp)
  | litCI s =>
    intro left cs k v h
    rw [reMatch] at h
    obtain ⟨n, hn, hm, hk⟩ := matchLitCI_sound s left cs k v h
    exact ⟨n, hn, by rw [Consumed]; exact hm, hk⟩
  | seq a b iha ihb =>
    intro left cs k v h
    rw [reMatch] at h
    obtain ⟨n1, hn1, hc1, hk1⟩ := iha left cs _ v h
    obtain ⟨n2, hn2, hc2, hk2⟩ := ihb _ _ k v hk1
    rw [List.length_drop] at hn2
    refine ⟨n1 + n2, by omega, ?_, ?_⟩
    · rw [Consumed]
      exact ⟨cs.take n1, (cs.drop n1).take n2, by rw [List.take_add], hc1, hc2⟩
    · rw [List.take_add, List.reverse_append, List.append_assoc]
      rw [List.drop_drop] at hk2
      exact hk2
  | alt a b iha ihb =>
    intro left cs k v h
    rw [reMatch] at h
    rcases (Option.orElse_eq_some _ _ _).mp h with h1 | ⟨_, h1⟩
    · obtain ⟨n, hn, hc, hk⟩ := iha left cs k v h1
      exact ⟨n, hn, by rw [Consumed]; exact Or.inl hc, hk⟩
    · obtain ⟨n, hn, hc, hk⟩ := ihb left cs k v h1
      exact ⟨n, hn, by rw [Consumed]; exact Or.inr hc, hk⟩
  | opt a iha =>
    intro left cs k v h
    rw [reMatch] at h
    rcases (Option.orElse_eq_some _ _ _).mp h with h1 | ⟨_, h1⟩
    · obtain ⟨n, hn, hc, hk⟩ := iha left cs k v h1
      exact ⟨n, hn, by rw [Consumed]; exact Or.inl hc, hk⟩
    · exact ⟨0, Nat.zero_le _, by rw [Consumed]; exact Or.inr rfl, by simpa using h1⟩
  | starCls p =>
    intro left cs k v h
    rw [reMatch] at h
    obtain ⟨n, _, hn2, hk⟩ := tryDropsDown_sound 0 left cs k v _ h
    have hcw : countWhile p cs ≤ cs.length := countWhile_le_length p cs
    refine ⟨n, by omega, ?_, hk⟩
    rw [Consumed]
    exact take_le_countWhile_all p cs n hn2
  | plusCls p =>
    intro left cs k v h
    rw [reMatch] at h
    obtain ⟨n, hn1, hn2, hk⟩ := tryDropsDown_sound 1 left cs k v _ h
    have hcw : countWhile p cs ≤ cs.length := countWhile_le_length p cs
    refine ⟨n, by omega, ?_, hk⟩
    rw [Consumed]
    refine ⟨?_, take_le_countWhile_all p cs n hn2⟩
    have : (cs.take n).length = n := by
      rw [List.length_take]; omega
    intro hcon
    rw [hcon] at this
    simp at this
    omega
  | repCls lo hi p =>
    intro left cs k v h
    rw [reMatch] at h
    obtain ⟨n, hn1, hn2, hk⟩ := tryDropsDown_sound lo left cs k v _ h
    have hcw : countWhile p cs ≤ cs.length := countWhile_le_length p cs
    have hnr : n ≤ countWhile p cs := by omega
    refine ⟨n, by omega, ?_, hk⟩
    rw [Consumed]
    have hlen : (cs.take n).length = n := by
      rw [List.length_take]; omega
    exact ⟨by omega, by omega, take_le_countWhile_all p cs n hnr⟩
  | lazyPlusCls p =>
    intro left cs k v h
    rw [reMatch] at h
    obtain ⟨n, hn1, hn2, hk⟩ := tryDropsUp_sound left cs k v _ _ h
    have hcw : countWhile p cs ≤ cs.length := countWhile_le_length p cs
    have hnr : n ≤ countWhile p cs := by omega
    refine ⟨n, by omega, ?_, hk⟩
    rw [Consumed]
    refine ⟨?_, take_le_countWhile_all p cs n hnr⟩
    have hlen : (cs.take n).length = n := by
      rw [List.length_take]; omega
    intro hcon
    rw [hcon] at hlen
    simp at hlen
    omega
  | bolM =>
    intro left cs k v h
    rw [reMatch] at h
    by_cases hb : (left.isEmpty || left.head? = some '\n') = true
    · rw [if_pos hb] at h
      exact ⟨0, Nat.zero_le _, by simp [Consumed], by simpa using h⟩
    · rw [if_neg hb] at h
      exact absurd h (by simp)
  | eolM =>
    intro left cs k v h
    rw [reMatch] at h
    by_cases hb : (cs.isEmpty || cs.head? = some '\n') = true
    · rw [if_pos hb] at h
      exact ⟨0, Nat.zero_le _, by simp [Consumed], by simpa using h⟩
    · rw [if_neg hb] at h
      exact absurd h (by simp)
  | eolS =>
    intro left cs k v h
    rw [reMatch] at h
    by_cases hb : (cs.isEmpty || cs = ['\n']) = true
    · rw [if_pos hb] at h
      exact ⟨0, Nat.zero_le _, by simp [Consumed], by simpa using h⟩
    · rw [if_neg hb] at h
      exact absurd h (by simp)
  | wordB =>
    intro left cs k v h
    rw [reMatch] at h
    by_cases hb : (wordCharOpt left.head? != wordCharOpt cs.head?) = true
    · rw [if_pos hb] at h
      exact ⟨0, Nat.zero_le _, by simp [Consumed], by simpa using h⟩
    · rw [if_neg hb] at h
      exact absurd h (by simp)
  | nlb2 p1 p2 =>
    intro left cs k v h
    match hl : left with
    | [] =>
      have h2 : k [] cs = some v := h
      exact ⟨0, Nat.zero_le _, by simp [Consumed], by simpa using h2⟩
    | [c1] =>
      have h2 : k [c1] cs = some v := h
      exact ⟨0, Nat.zero_le _, by simp [Consumed], by simpa using h2⟩
    | c1 :: c2 :: ltail =>
      have h2 : (if p2 c1 && p1 c2 then none else k (c1 :: c2 :: ltail) cs) = some v := h
      by_cases hb : (p2 c1 && p1 c2) = true
      · rw [if_pos hb] at h2
        exact absurd h2 (by simp)
      · rw [if_neg hb] at h2
        exact ⟨0, Nat.zero_le _, by simp [Consumed], by simpa using h2⟩

/-- The structural facts about any text consumed by `degreeCore`: it has
at least three characters; the first is a letter, the second and third are
letters or dots; and either the second is a dot, or the third is a letter,
or the text begins with a case-insensitive `Ph` (the `Ph\.?D\.?`
alternative). -/
def DegreeShape (t : List Char) : Prop :=
  ∃ x1 x2 x3 r, t = x1 :: x2 :: x3 :: r ∧
    asciiLetter x1 = true ∧
    (asciiLetter x2 = true ∨ x2 = '.') ∧
    (asciiLetter x3 = true ∨ x3 = '.') ∧
    (x2 = '.' ∨ asciiLetter x3 = true ∨
      (charCI x1 'P' = true ∧ charCI x2 'h' = true))

/-- The first three characters of a `ciMatch` image of a word of length at
least three. -/
theorem ciMatch_first3 {w1 w2 w3 : Char} {ws t : List Char}
    (h : ciMatch (w1 :: w2 :: w3 :: ws) t) :
    ∃ x1 x2 x3 r, t = x1 :: x2 :: x3 :: r ∧
      charCI x1 w1 = true ∧ charCI x2 w2 = true ∧ charCI x3 w3 = true := by
  rw [ciMatch] at h
  obtain ⟨x1, t1, rfl, h1, h⟩ := h
  rw [ciMatch] at h
  obtain ⟨x2, t2, rfl, h2, h⟩ := h
  rw [ciMatch] at h
  obtain ⟨x3, t3, rfl, h3, _⟩ := h
  exact ⟨x1, x2, x3, t3, rfl, h1, h2, h3⟩

/-- The first two characters of a `ciMatch` image of a word of length at
least two. -/
theorem ciMatch_first2 {w1 w2 : Char} {ws t : List Char}
    (h : ciMatch (w1 :: w2 :: ws) t) :
    ∃ x1 x2 r, t = x1 :: x2 :: r ∧
      charCI x1 w1 = true ∧ charCI x2 w2 = true := by
  rw [ciMatch] at h
  obtain ⟨x1, t1, rfl, h1, h⟩ := h
  rw [ciMatch] at h
  obtain ⟨x2, t2, rfl, h2, _⟩ := h
  exact ⟨x1, x2, t2, rfl, h1, h2⟩

/-- The single character of a `ciMatch` image of a one-letter word
prefix. -/
theorem ciMatch_first1 {w1 : Char} {ws t : List Char}
    (h : ciMatch (w1 :: ws) t) :
    ∃ x1 r, t = x1 :: r ∧ charCI x1 w1 = true := by
  rw [ciMatch] at h
  obtain ⟨x1, t1, rfl, h1, _⟩ := h
  exact ⟨x1, t1, rfl, h1⟩

/-- A character `charCI`-equal to a concrete letter is a letter. -/
theorem charCI_concrete_letter {x d : Char} (hd : asciiLetter d = true)
    (h : charCI x d = true) : asciiLetter x = true := by
  rw [charCI_letter_eq x d h]
  exact hd

/-- Shape helper: a word alternative whose first three characters are
letters. -/
theorem degreeShape_lll {w1 w2 w3 : Char} {ws t1 t2 : List Char}
    (hw1 : asciiLetter w1 = true) (hw2 : asciiLetter w2 = true)
    (hw3 : asciiLetter w3 = true)
    (h : ciMatch (w1 :: w2 :: w3 :: ws) t1) : DegreeShape (t1 ++ t2) := by
  obtain ⟨x1, x2, x3, r, rfl, h1, h2, h3⟩ := ciMatch_first3 h
  exact ⟨x1, x2, x3, r ++ t2, by simp,
    charCI_concrete_letter hw1 h1,
    Or.inl (charCI_concrete_letter hw2 h2),
    Or.inl (charCI_concrete_letter hw3 h3),
    Or.inr (Or.inl (charCI_concrete_letter hw3 h3))⟩

/-- Shape helper: a word alternative of the form `X.Y…`. -/
theorem degreeShape_ldl {w1 w3 : Char} {ws t1 t2 : List Char}
    (hw1 : asciiLetter w1 = true) (hw3 : asciiLetter w3 = true)
    (h : ciMatch (w1 :: '.' :: w3 :: ws) t1) : DegreeShape (t1 ++ t2) := by
  obtain ⟨x1, x2, x3, r, rfl, h1, h2, h3⟩ := ciMatch_first3 h
  have hx2 : x2 = '.' := charCI_dot x2 h2
  exact ⟨x1, x2, x3, r ++ t2, by simp,
    charCI_concrete_letter hw1 h1,
    Or.inr hx2,
    Or.inl (charCI_concrete_letter hw3 h3),
    Or.inl hx2⟩

/-- A `ciMatch` image of a one-character literal. -/
theorem ciMatch_exact1 {w1 : Char} {t : List Char}
    (h : ciMatch [w1] t) : ∃ x1, t = [x1] ∧ charCI x1 w1 = true := by
  rw [ciMatch] at h
  obtain ⟨x1, t1, rfl, h1, h⟩ := h
  rw [ciMatch] at h
  exact ⟨x1, by rw [h], h1⟩

/-- A `ciMatch` image of a two-character literal. -/
theorem ciMatch_exact2 {w1 w2 : Char} {t : List Char}
    (h : ciMatch [w1, w2] t) :
    ∃ x1 x2, t = [x1, x2] ∧ charCI x1 w1 = true ∧ charCI x2 w2 = true := by
  rw [ciMatch] at h
  obtain ⟨x1, t1, rfl, h1, h⟩ := h
  rw [ciMatch] at h
  obtain ⟨x2, t2, rfl, h2, h⟩ := h
  rw [ciMatch] at h
  exact ⟨x1, x2, by rw [h], h1, h2⟩

/-- Any text consumed by `degreeCore` satisfies `DegreeShape`: in
particular it has at least three characters and starts with a letter. -/
theorem degreeCore_shape (t : List Char) (h : Consumed degreeCore t) :
    DegreeShape t := by
  rw [degreeCore] at h
  simp only [altChain, Consumed, lit] at h
  rcases h with h | h | h | h | h | h | h | h | h | h | h | h | h | h | h | h | h | h | h | h | h
  · -- Bachelor…
    obtain ⟨t1, t2, rfl, hw, _⟩ := h
    exact degreeShape_lll (by decide) (by decide) (by decide) hw
  · -- Master…
    obtain ⟨t1, t2, rfl, hw, _⟩ := h
    exact degreeShape_lll (by decide) (by decide) (by decide) hw
  · -- PhD
    have h2 := @degreeShape_lll _ _ _ _ _ [] (by decide) (by decide) (by decide) h
    simpa using h2
  · -- Ph\.?D\.?
    obtain ⟨t1, t2, rfl, hw, u1, u2, rfl, hopt, v1, v2, rfl, hd, _⟩ := h
    obtain ⟨x1, x2, rfl, h1, h2⟩ := ciMatch_exact2 hw
    have hx1 : asciiLetter x1 = true := charCI_concrete_letter (by decide) h1
    have hx2 : asciiLetter x2 = true := charCI_concrete_letter (by decide) h2
    obtain ⟨y1, rfl, hy⟩ := ciMatch_exact1 hd
    rcases hopt with hdot | hnil
    · obtain ⟨z1, rfl, hz⟩ := ciMatch_exact1 hdot
      have hz1 : z1 = '.' := charCI_dot z1 hz
      subst hz1
      exact ⟨x1, x2, '.', y1 :: v2, by simp, hx1, Or.inl hx2, Or.inr rfl,
        Or.inr (Or.inr ⟨h1, h2⟩)⟩
    · subst hnil
      exact ⟨x1, x2, y1, v2, by simp, hx1, Or.inl hx2,
        Or.inl (charCI_concrete_letter (by decide) hy),
        Or.inr (Or.inl (charCI_concrete_letter (by decide) hy))⟩
  · -- Doctorate
    have h2 := @degreeShape_lll _ _ _ _ _ [] (by decide) (by decide) (by decide) h
    simpa using h2
  · -- Associate…
    obtain ⟨t1, t2, rfl, hw, _⟩ := h
    exact degreeShape_lll (by decide) (by decide) (by decide) hw
  · -- B.S
    obtain ⟨t1, t2, rfl, hw, _⟩ := h
    exact degreeShape_ldl (by decide) (by decide) hw
  · -- B.A
    obtain ⟨t1, t2, rfl, hw, _⟩ := h
    exact degreeShape_ldl (by decide) (by decide) hw
  · -- M.S
    obtain ⟨t1, t2, rfl, hw, _⟩ := h
    exact degreeShape_ldl (by decide) (by decide) hw
  · -- M.A
    obtain ⟨t1, t2, rfl, hw, _⟩ := h
    exact degreeShape_ldl (by decide) (by decide) hw
  · -- MBA
    have h2 := @degreeShape_lll _ _ _ _ _ [] (by decide) (by decide) (by decide) h
    simpa using h2
  · -- M.B.A
    obtain ⟨t1, t2, rfl, hw, _⟩ := h
    exact degreeShape_ldl (by decide) (by decide) hw
  · -- B\.?Sc\.?
    obtain ⟨t1, t2, rfl, hb, u1, u2, rfl, hopt, v1, v2, rfl, hsc, _⟩ := h
    obtain ⟨x1, rfl, h1⟩ := ciMatch_exact1 hb
    have hx1 : asciiLetter x1 = true := charCI_concrete_letter (by decide) h1
    obtain ⟨y1, y2, rfl, hy1, hy2⟩ := ciMatch_exact2 hsc
    rcases hopt with hdot | hnil
    · obtain ⟨z1, rfl, hz⟩ := ciMatch_exact1 hdot
      have hz1 : z1 = '.' := charCI_dot z1 hz
      subst hz1
      exact ⟨x1, '.', y1, y2 :: v2, by simp, hx1, Or.inr rfl,
        Or.inl (charCI_concrete_letter (by decide) hy1), Or.inl rfl⟩
    · subst hnil
      exact ⟨x1, y1, y2, v2, by simp, hx1,
        Or.inl (charCI_concrete_letter (by decide) hy1),
        Or.inl (charCI_concrete_letter (by decide) hy2),
        Or.inr (Or.inl (charCI_concrete_letter (by decide) hy2))⟩
  · -- M\.?Sc\.?
    obtain ⟨t1, t2, rfl, hb, u1, u2, rfl, hopt, v1, v2, rfl, hsc, _⟩ := h
    obtain ⟨x1, rfl, h1⟩ := ciMatch_exact1 hb
    have hx1 : asciiLetter x1 = true := charCI_concrete_letter (by decide) h1
    obtain ⟨y1, y2, rfl, hy1, hy2⟩ := ciMatch_exact2 hsc
    rcases hopt with hdot | hnil
    · obtain ⟨z1, rfl, hz⟩ := ciMatch_exact1 hdot
      have hz1 : z1 = '.' := charCI_dot z1 hz
      subst hz1
      exact ⟨x1, '.', y1, y2 :: v2, by simp, hx1, Or.inr rfl,
        Or.inl (charCI_concrete_letter (by decide) hy1), Or.inl rfl⟩
    · subst hnil
      exact ⟨x1, y1, y2, v2, by simp, hx1,
        Or.inl (charCI_concrete_letter (by decide) hy1),
        Or.inl (charCI_concrete_letter (by decide) hy2),
        Or.inr (Or.inl (charCI_concrete_letter (by decide) hy2))⟩
  · -- BBA
    have h2 := @degreeShape_lll _ _ _ _ _ [] (by decide) (by decide) (by decide) h
    simpa using h2
  · -- B.B.A
    obtain ⟨t1, t2, rfl, hw, _⟩ := h
    exact degreeShape_ldl (by decide) (by decide) hw
  · -- Doctor of
    have h2 := @degreeShape_lll _ _ _ _ _ [] (by decide) (by decide) (by decide) h
    simpa using h2
  · -- Diploma
    have h2 := @degreeShape_lll _ _ _ _ _ [] (by decide) (by decide) (by decide) h
    simpa using h2
  · -- Certificate
    have h2 := @degreeShape_lll _ _ _ _ _ [] (by decide) (by decide) (by decide) h
    simpa using h2
  · -- GED
    have h2 := @degreeShape_lll _ _ _ _ _ [] (by decide) (by decide) (by decide) h
    simpa using h2
  · -- High School…
    obtain ⟨t1, t2, rfl, hw, _⟩ := h
    exact degreeShape_lll (by decide) (by decide) (by decide) hw

/-- A `DegreeShape` only constrains the first three characters, so it
survives appending. -/
theorem degreeShape_append {t1 t2 : List Char} (h : DegreeShape t1) :
    DegreeShape (t1 ++ t2) := by
  obtain ⟨x1, x2, x3, r, rfl, h1, h2, h3, h4⟩ := h
  exact ⟨x1, x2, x3, r ++ t2, by simp, h1, h2, h3, h4⟩

/-- A `DegreeShape` text has at least three characters. -/
theorem degreeShape_len {t : List Char} (h : DegreeShape t) : 3 ≤ t.length := by
  obtain ⟨x1, x2, x3, r, rfl, _⟩ := h
  simp

/-- Dropping a leading run from an appended list never drops below what the
second part keeps on its own. -/
theorem length_dropWhile_append (p : Char → Bool) (l b : List Char) :
    (List.dropWhile p b).length ≤ (List.dropWhile p (l ++ b)).length := by
  induction l with
  | nil => simp
  | cons a l ih =>
    rw [List.cons_append, List.dropWhile_cons]
    cases hp : p a
    · simp only [Bool.false_eq_true, if_false]
      have hb : (List.dropWhile p b).length ≤ b.length :=
        List.Sublist.length_le (List.dropWhile_sublist p)
      simp only [List.length_cons, List.length_append]
      omega
    · simpa using ih

/-- Stripping whitespace from a list whose first three characters are
non-whitespace keeps at least three characters. -/
theorem pyStripList_len3 {x1 x2 x3 : Char} {r : List Char}
    (h1 : pyWs x1 = false) (h2 : pyWs x2 = false) (h3 : pyWs x3 = false) :
    3 ≤ (pyStripList (x1 :: x2 :: x3 :: r)).length := by
  rw [pyStripList]
  rw [List.dropWhile_cons, if_neg (by simp [h1])]
  have hrev : (x1 :: x2 :: x3 :: r).reverse = r.reverse ++ [x3, x2, x1] := by
    simp
  rw [hrev]
  have hge := length_dropWhile_append pyWs r.reverse [x3, x2, x1]
  have h33 : (List.dropWhile pyWs [x3, x2, x1]).length = 3 := by
    rw [List.dropWhile_cons, if_neg (by simp [h3])]
    rfl
  rw [List.length_reverse]
  omega

/-- Inversion of the search scan: a reported span comes from a successful
anchored match whose end offset is computed from the remainder. -/
theorem reSearchAux_inv (r : Re) (text : List Char) :
    ∀ (fuel i s e : Nat), reSearchAux r text i fuel = some (s, e) →
      ∃ rem, reMatchAt r text s = some rem ∧ e = text.length - rem.length := by
  intro fuel
  induction fuel with
  | zero =>
    intro i s e h
    exact absurd h (by simp [reSearchAux])
  | succ n ih =>
    intro i s e h
    rw [reSearchAux] at h
    cases hm : reMatchAt r text i with
    | some rest =>
      rw [hm] at h
      simp only [Option.some.injEq, Prod.mk.injEq] at h
      obtain ⟨rfl, rfl⟩ := h
      exact ⟨rest, hm, rfl⟩
    | none =>
      rw [hm] at h
      exact ih (i + 1) s e h

/-- Every successful anchored `degreeRe` match consumes a `DegreeShape`
prefix of the text after the match position. -/
theorem degreeRe_matchAt_shape (text : List Char) (i : Nat) (rem : List Char)
    (h : reMatchAt degreeRe text i = some rem) :
    ∃ n, n ≤ (text.drop i).length ∧ rem = (text.drop i).drop n ∧
      DegreeShape ((text.drop i).take n) := by
  rw [reMatchAt] at h
  obtain ⟨n, hn, hc, hk⟩ := reMatch_sound degreeRe _ _ _ _ h
  simp only [Option.some.injEq] at hk
  refine ⟨n, hn, hk.symm, ?_⟩
  simp only [degreeRe, Consumed] at hc
  obtain ⟨t1, t2, heq, ht1, hc2⟩ := hc
  obtain ⟨u1, u2, heq2, hcore, _⟩ := hc2
  subst ht1
  rw [heq, heq2, List.nil_append]
  exact degreeShape_append (degreeCore_shape u1 hcore)

/-- The two-character negative lookbehind kills the whole sequence when the
two preceding characters satisfy its classes. -/
theorem reMatch_nlb2_blocked {α : Type} (p1 p2 : Char → Bool) (r2 : Re)
    (a b : Char) (l cs : List Char) (k : List Char → List Char → Option α)
    (ha : p2 a = true) (hb : p1 b = true) :
    reMatch (.seq (.nlb2 p1 p2) r2) (a :: b :: l) cs k = none := by
  simp only [reMatch]
  simp [ha, hb]

/-- A continuation that can extend neither a degree word nor an
abbreviation: end of line, or a character that is not a letter and not a
dot. -/
def bareTail : List Char → Bool
  | [] => true
  | c :: _ => !asciiLetter c && c != '.'

/-- C8: a bare two-letter state abbreviation following a comma or
whitespace (such as the "MA" of ", Boston, MA") is never recognized as a
degree token by `_parse_education_section`.  The degree pattern matches
neither at the abbreviation's first letter (every vocabulary alternative
needs a third word character there, which a bare abbreviation lacks) nor
at its second letter (the negative lookbehind `(?<![,\s][A-Z])` rejects a
start preceded by comma-or-space then a letter), so the abbreviation can
trigger no new entry in the degree-driven grouping of `groupEduLines`;
and any degree token a successful search does store via `applyDegreeBlock`
keeps at least three characters after stripping, so no stored
`degree_type` is ever a bare two-letter code. -/
theorem education_state_code_guard
    (u rest : List Char) (sp c1 c2 : Char) (line : List Char)
    (span : Nat × Nat) (entry : EducationDict)
    (hsp : commaOrWs sp = true) (h1 : asciiLetter c1 = true)
    (h2 : asciiLetter c2 = true) (hbare : bareTail rest = true) :
    reMatchAt degreeRe (u ++ sp :: c1 :: c2 :: rest) (u.length + 1) = none ∧
    reMatchAt degreeRe (u ++ sp :: c1 :: c2 :: rest) (u.length + 2) = none ∧
    (reSearch degreeRe line = some span →
      ∀ d, (applyDegreeBlock entry line span).degree_type = some d →
        3 ≤ d.data.length) := by
  obtain ⟨s, e⟩ := span
  refine ⟨?_, ?_, ?_⟩
  · cases hm : reMatchAt degreeRe (u ++ sp :: c1 :: c2 :: rest) (u.length + 1) with
    | none => rfl
    | some rem =>
      exfalso
      have hd1 : (u ++ sp :: c1 :: c2 :: rest).drop (u.length + 1) =
          c1 :: c2 :: rest := by
        have he : u ++ sp :: c1 :: c2 :: rest =
            (u ++ [sp]) ++ c1 :: c2 :: rest := by simp
        rw [he, show u.length + 1 = (u ++ [sp]).length by simp, List.drop_left]
      obtain ⟨n, hn, hrem, hshape⟩ := degreeRe_matchAt_shape _ _ _ hm
      rw [hd1] at hshape
      obtain ⟨x1, x2, x3, r, heq, hx1, hx2, hx3, hx4⟩ := hshape
      have hlen := congrArg List.length heq
      simp only [List.length_take, List.length_cons] at hlen
      cases rest with
      | nil =>
        simp only [List.length_nil] at hlen
        omega
      | cons c3 rest2 =>
        have hn3 : 3 ≤ n := by omega
        obtain ⟨m, rfl⟩ : ∃ m, n = m + 3 := ⟨n - 3, by omega⟩
        rw [show m + 3 = (m + 2) + 1 from rfl, List.take_succ_cons,
          show m + 2 = (m + 1) + 1 from rfl, List.take_succ_cons,
          List.take_succ_cons] at heq
        simp only [List.cons.injEq] at heq
        obtain ⟨he1, he2, he3, -⟩ := heq
        simp only [bareTail, Bool.and_eq_true, Bool.not_eq_true',
          bne_iff_ne, ne_eq] at hbare
        rcases hx3 with hx3 | hx3
        · rw [← he3] at hx3
          rw [hbare.1] at hx3
          exact absurd hx3 (by simp)
        · exact hbare.2 (by rw [he3, hx3])
  · have ht : (u ++ sp :: c1 :: c2 :: rest).take (u.length + 2) =
        u ++ [sp, c1] := by
      have he : u ++ sp :: c1 :: c2 :: rest =
          (u ++ [sp, c1]) ++ c2 :: rest := by simp
      rw [he, show u.length + 2 = (u ++ [sp, c1]).length by simp, List.take_left]
    rw [reMatchAt, ht]
    have hrev : (u ++ [sp, c1]).reverse = c1 :: sp :: u.reverse := by simp
    rw [hrev, degreeRe]
    exact reMatch_nlb2_blocked _ _ _ _ _ _ _ _ h1 hsp
  · intro hsearch d hd
    rw [reSearch, reSearchFrom] at hsearch
    obtain ⟨rem, hm, he⟩ := reSearchAux_inv degreeRe line _ 0 s e hsearch
    obtain ⟨n, hn, hrem, hshape⟩ := degreeRe_matchAt_shape _ _ _ hm
    have hlen3 := degreeShape_len hshape
    have hmin : ((line.drop s).take n).length = min n (line.drop s).length :=
      List.length_take n (line.drop s)
    have hdl : (line.drop s).length = line.length - s := List.length_drop s line
    have hreml : rem.length = (line.drop s).length - n := by
      rw [hrem, List.length_drop]
    have he2 : e = s + n := by omega
    have hsl : group0 line (s, e) = (line.drop s).take n := by
      rw [group0]
      rw [pySlice, he2, List.drop_take]
      congr 1
      omega
    simp only [applyDegreeBlock, Option.some.injEq] at hd
    obtain ⟨x1, x2, x3, r, heq, hx1, hx2, hx3, hx4⟩ := hshape
    have hw1 : pyWs x1 = false := asciiLetter_not_ws x1 hx1
    have hw2 : pyWs x2 = false := by
      rcases hx2 with hx2 | hx2
      · exact asciiLetter_not_ws x2 hx2
      · rw [hx2]; rfl
    have hw3 : pyWs x3 = false := by
      rcases hx3 with hx3 | hx3
      · exact asciiLetter_not_ws x3 hx3
      · rw [hx3]; rfl
    rw [← hd]
    show 3 ≤ (pyStripList (group0 line (s, e))).length
    rw [hsl, heq]
    exact pyStripList_len3 hw1 hw2 hw3

/-- Concrete instance of the state-code guard at the text "Boston, MA":
no degree match starts at the abbreviation, and every stored degree token
keeps at least three characters (shown here on the line "B.S. in CS"). -/
theorem education_state_code_guard_witness :
    reMatchAt degreeRe (("Boston,".data) ++ ' ' :: 'M' :: 'A' :: [])
        (("Boston,".data).length + 1) = none ∧
    reMatchAt degreeRe (("Boston,".data) ++ ' ' :: 'M' :: 'A' :: [])
        (("Boston,".data).length + 2) = none ∧
    (reSearch degreeRe (("B.S. in CS").data) = some (0, 4) →
      ∀ d, (applyDegreeBlock
          { raw_text := none, institution_name := none, degree_type := none,
            field_of_study := none, start_date := none, end_date := none,
            is_current := false } (("B.S. in CS").data) (0, 4)).degree_type =
          some d → 3 ≤ d.data.length) :=
  education_state_code_guard ("Boston,".data) [] ' ' 'M' 'A'
    (("B.S. in CS").data) (0, 4)
    { raw_text := none, institution_name := none, degree_type := none,
      field_of_study := none, start_date := none, end_date := none,
      is_current := false }
    (by decide) (by decide) (by decide) (by decide)

/-! ## Positional analysis of the section-header matcher (C4) -/

/-- Whitespace test on an optional character (absent = not whitespace). -/
def pyWsO : Option Char → Bool
  | some c => pyWs c
  | none => false

/-- Letter test on an optional character (absent = not a letter). -/
def letterO : Option Char → Bool
  | some c => asciiLetter c
  | none => false

/-- Does the suffix start with a letter? -/
def headLetter (cs : List Char) : Bool := letterO cs.head?

/-- Characters inside the `takeWhile` run satisfy the predicate. -/
theorem countWhile_get_true (p : Char → Bool) :
    ∀ (cs : List Char) (i : Nat), i < countWhile p cs →
      ∃ c, cs.get? i = some c ∧ p c = true := by
  intro cs
  induction cs with
  | nil => intro i h; exact absurd h (by simp [countWhile, List.takeWhile])
  | cons a rest ih =>
    intro i h
    rw [countWhile, List.takeWhile] at h
    cases hp : p a
    · rw [hp] at h
      exact absurd h (by simp)
    · rw [hp] at h
      simp only [List.length_cons] at h
      cases i with
      | zero => exact ⟨a, rfl, hp⟩
      | succ j =>
        have hj : j < countWhile p rest := by
          rw [countWhile]; omega
        obtain ⟨c, hc, hpc⟩ := ih j hj
        exact ⟨c, hc, hpc⟩

/-- The character right after the `takeWhile` run fails the predicate. -/
theorem countWhile_get_false (p : Char → Bool) :
    ∀ (cs : List Char) (c : Char), cs.get? (countWhile p cs) = some c →
      p c = false := by
  intro cs
  induction cs with
  | nil => intro c h; exact absurd h (by simp)
  | cons a rest ih =>
    intro c h
    rw [countWhile, List.takeWhile] at h
    cases hp : p a
    · rw [hp] at h
      simp only [List.length_nil, List.get?] at h
      cases h
      exact hp
    · rw [hp] at h
      simp only [List.length_cons] at h
      exact ih c (by rw [countWhile]; exact h)

/-- Inversion of the greedy `\s*` scan. -/
theorem tryWsDown_some (cs : List Char) (k : List Char → Option (List Char)) :
    ∀ (J : Nat) (r : List Char), tryWsDown cs k J = some r →
      ∃ j, j ≤ J ∧ k (cs.drop j) = some r := by
  intro J
  induction J with
  | zero =>
    intro r h
    rw [tryWsDown] at h
    exact ⟨0, Nat.le_refl 0, by simpa using h⟩
  | succ n ih =>
    intro r h
    rw [tryWsDown] at h
    rcases (Option.orElse_eq_some _ _ _).mp h with h1 | ⟨_, h1⟩
    · exact ⟨n + 1, Nat.le_refl _, h1⟩
    · obtain ⟨j, hj, hk⟩ := ih r h1
      exact ⟨j, by omega, hk⟩

/-- Inversion of the greedy `\s+` scan. -/
theorem tryWsDown1_some (cs : List Char) (k : List Char → Option (List Char)) :
    ∀ (J : Nat) (r : List Char), tryWsDown1 cs k J = some r →
      ∃ j, 1 ≤ j ∧ j ≤ J ∧ k (cs.drop j) = some r := by
  intro J
  induction J with
  | zero =>
    intro r h
    exact absurd h (by simp [tryWsDown1])
  | succ n ih =>
    intro r h
    rw [tryWsDown1] at h
    rcases (Option.orElse_eq_some _ _ _).mp h with h1 | ⟨_, h1⟩
    · exact ⟨n + 1, by omega, Nat.le_refl _, h1⟩
    · obtain ⟨j, hj1, hj, hk⟩ := ih r h1
      exact ⟨j, hj1, by omega, hk⟩

/-- Completeness of the greedy `\s*` scan: a success anywhere in range is
found. -/
theorem tryWsDown_isSome (cs : List Char) (k : List Char → Option (List Char)) :
    ∀ (J j : Nat), j ≤ J → (k (cs.drop j)).isSome = true →
      (tryWsDown cs k J).isSome = true := by
  intro J
  induction J with
  | zero =>
    intro j hj h
    rw [tryWsDown]
    have hz : j = 0 := by omega
    subst hz
    simpa using h
  | succ n ih =>
    intro j hj h
    rw [tryWsDown]
    cases hfirst : k (cs.drop (n + 1)) with
    | some v => simp [hfirst]
    | none =>
      by_cases hje : j = n + 1
      · subst hje
        rw [hfirst] at h
        exact absurd h (by simp)
      · have h2 := ih j (by omega) h
        simpa [hfirst] using h2

/-- Completeness of the greedy `\s+` scan. -/
theorem tryWsDown1_isSome (cs : List Char) (k : List Char → Option (List Char)) :
    ∀ (J j : Nat), 1 ≤ j → j ≤ J → (k (cs.drop j)).isSome = true →
      (tryWsDown1 cs k J).isSome = true := by
  intro J
  induction J with
  | zero =>
    intro j hj1 hj h
    omega
  | succ n ih =>
    intro j hj1 hj h
    rw [tryWsDown1]
    cases hfirst : k (cs.drop (n + 1)) with
    | some v => simp [hfirst]
    | none =>
      by_cases hje : j = n + 1
      · subst hje
        rw [hfirst] at h
        exact absurd h (by simp)
      · have h2 := ih j hj1 (by omega) h
        simpa [hfirst] using h2

/-- What the `(?:\s*:|\s*$)` tail consumes: whitespace inside the leading
run, then a colon, or the multiline `$` check. -/
def TailC (cs r : List Char) : Prop :=
  ∃ j, j ≤ countWhile pyWs cs ∧
    (cs.drop j = ':' :: r ∨ (cs.drop j = r ∧ (r = [] ∨ r.head? = some '\n')))

/-- Soundness of the header tail matcher. -/
theorem headerTailK_sound (cs r : List Char) (h : headerTailK cs = some r) :
    TailC cs r := by
  rw [headerTailK] at h
  rcases (Option.orElse_eq_some _ _ _).mp h with h1 | ⟨_, h1⟩
  · obtain ⟨j, hj, hk⟩ := tryWsDown_some _ _ _ _ h1
    refine ⟨j, hj, Or.inl ?_⟩
    split at hk
    · rename_i r2 heq
      rw [heq]
      simp only [Option.some.injEq] at hk
      rw [hk]
    · exact absurd hk (by simp)
  · obtain ⟨j, hj, hk⟩ := tryWsDown_some _ _ _ _ h1
    refine ⟨j, hj, Or.inr ?_⟩
    by_cases hcond : ((cs.drop j).isEmpty || ((cs.drop j).head? = some '\n' : Bool)) = true
    · rw [if_pos hcond] at hk
      simp only [Option.some.injEq] at hk
      subst hk
      simp only [Bool.or_eq_true, List.isEmpty_iff, decide_eq_true_eq] at hcond
      exact ⟨rfl, hcond⟩
    · rw [if_neg hcond] at hk
      exact absurd hk (by simp)

/-- Completeness of the header tail matcher. -/
theorem headerTailK_complete (cs r : List Char) (h : TailC cs r) :
    (headerTailK cs).isSome = true := by
  obtain ⟨j, hj, hbr | ⟨hbr, hr⟩⟩ := h
  · rw [headerTailK]
    have h1 : ((tryWsDown cs (fun r => match r with
        | ':' :: r2 => some r2
        | _ => none) (countWhile pyWs cs))).isSome = true := by
      apply tryWsDown_isSome cs _ _ j hj
      rw [hbr]
      rfl
    cases hfound : tryWsDown cs (fun r => match r with
        | ':' :: r2 => some r2
        | _ => none) (countWhile pyWs cs) with
    | some v => simp [hfound]
    | none => rw [hfound] at h1; exact absurd h1 (by simp)
  · rw [headerTailK]
    have h1 : ((tryWsDown cs
        (fun r => if r.isEmpty || r.head? = some '\n' then some r else none)
        (countWhile pyWs cs))).isSome = true := by
      apply tryWsDown_isSome cs _ _ j hj
      rw [hbr]
      have hcond : (r.isEmpty || (r.head? = some '\n' : Bool)) = true := by
        rcases hr with hr | hr
        · subst hr; simp
        · simp [hr]
      rw [if_pos hcond]
      rfl
    cases hf2 : tryWsDown cs (fun r => match r with
        | ':' :: r2 => some r2
        | _ => none) (countWhile pyWs cs) with
    | some v => simp [hf2]
    | none =>
      cases hf3 : tryWsDown cs
          (fun r => if r.isEmpty || r.head? = some '\n' then some r else none)
          (countWhile pyWs cs) with
      | some v => simp [hf2, hf3]
      | none => rw [hf3] at h1; exact absurd h1 (by simp)

/-- What one arm's word phrase consumes: the words in order, separated by
nonempty whitespace runs, then the header tail. -/
def PhraseC : List String → List Char → List Char → Prop
  | [], cs, r => TailC cs r
  | w :: ws, cs, r =>
    ciPref w.data cs = true ∧
      (match ws with
       | [] => TailC (cs.drop w.data.length) r
       | _ :: _ => ∃ j, 1 ≤ j ∧ j ≤ countWhile pyWs (cs.drop w.data.length) ∧
           PhraseC ws ((cs.drop w.data.length).drop j) r)

/-- Soundness of the word-sequence matcher. -/
theorem matchWordsK_sound :
    ∀ (arm : List String) (cs r : List Char),
      matchWordsK arm cs headerTailK = some r → PhraseC arm cs r := by
  intro arm
  induction arm with
  | nil =>
    intro cs r h
    rw [matchWordsK] at h
    exact headerTailK_sound _ _ h
  | cons w ws ih =>
    intro cs r h
    simp only [matchWordsK] at h
    by_cases hp : ciPref w.data cs = true
    · rw [if_pos hp] at h
      cases ws with
      | nil =>
        exact ⟨hp, headerTailK_sound _ _ h⟩
      | cons w2 ws2 =>
        rw [wsPlusK] at h
        obtain ⟨j, hj1, hjle, hk⟩ := tryWsDown1_some _ _ _ _ h
        exact ⟨hp, j, hj1, hjle, ih _ _ hk⟩
    · rw [if_neg hp] at h
      exact absurd h (by simp)

/-- Completeness of the word-sequence matcher. -/
theorem matchWordsK_complete :
    ∀ (arm : List String) (cs r : List Char), PhraseC arm cs r →
      (matchWordsK arm cs headerTailK).isSome = true := by
  intro arm
  induction arm with
  | nil =>
    intro cs r h
    rw [matchWordsK]
    exact headerTailK_complete _ _ h
  | cons w ws ih =>
    intro cs r h
    cases ws with
    | nil =>
      obtain ⟨hp, htail⟩ := h
      simp only [matchWordsK]
      rw [if_pos hp]
      exact headerTailK_complete _ _ htail
    | cons w2 ws2 =>
      obtain ⟨hp, j, hj1, hjle, hrec⟩ := h
      simp only [matchWordsK]
      rw [if_pos hp]
      rw [wsPlusK]
      exact tryWsDown1_isSome _ _ _ j hj1 hjle (ih _ _ hrec)

/-- Soundness of one arm: leading whitespace, then the phrase. -/
theorem armMatchK_sound (arm : List String) (cs r : List Char)
    (h : armMatchK arm cs = some r) :
    ∃ j, j ≤ countWhile pyWs cs ∧ PhraseC arm (cs.drop j) r := by
  rw [armMatchK, wsStarK] at h
  obtain ⟨j, hj, hk⟩ := tryWsDown_some _ _ _ _ h
  exact ⟨j, hj, matchWordsK_sound _ _ _ hk⟩

/-- Completeness of one arm. -/
theorem armMatchK_isSome (arm : List String) (cs r : List Char) (j : Nat)
    (hj : j ≤ countWhile pyWs cs) (h : PhraseC arm (cs.drop j) r) :
    (armMatchK arm cs).isSome = true := by
  rw [armMatchK, wsStarK]
  exact tryWsDown_isSome _ _ _ j hj (matchWordsK_complete _ _ _ h)

/-- Soundness of the arm alternation. -/
theorem armsFirst_sound :
    ∀ (arms : List (List String)) (cs r : List Char),
      armsFirst arms cs = some r → ∃ arm ∈ arms, armMatchK arm cs = some r := by
  intro arms
  induction arms with
  | nil =>
    intro cs r h
    exact absurd h (by simp [armsFirst])
  | cons a rest ih =>
    intro cs r h
    rw [armsFirst] at h
    rcases (Option.orElse_eq_some _ _ _).mp h with h1 | ⟨_, h1⟩
    · exact ⟨a, by simp, h1⟩
    · obtain ⟨arm, hm, harm⟩ := ih cs r h1
      exact ⟨arm, by simp [hm], harm⟩

/-- Completeness of the arm alternation. -/
theorem armsFirst_isSome :
    ∀ (arms : List (List String)) (arm : List String) (cs : List Char),
      arm ∈ arms → (armMatchK arm cs).isSome = true →
      (armsFirst arms cs).isSome = true := by
  intro arms
  induction arms with
  | nil =>
    intro arm cs hm _
    exact absurd hm (by simp)
  | cons a rest ih =>
    intro arm cs hm h
    rw [armsFirst]
    cases hfirst : armMatchK a cs with
    | some v => simp [hfirst]
    | none =>
      rcases List.mem_cons.mp hm with hm | hm
      · subst hm
        rw [hfirst] at h
        exact absurd h (by simp)
      · simpa [hfirst] using ih arm cs hm h

/-- `head?` is `get? 0`. -/
theorem head_eq_get0 (l : List Char) : l.head? = l.get? 0 := by
  cases l <;> rfl

/-- `get?` through `drop`. -/
theorem get_drop_add (l : List Char) : ∀ (n i : Nat), (l.drop n).get? i = l.get? (n + i) := by
  induction l with
  | nil => intro n i; simp
  | cons a rest ih =>
    intro n i
    cases n with
    | zero => simp
    | succ m =>
      rw [List.drop_succ_cons]
      rw [ih m i]
      rw [show m + 1 + i = (m + i) + 1 by omega]
      rfl

/-- Inversion of the case-insensitive prefix test. -/
theorem ciPref_cons {a : Char} {ws cs : List Char}
    (h : ciPref (a :: ws) cs = true) :
    ∃ c rest, cs = c :: rest ∧ charCI a c = true ∧ ciPref ws rest = true := by
  cases cs with
  | nil => exact absurd h (by simp [ciPref])
  | cons c rest =>
    rw [ciPref, Bool.and_eq_true] at h
    exact ⟨c, rest, rfl, h.1, h.2⟩

/-- `charCI` is lowered equality. -/
theorem charCI_iff_lower {a c : Char} :
    charCI a c = true ↔ pyLowerChar a = pyLowerChar c :=
  ⟨fun h => of_decide_eq_true h, fun h => decide_eq_true h⟩

/-- A nonempty run bounded by `countWhile pyWs` starts with whitespace. -/
theorem run_head_ws {cs : List Char} {j : Nat} (h1 : 1 ≤ j)
    (h2 : j ≤ countWhile pyWs cs) : pyWsO cs.head? = true := by
  obtain ⟨c, hc, hp⟩ := countWhile_get_true pyWs cs 0 (by omega)
  rw [head_eq_get0, hc]
  exact hp

/-- If a position inside the whitespace bound carries a letter, it is the
run's end. -/
theorem ws_then_letter_forces (cs : List Char) (j : Nat)
    (hj : j ≤ countWhile pyWs cs) (hletter : headLetter (cs.drop j) = true) :
    j = countWhile pyWs cs := by
  by_contra hne
  have hlt : j < countWhile pyWs cs := by omega
  obtain ⟨c, hc, hp⟩ := countWhile_get_true pyWs cs j hlt
  rw [headLetter, head_eq_get0, get_drop_add, Nat.add_zero, hc] at hletter
  rw [letterO] at hletter
  rw [pyWs_not_letter c hp] at hletter
  exact absurd hletter (by simp)

/-- A phrase headed by a letter-initial word starts with a letter. -/
theorem phrase_head_letter {w : String} {ws : List String} {cs r : List Char}
    (h : PhraseC (w :: ws) cs r)
    (hw : ∃ a t, w.data = a :: t ∧ asciiLetter a = true) :
    headLetter cs = true := by
  obtain ⟨a, t, hwd, ha⟩ := hw
  have hp : ciPref w.data cs = true := h.1
  rw [hwd] at hp
  obtain ⟨c, rest, rfl, hci, _⟩ := ciPref_cons hp
  rw [headLetter, head_eq_get0]
  show asciiLetter c = true
  rw [← charCI_letter_eq a c hci]
  exact ha

/-- The character right after a phrase's first word is not a letter. -/
theorem phrase_boundary_head {w : String} {ws : List String} {cs r : List Char}
    (h : PhraseC (w :: ws) cs r) :
    headLetter (cs.drop w.data.length) = false := by
  have htail : ∀ (cs2 : List Char), TailC cs2 r → headLetter cs2 = false := by
    intro cs2 ht
    obtain ⟨j, hj, hbr⟩ := ht
    by_cases hj0 : 1 ≤ j
    · have hws := run_head_ws hj0 hj
      rw [headLetter]
      cases hh : cs2.head? with
      | none => rfl
      | some c =>
        rw [hh, pyWsO] at hws
        rw [letterO]
        exact pyWs_not_letter c hws
    · have hz : j = 0 := by omega
      subst hz
      rw [List.drop_zero] at hbr
      rcases hbr with hbr | ⟨hbr, hr⟩
      · rw [headLetter, hbr]
        rfl
      · subst hbr
        rcases hr with hr | hr
        · subst hr; rfl
        · rw [headLetter, hr]
          rfl
  cases ws with
  | nil => exact htail _ h.2
  | cons w2 ws2 =>
    obtain ⟨-, j, hj1, hjle, -⟩ := h
    have hws := run_head_ws hj1 hjle
    rw [headLetter]
    cases hh : (cs.drop w.data.length).head? with
    | none => rfl
    | some c =>
      rw [hh, pyWsO] at hws
      rw [letterO]
      exact pyWs_not_letter c hws

/-- Two letter-only words matching case-insensitively at the same
position, each followed by a non-letter, have equal lowerings. -/
theorem run_unique :
    ∀ (w1 w2 cs : List Char),
      (∀ c ∈ w1, asciiLetter c = true) → (∀ c ∈ w2, asciiLetter c = true) →
      ciPref w1 cs = true → ciPref w2 cs = true →
      headLetter (cs.drop w1.length) = false →
      headLetter (cs.drop w2.length) = false →
      w1.map pyLowerChar = w2.map pyLowerChar := by
  intro w1
  induction w1 with
  | nil =>
    intro w2 cs hl1 hl2 hp1 hp2 hb1 hb2
    cases w2 with
    | nil => rfl
    | cons a t =>
      obtain ⟨c, rest, rfl, hci, -⟩ := ciPref_cons hp2
      rw [List.length_nil, List.drop_zero, headLetter, head_eq_get0] at hb1
      have hc : asciiLetter c = true := by
        rw [← charCI_letter_eq a c hci]
        exact hl2 a (by simp)
      rw [show ((c :: rest).get? 0) = some c from rfl, letterO] at hb1
      rw [hc] at hb1
      exact absurd hb1 (by simp)
  | cons a1 t1 ih =>
    intro w2 cs hl1 hl2 hp1 hp2 hb1 hb2
    cases w2 with
    | nil =>
      obtain ⟨c, rest, rfl, hci, -⟩ := ciPref_cons hp1
      rw [List.length_nil, List.drop_zero, headLetter, head_eq_get0] at hb2
      have hc : asciiLetter c = true := by
        rw [← charCI_letter_eq a1 c hci]
        exact hl1 a1 (by simp)
      rw [show ((c :: rest).get? 0) = some c from rfl, letterO] at hb2
      rw [hc] at hb2
      exact absurd hb2 (by simp)
    | cons a2 t2 =>
      obtain ⟨c, rest, rfl, hci1, hr1⟩ := ciPref_cons hp1
      obtain ⟨c', rest', heq, hci2, hr2⟩ := ciPref_cons hp2
      simp only [List.cons.injEq] at heq
      obtain ⟨rfl, rfl⟩ := heq
      have hhead : pyLowerChar a1 = pyLowerChar a2 := by
        rw [charCI_iff_lower.mp hci1, charCI_iff_lower.mp hci2]
      have htail := ih t2 rest
        (fun x hx => hl1 x (by simp [hx]))
        (fun x hx => hl2 x (by simp [hx]))
        hr1 hr2
        (by rw [List.length_cons, List.drop_succ_cons] at hb1; exact hb1)
        (by rw [List.length_cons, List.drop_succ_cons] at hb2; exact hb2)
      simp only [List.map_cons, hhead, htail]

/-- Lowered character list of a word. -/
def lowerW (w : String) : List Char := w.data.map pyLowerChar

/-- A header word: nonempty, all ASCII letters. -/
def wordOK (w : String) : Bool :=
  !w.data.isEmpty && w.data.all asciiLetter

/-- Two word sequences differing at some common index (so they can never
both match the same text). -/
def armsIncompat (a b : List String) : Bool :=
  (a.zip b).any fun p => !(lowerW p.1 == lowerW p.2)

/-- No continuation word of `a` equals the first word of `b`. -/
def contFirstOK (a b : List String) : Bool :=
  match b with
  | [] => true
  | b0 :: _ => (a.drop 1).all fun w => !(lowerW w == lowerW b0)

/-- The cross-section compatibility check for one pair of arms. -/
def crossPairOK (a b : List String) : Bool :=
  armsIncompat a b && contFirstOK a b && contFirstOK b a

/-- Arms of different sections are pairwise incompatible. -/
def crossSectionsOK : Bool :=
  SECTION_HEADERS.all fun pA =>
    SECTION_HEADERS.all fun pB =>
      (pA.1 == pB.1) || pA.2.all fun a => pB.2.all fun b => crossPairOK a b

/-- Every header arm is a nonempty list of nonempty letter-only words. -/
def allArmsOK : Bool :=
  SECTION_HEADERS.all fun pA => pA.2.all fun a => !a.isEmpty && a.all wordOK

/-- The vocabulary table check (decided once over the concrete arms). -/
theorem cross_sections_ok : crossSectionsOK = true := by decide

/-- The word well-formedness check. -/
theorem all_arms_ok : allArmsOK = true := by decide

/-- A good word starts with a letter. -/
theorem wordOK_head {w : String} (h : wordOK w = true) :
    ∃ a t, w.data = a :: t ∧ asciiLetter a = true := by
  rw [wordOK, Bool.and_eq_true] at h
  obtain ⟨h1, h2⟩ := h
  cases hw : w.data with
  | nil =>
    rw [hw] at h1
    exact absurd h1 (by simp)
  | cons a t =>
    refine ⟨a, t, rfl, ?_⟩
    rw [hw] at h2
    exact (List.all_eq_true.mp h2) a (by simp)

/-- All characters of a good word are letters. -/
theorem wordOK_letters {w : String} (h : wordOK w = true) :
    ∀ c ∈ w.data, asciiLetter c = true := by
  rw [wordOK, Bool.and_eq_true] at h
  exact List.all_eq_true.mp h.2

/-- Incompatible word sequences cannot both match at the same position. -/
theorem phrase_incompat :
    ∀ (a b : List String) (cs r1 r2 : List Char),
      (∀ w ∈ a, wordOK w = true) → (∀ w ∈ b, wordOK w = true) →
      armsIncompat a b = true →
      PhraseC a cs r1 → PhraseC b cs r2 → False := by
  intro a
  induction a with
  | nil =>
    intro b cs r1 r2 _ _ hinc _ _
    exact absurd hinc (by simp [armsIncompat])
  | cons w1 ws1 ih =>
    intro b cs r1 r2 hok1 hok2 hinc hp1 hp2
    cases b with
    | nil => exact absurd hinc (by simp [armsIncompat])
    | cons w2 ws2 =>
      have hb1 : headLetter (cs.drop w1.data.length) = false :=
        phrase_boundary_head hp1
      have hb2 : headLetter (cs.drop w2.data.length) = false :=
        phrase_boundary_head hp2
      have hlA : ∀ c ∈ w1.data, asciiLetter c = true :=
        wordOK_letters (hok1 w1 (by simp))
      have hlB : ∀ c ∈ w2.data, asciiLetter c = true :=
        wordOK_letters (hok2 w2 (by simp))
      have hrun := run_unique w1.data w2.data cs hlA hlB hp1.1 hp2.1 hb1 hb2
      have hw12 : (lowerW w1 == lowerW w2) = true := by
        rw [lowerW, lowerW, hrun]
        exact beq_self_eq_true _
      have hinc2 : armsIncompat ws1 ws2 = true := by
        rw [armsIncompat] at hinc
        rw [List.zip_cons_cons, List.any_cons] at hinc
        rw [hw12] at hinc
        simpa [armsIncompat] using hinc
      have hlen : w1.data.length = w2.data.length := by
        have h2 := congrArg List.length hrun
        simpa using h2
      cases ws1 with
      | nil => exact absurd hinc2 (by simp [armsIncompat])
      | cons v1 vs1 =>
        cases ws2 with
        | nil => exact absurd hinc2 (by simp [armsIncompat])
        | cons v2 vs2 =>
          obtain ⟨-, j1, hj11, hj1le, hrec1⟩ := hp1
          obtain ⟨-, j2, hj21, hj2le, hrec2⟩ := hp2
          rw [← hlen] at hj2le hrec2
          have hf1 : j1 = countWhile pyWs (cs.drop w1.data.length) :=
            ws_then_letter_forces _ j1 hj1le
              (phrase_head_letter hrec1 (wordOK_head (hok1 v1 (by simp))))
          have hf2 : j2 = countWhile pyWs (cs.drop w1.data.length) :=
            ws_then_letter_forces _ j2 hj2le
              (phrase_head_letter hrec2 (wordOK_head (hok2 v2 (by simp))))
          rw [hf1] at hrec1
          rw [hf2] at hrec2
          exact ih (v2 :: vs2) _ r1 r2
            (fun w hw => hok1 w (by simp [hw]))
            (fun w hw => hok2 w (by simp [hw]))
            hinc2 hrec1 hrec2

/-- A whitespace head is not a letter head. -/
theorem letterO_ws_false {o : Option Char} (h : pyWsO o = true) :
    letterO o = false := by
  cases o with
  | none => rfl
  | some c =>
    rw [pyWsO] at h
    rw [letterO]
    exact pyWs_not_letter c h

/-- A matched prefix is no longer than the text. -/
theorem ciPref_le_length :
    ∀ (w cs : List Char), ciPref w cs = true → w.length ≤ cs.length := by
  intro w
  induction w with
  | nil => intro cs _; simp
  | cons a t ih =>
    intro cs h
    obtain ⟨c, rest, rfl, -, hr⟩ := ciPref_cons h
    have h2 := ih rest hr
    simp only [List.length_cons]
    omega

/-- Characters under a matched letter-only word are letters. -/
theorem ciPref_letter_at :
    ∀ (w cs : List Char), ciPref w cs = true →
      (∀ c ∈ w, asciiLetter c = true) →
      ∀ i, i < w.length → letterO (cs.get? i) = true := by
  intro w
  induction w with
  | nil => intro cs _ _ i hi; exact absurd hi (by simp)
  | cons a t ih =>
    intro cs h hl i hi
    obtain ⟨c, rest, rfl, hci, hr⟩ := ciPref_cons h
    cases i with
    | zero =>
      show asciiLetter c = true
      rw [← charCI_letter_eq a c hci]
      exact hl a (by simp)
    | succ m =>
      have h2 := ih rest hr (fun x hx => hl x (by simp [hx])) m (by
        simp only [List.length_cons] at hi; omega)
      exact h2

/-- The tail consumes no more than the text. -/
theorem tailC_r_le (cs r : List Char) (h : TailC cs r) : r.length ≤ cs.length := by
  obtain ⟨j, hj, hbr | ⟨hbr, -⟩⟩ := h
  · have h2 := congrArg List.length hbr
    rw [List.length_drop] at h2
    simp only [List.length_cons] at h2
    omega
  · have h2 := congrArg List.length hbr
    rw [List.length_drop] at h2
    omega

/-- A phrase consumes no more than the text. -/
theorem phraseC_r_le :
    ∀ (arm : List String) (cs r : List Char), PhraseC arm cs r →
      r.length ≤ cs.length := by
  intro arm
  induction arm with
  | nil => intro cs r h; exact tailC_r_le cs r h
  | cons w ws ih =>
    intro cs r h
    cases ws with
    | nil =>
      have h2 := tailC_r_le _ _ h.2
      rw [List.length_drop] at h2
      omega
    | cons v vs =>
      obtain ⟨-, j, -, -, hrec⟩ := h
      have h2 := ih _ _ hrec
      rw [List.length_drop, List.length_drop] at h2
      omega

/-- Region analysis of the header tail: any position inside what it
consumed, preceded by whitespace, sits in a whitespace run ending at the
colon, or everything to the end of the match is whitespace with the
multiline `$` holding there. -/
theorem tail_region (cs r : List Char) (p : Nat) (ht : TailC cs r)
    (hp : 0 < p) (hpc : p ≤ cs.length - r.length)
    (hws : pyWsO (cs.get? (p - 1)) = true) :
    (∃ q, p ≤ q ∧ (∀ i, p ≤ i → i < q → pyWsO (cs.get? i) = true) ∧
      cs.get? q = some ':' ∧ q + 1 = cs.length - r.length) ∨
    ((∀ i, p ≤ i → i < cs.length - r.length → pyWsO (cs.get? i) = true) ∧
      (cs.length - r.length = cs.length ∨
        cs.get? (cs.length - r.length) = some '\n')) := by
  obtain ⟨j, hj, hbr | ⟨hbr, hr⟩⟩ := ht
  · left
    have hlen := congrArg List.length hbr
    rw [List.length_drop] at hlen
    simp only [List.length_cons] at hlen
    have hjlen : j ≤ cs.length := le_trans hj (countWhile_le_length pyWs cs)
    have hC : cs.length - r.length = j + 1 := by omega
    have hpj : p ≤ j := by
      by_contra hcon
      have hpeq : p = j + 1 := by omega
      have h2 : (cs.drop j).get? 0 = cs.get? (j + 0) := get_drop_add cs j 0
      rw [hbr] at h2
      rw [hpeq] at hws
      simp only [Nat.add_sub_cancel] at hws
      rw [Nat.add_zero] at h2
      rw [← h2] at hws
      rw [show ((':' :: r).get? 0) = some (':' : Char) from rfl] at hws
      exact absurd hws (by decide)
    refine ⟨j, hpj, ?_, ?_, by omega⟩
    · intro i hpi hij
      obtain ⟨c, hc, hpc2⟩ := countWhile_get_true pyWs cs i (by omega)
      rw [hc]
      exact hpc2
    · have h2 : (cs.drop j).get? 0 = cs.get? (j + 0) := get_drop_add cs j 0
      rw [hbr] at h2
      rw [Nat.add_zero] at h2
      exact h2.symm
  · right
    have hlen := congrArg List.length hbr
    rw [List.length_drop] at hlen
    have hjlen : j ≤ cs.length := le_trans hj (countWhile_le_length pyWs cs)
    have hC : cs.length - r.length = j := by omega
    constructor
    · intro i hpi hij
      obtain ⟨c, hc, hpc2⟩ := countWhile_get_true pyWs cs i (by omega)
      rw [hc]
      exact hpc2
    · rcases hr with hre | hre
      · left
        subst hre
        simp only [List.length_nil] at hlen ⊢
        omega
      · right
        rw [hC]
        have h2 : (cs.drop j).get? 0 = cs.get? (j + 0) := get_drop_add cs j 0
        rw [hbr] at h2
        rw [Nat.add_zero] at h2
        rw [← h2, ← head_eq_get0]
        exact hre

/-- Composed drops, with the sum in application order. -/
theorem drop_drop_add (l : List Char) (m n : Nat) :
    (l.drop m).drop n = l.drop (m + n) := by
  rw [List.drop_drop, Nat.add_comm]

/-- Region analysis of one arm's phrase: a position strictly inside the
consumed region whose predecessor is whitespace lies in an inter-word
whitespace run (ending at a later word of the arm), in the run before the
tail's colon, or in the trailing run of a `$`-ended match. -/
theorem phrase_region :
    ∀ (arm : List String) (cs r : List Char) (p : Nat),
      (∀ w ∈ arm, wordOK w = true) →
      PhraseC arm cs r →
      0 < p → p ≤ cs.length - r.length →
      pyWsO (cs.get? (p - 1)) = true →
      (∃ k w q, arm.get? k = some w ∧ 1 ≤ k ∧ p ≤ q ∧
        (∀ i, p ≤ i → i < q → pyWsO (cs.get? i) = true) ∧
        ciPref w.data (cs.drop q) = true ∧
        headLetter (cs.drop (q + w.data.length)) = false) ∨
      (∃ q, p ≤ q ∧ (∀ i, p ≤ i → i < q → pyWsO (cs.get? i) = true) ∧
        cs.get? q = some ':' ∧ q + 1 = cs.length - r.length) ∨
      ((∀ i, p ≤ i → i < cs.length - r.length → pyWsO (cs.get? i) = true) ∧
        (cs.length - r.length = cs.length ∨
          cs.get? (cs.length - r.length) = some '\n')) := by
  intro arm
  induction arm with
  | nil =>
    intro cs r p hok hp hp0 hpc hws
    rcases tail_region cs r p hp hp0 hpc hws with h | h
    · exact Or.inr (Or.inl h)
    · exact Or.inr (Or.inr h)
  | cons w ws ih =>
    intro cs r p hok hp hp0 hpc hws
    have hciw : ciPref w.data cs = true := hp.1
    have hwOK : wordOK w = true := hok w (by simp)
    have hletters := wordOK_letters hwOK
    have hLlen : w.data.length ≤ cs.length := ciPref_le_length w.data cs hciw
    set L := w.data.length with hL
    have hpL : L + 1 ≤ p := by
      by_contra hcon
      have hlt : p - 1 < L := by omega
      have hlet := ciPref_letter_at w.data cs hciw hletters (p - 1) hlt
      rw [letterO_ws_false hws] at hlet
      exact absurd hlet (by simp)
    cases ws with
    | nil =>
      have htail : TailC (cs.drop L) r := hp.2
      have hdl : (cs.drop L).length = cs.length - L := List.length_drop L cs
      have hrb := tailC_r_le _ _ htail
      rw [hdl] at hrb
      have h1 : 0 < p - L := by omega
      have h2 : p - L ≤ (cs.drop L).length - r.length := by rw [hdl]; omega
      have hws2 : pyWsO ((cs.drop L).get? (p - L - 1)) = true := by
        rw [get_drop_add, show L + (p - L - 1) = p - 1 from by omega]
        exact hws
      rcases tail_region (cs.drop L) r (p - L) htail h1 h2 hws2 with
        ⟨q, hq1, hq2, hq3, hq4⟩ | ⟨h3, h4⟩
      · refine Or.inr (Or.inl ⟨L + q, by omega, ?_, ?_, ?_⟩)
        · intro i hpi hij
          have hx := hq2 (i - L) (by omega) (by omega)
          rw [get_drop_add, show L + (i - L) = i from by omega] at hx
          exact hx
        · rw [get_drop_add] at hq3
          exact hq3
        · rw [hdl] at hq4
          omega
      · refine Or.inr (Or.inr ⟨?_, ?_⟩)
        · intro i hpi hic
          have hx := h3 (i - L) (by omega) (by rw [hdl]; omega)
          rw [get_drop_add, show L + (i - L) = i from by omega] at hx
          exact hx
        · rcases h4 with h4 | h4
          · left
            rw [hdl] at h4
            omega
          · right
            rw [hdl, get_drop_add] at h4
            rw [show L + (cs.length - L - r.length) = cs.length - r.length
              from by omega] at h4
            exact h4
    | cons v vs =>
      obtain ⟨-, j, hj1, hjle, hrec⟩ := hp
      have hvOK := hok v (by simp)
      have hf : j = countWhile pyWs (cs.drop L) :=
        ws_then_letter_forces _ j hjle
          (phrase_head_letter hrec (wordOK_head hvOK))
      have hjlen : j ≤ (cs.drop L).length := by
        rw [hf]
        exact countWhile_le_length _ _
      have hdl : (cs.drop L).length = cs.length - L := List.length_drop L cs
      rw [hdl] at hjlen
      have hdd : (cs.drop L).drop j = cs.drop (L + j) := drop_drop_add cs L j
      have hrb := phraseC_r_le _ _ _ hrec
      have hdl2 : ((cs.drop L).drop j).length = cs.length - L - j := by
        rw [List.length_drop, hdl]
      rw [hdl2] at hrb
      by_cases hpj : p ≤ L + j
      · refine Or.inl ⟨1, v, L + j, rfl, le_refl 1, hpj, ?_, ?_, ?_⟩
        · intro i hpi hij
          obtain ⟨c, hc, hcw⟩ := countWhile_get_true pyWs (cs.drop L) (i - L)
            (by rw [← hf]; omega)
          rw [get_drop_add, show L + (i - L) = i from by omega] at hc
          rw [hc]
          exact hcw
        · have hx := hrec.1
          rw [hdd] at hx
          exact hx
        · have hb := phrase_boundary_head hrec
          rw [hdd, drop_drop_add] at hb
          exact hb
      · have h1 : 0 < p - (L + j) := by omega
        have h2 : p - (L + j) ≤ ((cs.drop L).drop j).length - r.length := by
          rw [hdl2]
          omega
        have hws2 : pyWsO (((cs.drop L).drop j).get? (p - (L + j) - 1)) = true := by
          rw [hdd, get_drop_add,
            show (L + j) + (p - (L + j) - 1) = p - 1 from by omega]
          exact hws
        have hrecOK : ∀ x ∈ (v :: vs), wordOK x = true :=
          fun x hx => hok x (by simp [hx])
        rcases ih _ _ _ hrecOK hrec h1 h2 hws2 with
          ⟨k, w2, q, hk1, hk2, hk3, hk4, hk5, hk6⟩ | ⟨q, hq1, hq2, hq3, hq4⟩ |
          ⟨h3, h4⟩
        · refine Or.inl ⟨k + 1, w2, L + j + q, ?_, by omega, by omega, ?_, ?_, ?_⟩
          · exact hk1
          · intro i hpi hij
            have hx := hk4 (i - (L + j)) (by omega) (by omega)
            rw [hdd, get_drop_add,
              show (L + j) + (i - (L + j)) = i from by omega] at hx
            exact hx
          · have hx := hk5
            rw [hdd, drop_drop_add] at hx
            exact hx
          · have hx := hk6
            rw [hdd, drop_drop_add] at hx
            rw [show L + j + (q + w2.data.length) = L + j + q + w2.data.length
              from by omega] at hx
            exact hx
        · refine Or.inr (Or.inl ⟨L + j + q, by omega, ?_, ?_, ?_⟩)
          · intro i hpi hij
            have hx := hq2 (i - (L + j)) (by omega) (by omega)
            rw [hdd, get_drop_add,
              show (L + j) + (i - (L + j)) = i from by omega] at hx
            exact hx
          · rw [hdd, get_drop_add] at hq3
            exact hq3
          · rw [hdl2] at hq4
            omega
        · refine Or.inr (Or.inr ⟨?_, ?_⟩)
          · intro i hpi hic
            have hx := h3 (i - (L + j)) (by omega) (by rw [hdl2]; omega)
            rw [hdd, get_drop_add,
              show (L + j) + (i - (L + j)) = i from by omega] at hx
            exact hx
          · rcases h4 with h4 | h4
            · left
              rw [hdl2] at h4
              omega
            · right
              rw [hdl2, hdd, get_drop_add] at h4
              rw [show L + j + (cs.length - L - j - r.length) =
                cs.length - r.length from by omega] at h4
              exact h4

/-- The alternation's remainder is part of the text. -/
theorem armsFirst_r_le (arms : List (List String)) (cs r : List Char)
    (h : armsFirst arms cs = some r) : r.length ≤ cs.length := by
  obtain ⟨arm, -, harm⟩ := armsFirst_sound arms cs r h
  obtain ⟨j, -, hph⟩ := armMatchK_sound arm cs r harm
  have h2 := phraseC_r_le arm _ r hph
  rw [List.length_drop] at h2
  omega

/-- Inversion of a header match at a position. -/
theorem headerMatchAt_inv (arms : List (List String)) (text : List Char)
    (i e : Nat) (h : headerMatchAt arms text i = some e) :
    lineStartAt text i = true ∧
    (∃ rest, armsFirst arms (text.drop i) = some rest ∧
      e = text.length - rest.length) ∧
    i ≤ e ∧ e ≤ text.length := by
  rw [headerMatchAt] at h
  by_cases hls : lineStartAt text i = true
  · rw [if_pos hls] at h
    cases hm : armsFirst arms (text.drop i) with
    | none => rw [hm] at h; exact absurd h (by simp)
    | some rest =>
      rw [hm] at h
      simp only [Option.some.injEq] at h
      have hrl := armsFirst_r_le arms _ rest hm
      rw [List.length_drop] at hrl
      have hil : i ≤ text.length := by
        rw [lineStartAt, Bool.or_eq_true] at hls
        rcases hls with h0 | hnl
        · have h0' : i = 0 := of_decide_eq_true h0
          omega
        · have hnl' : text.get? (i - 1) = some (Char.ofNat 10) :=
            of_decide_eq_true hnl
          by_contra hcon
          rw [List.get?_eq_none.mpr (by omega)] at hnl'
          cases hnl'
      exact ⟨hls, ⟨rest, rfl, h.symm⟩, by omega, by omega⟩
  · rw [if_neg hls] at h
    exact absurd h (by simp)

/-- Inversion of the search scan. -/
theorem headerSearchAux_inv (arms : List (List String)) (text : List Char) :
    ∀ (fuel i s e : Nat), headerSearchAux arms text i fuel = some (s, e) →
      headerMatchAt arms text s = some e ∧ i ≤ s := by
  intro fuel
  induction fuel with
  | zero =>
    intro i s e h
    exact absurd h (by simp [headerSearchAux])
  | succ n ih =>
    intro i s e h
    rw [headerSearchAux] at h
    cases hm : headerMatchAt arms text i with
    | some e2 =>
      rw [hm] at h
      simp only [Option.some.injEq, Prod.mk.injEq] at h
      obtain ⟨rfl, rfl⟩ := h
      exact ⟨hm, Nat.le_refl _⟩
    | none =>
      rw [hm] at h
      obtain ⟨h1, h2⟩ := ih (i + 1) s e h
      exact ⟨h1, by omega⟩

/-- The search scan finds something at or before any matching position. -/
theorem headerSearchAux_found (arms : List (List String)) (text : List Char) :
    ∀ (fuel i p e : Nat), i ≤ p → p < i + fuel →
      headerMatchAt arms text p = some e →
      ∃ s e2, s ≤ p ∧ headerSearchAux arms text i fuel = some (s, e2) := by
  intro fuel
  induction fuel with
  | zero =>
    intro i p e h1 h2 _
    omega
  | succ n ih =>
    intro i p e h1 h2 hm
    rw [headerSearchAux]
    cases hfirst : headerMatchAt arms text i with
    | some e2 => exact ⟨i, e2, h1, rfl⟩
    | none =>
      have hne : i ≠ p := by
        intro hcon
        rw [hcon, hm] at hfirst
        cases hfirst
      obtain ⟨s, e2, hs, hrun⟩ := ih (i + 1) p e (by omega) (by omega) hm
      exact ⟨s, e2, hs, hrun⟩

/-- Inversion of `headerSearch`. -/
theorem headerSearch_inv (arms : List (List String)) (text : List Char)
    (s e : Nat) (h : headerSearch arms text = some (s, e)) :
    headerMatchAt arms text s = some e := by
  rw [headerSearch] at h
  exact (headerSearchAux_inv arms text _ 0 s e h).1

/-- `headerSearch` finds something at or before any matching position. -/
theorem headerSearch_found (arms : List (List String)) (text : List Char)
    (p e : Nat) (hp : p ≤ text.length)
    (hm : headerMatchAt arms text p = some e) :
    ∃ s e2, s ≤ p ∧ headerSearch arms text = some (s, e2) := by
  rw [headerSearch]
  exact headerSearchAux_found arms text (text.length + 1) 0 p e (by omega)
    (by omega) hm

/-- A successful lookup pairs the key with a member of the list. -/
theorem lookup_mem :
    ∀ (l : List (String × List (List String))) (n : String)
      (a : List (List String)), l.lookup n = some a → (n, a) ∈ l := by
  intro l
  induction l with
  | nil => intro n a h; exact absurd h (by simp)
  | cons p rest ih =>
    intro n a h
    rw [List.lookup] at h
    cases he : (n == p.1) with
    | true =>
      rw [he] at h
      simp only [Option.some.injEq] at h
      have hn : n = p.1 := eq_of_beq he
      subst hn
      subst h
      exact List.mem_cons_self _ _
    | false =>
      rw [he] at h
      exact List.mem_cons_of_mem _ (ih n a h)

/-- Lower bound for a whitespace run. -/
theorem countWhile_ge_of (cs : List Char) (n : Nat)
    (h : ∀ i, i < n → pyWsO (cs.get? i) = true) :
    n ≤ countWhile pyWs cs := by
  by_contra hcon
  have hlt : countWhile pyWs cs < n := by omega
  have h3 := h (countWhile pyWs cs) hlt
  cases hg : cs.get? (countWhile pyWs cs) with
  | none =>
    rw [hg] at h3
    exact absurd h3 (by decide)
  | some c =>
    rw [hg] at h3
    have h4 := countWhile_get_false pyWs cs c hg
    simp only [pyWsO] at h3
    rw [h4] at h3
    cases h3

/-- Exact characterisation of a whitespace run. -/
theorem countWhile_eq_of (cs : List Char) (n : Nat)
    (h1 : ∀ i, i < n → pyWsO (cs.get? i) = true)
    (h2 : pyWsO (cs.get? n) = false) :
    countWhile pyWs cs = n := by
  have hge : n ≤ countWhile pyWs cs := countWhile_ge_of cs n h1
  by_contra hcon
  have hlt : n < countWhile pyWs cs := by omega
  obtain ⟨c, hc, hpc⟩ := countWhile_get_true pyWs cs n hlt
  rw [hc] at h2
  simp only [pyWsO] at h2
  rw [hpc] at h2
  cases h2

/-- One step of the `next_section_start` fold never increases the
accumulator. -/
theorem minFold_le_acc (text : List Char) (name : String) (s0 : Nat) :
    ∀ (l : List (String × List (List String))) (acc : Nat),
      l.foldl
        (fun acc p =>
          if p.1 = name then acc
          else
            match headerSearch p.2 (text.drop s0) with
            | some (s, _) => min acc (s0 + s)
            | none => acc)
        acc ≤ acc := by
  intro l
  induction l with
  | nil => intro acc; exact Nat.le_refl acc
  | cons p rest ih =>
    intro acc
    rw [List.foldl_cons]
    have hstep : (if p.1 = name then acc
        else
          match headerSearch p.2 (text.drop s0) with
          | some (s, _) => min acc (s0 + s)
          | none => acc) ≤ acc := by
      by_cases hn : p.1 = name
      · rw [if_pos hn]
      · rw [if_neg hn]
        cases hs : headerSearch p.2 (text.drop s0) with
        | none => exact Nat.le_refl acc
        | some sp =>
          obtain ⟨s, e⟩ := sp
          exact Nat.min_le_left _ _
    exact le_trans (ih _) hstep

/-- A matching other section bounds the fold's result. -/
theorem minFold_hit (text : List Char) (name : String) (s0 : Nat) :
    ∀ (l : List (String × List (List String))) (acc : Nat) (nB : String)
      (armsB : List (List String)) (s e : Nat),
      (nB, armsB) ∈ l → nB ≠ name →
      headerSearch armsB (text.drop s0) = some (s, e) →
      l.foldl
        (fun acc p =>
          if p.1 = name then acc
          else
            match headerSearch p.2 (text.drop s0) with
            | some (s, _) => min acc (s0 + s)
            | none => acc)
        acc ≤ s0 + s := by
  intro l
  induction l with
  | nil =>
    intro acc nB armsB s e hmem _ _
    exact absurd hmem (by simp)
  | cons p rest ih =>
    intro acc nB armsB s e hmem hne hsearch
    rw [List.foldl_cons]
    rcases List.mem_cons.mp hmem with hmem | hmem
    · have hp1 : p.1 = nB := by rw [← hmem]
      have hp2 : p.2 = armsB := by rw [← hmem]
      have hstep : (if p.1 = name then acc
          else
            match headerSearch p.2 (text.drop s0) with
            | some (s, _) => min acc (s0 + s)
            | none => acc) ≤ s0 + s := by
        rw [if_neg (by rw [hp1]; exact hne), hp2, hsearch]
        exact Nat.min_le_right _ _
      exact le_trans (minFold_le_acc text name s0 rest _) hstep
    · exact ih _ nB armsB s e hmem hne hsearch

/-- The fold keeps any lower bound shared by the start and every
contribution. -/
theorem minFold_lb (text : List Char) (name : String) (s0 : Nat) :
    ∀ (l : List (String × List (List String))) (acc : Nat), s0 ≤ acc →
      s0 ≤ l.foldl
        (fun acc p =>
          if p.1 = name then acc
          else
            match headerSearch p.2 (text.drop s0) with
            | some (s, _) => min acc (s0 + s)
            | none => acc)
        acc := by
  intro l
  induction l with
  | nil => intro acc h; exact h
  | cons p rest ih =>
    intro acc h
    rw [List.foldl_cons]
    apply ih
    by_cases hn : p.1 = name
    · rw [if_pos hn]; exact h
    · rw [if_neg hn]
      cases hs : headerSearch p.2 (text.drop s0) with
      | none => exact h
      | some sp =>
        obtain ⟨s, e⟩ := sp
        exact Nat.le_min.mpr ⟨h, by omega⟩

/-- `minOtherStart` is bounded by any other section's match. -/
theorem minOtherStart_le (text : List Char) (name : String) (s0 : Nat)
    (nB : String) (armsB : List (List String)) (s e : Nat)
    (hmem : (nB, armsB) ∈ SECTION_HEADERS) (hne : nB ≠ name)
    (hsearch : headerSearch armsB (text.drop s0) = some (s, e)) :
    minOtherStart text name s0 ≤ s0 + s :=
  minFold_hit text name s0 SECTION_HEADERS text.length nB armsB s e hmem hne
    hsearch

/-- `minOtherStart` never moves before the section's start. -/
theorem minOtherStart_ge (text : List Char) (name : String) (s0 : Nat)
    (h : s0 ≤ text.length) : s0 ≤ minOtherStart text name s0 :=
  minFold_lb text name s0 SECTION_HEADERS text.length h

/-- Inversion of `extract_section_span`. -/
theorem extract_span_inv (text : List Char) (name : String) (sp : Nat × Nat)
    (h : extract_section_span text name = some sp) :
    ∃ arms s0 e0, SECTION_HEADERS.lookup name = some arms ∧
      headerSearch arms text = some (s0, e0) ∧
      sp = (e0, minOtherStart text name e0) := by
  rw [extract_section_span] at h
  cases hlk : SECTION_HEADERS.lookup name with
  | none => rw [hlk] at h; exact absurd h (by simp)
  | some arms =>
    rw [hlk] at h
    have h2 : (match headerSearch arms text with
        | none => none
        | some (_, e) => some (e, minOtherStart text name e)) = some sp := h
    cases hs : headerSearch arms text with
    | none => rw [hs] at h2; exact absurd h2 (by simp)
    | some sp0 =>
      obtain ⟨s0, e0⟩ := sp0
      rw [hs] at h2
      simp only [Option.some.injEq] at h2
      exact ⟨arms, s0, e0, rfl, hs, h2.symm⟩

/-- Arms of two different sections are pairwise incompatible (extracted
from the decided table). -/
theorem crossPairOK_of_mem {nA nB : String}
    {armsA armsB : List (List String)}
    (hA : (nA, armsA) ∈ SECTION_HEADERS) (hB : (nB, armsB) ∈ SECTION_HEADERS)
    (hne : nA ≠ nB) {a b : List String} (ha : a ∈ armsA) (hb : b ∈ armsB) :
    crossPairOK a b = true := by
  have h := cross_sections_ok
  rw [crossSectionsOK] at h
  have h1 := (List.all_eq_true.mp h) (nA, armsA) hA
  have h2 := (List.all_eq_true.mp h1) (nB, armsB) hB
  rw [Bool.or_eq_true] at h2
  rcases h2 with h2 | h2
  · exact absurd (eq_of_beq h2) hne
  · exact (List.all_eq_true.mp ((List.all_eq_true.mp h2) a ha)) b hb

/-- Every arm of the table is nonempty with good words. -/
theorem armOK_of_mem {n : String} {arms : List (List String)}
    (hmem : (n, arms) ∈ SECTION_HEADERS) {a : List String} (ha : a ∈ arms) :
    a ≠ [] ∧ ∀ w ∈ a, wordOK w = true := by
  have h := all_arms_ok
  rw [allArmsOK] at h
  have h1 := (List.all_eq_true.mp h) (n, arms) hmem
  have h2 := (List.all_eq_true.mp h1) a ha
  rw [Bool.and_eq_true] at h2
  refine ⟨?_, List.all_eq_true.mp h2.2⟩
  intro hcon
  subst hcon
  exact absurd h2.1 (by decide)

/-- A letter head is not a whitespace head. -/
theorem letterO_not_ws {o : Option Char} (h : letterO o = true) :
    pyWsO o = false := by
  cases o with
  | none => rfl
  | some c =>
    rw [letterO] at h
    rw [pyWsO]
    exact asciiLetter_not_ws c h

/-- If one section's header matches inside the region consumed by another
section's header match, the enclosing section's computed span collapses:
its `next_section_start` is at most its own content start. -/
theorem inside_match_analysis
    (text : List Char) (nA nB : String)
    (armsA armsB : List (List String))
    (hmemA : (nA, armsA) ∈ SECTION_HEADERS)
    (hmemB : (nB, armsB) ∈ SECTION_HEADERS)
    (hne : nA ≠ nB)
    (aS aE bS bE : Nat)
    (hA : headerMatchAt armsA text aS = some aE)
    (hB : headerMatchAt armsB text bS = some bE)
    (hin1 : aS ≤ bS) (hin2 : bS < aE) :
    minOtherStart text nA aE ≤ aE := by
  obtain ⟨hlsA, ⟨restA, hafA, haE⟩, haSE, haEL⟩ := headerMatchAt_inv _ _ _ _ hA
  obtain ⟨armA0, hA0mem, hAmk⟩ := armsFirst_sound _ _ _ hafA
  obtain ⟨jA, hjAle, hphA⟩ := armMatchK_sound _ _ _ hAmk
  obtain ⟨hA0ne, hA0ok⟩ := armOK_of_mem hmemA hA0mem
  obtain ⟨hlsB, ⟨restB, hafB, hbE⟩, hbSE, hbEL⟩ := headerMatchAt_inv _ _ _ _ hB
  obtain ⟨armB0, hB0mem, hBmk⟩ := armsFirst_sound _ _ _ hafB
  obtain ⟨jB, hjBle, hphB⟩ := armMatchK_sound _ _ _ hBmk
  obtain ⟨hB0ne, hB0ok⟩ := armOK_of_mem hmemB hB0mem
  cases armA0 with
  | nil => exact absurd rfl hA0ne
  | cons w0A wsA =>
  cases armB0 with
  | nil => exact absurd rfl hB0ne
  | cons w0B wsB =>
  have hjA : jA = countWhile pyWs (text.drop aS) :=
    ws_then_letter_forces _ jA hjAle
      (phrase_head_letter hphA (wordOK_head (hA0ok w0A (by simp))))
  have hjB : jB = countWhile pyWs (text.drop bS) :=
    ws_then_letter_forces _ jB hjBle
      (phrase_head_letter hphB (wordOK_head (hB0ok w0B (by simp))))
  rw [drop_drop_add] at hphA hphB
  have hAws : ∀ i, i < jA → pyWsO (text.get? (aS + i)) = true := by
    intro i hi
    obtain ⟨c, hc, hw⟩ := countWhile_get_true pyWs (text.drop aS) i
      (by rw [← hjA]; exact hi)
    rw [get_drop_add] at hc
    rw [hc]
    exact hw
  have hBws : ∀ i, i < jB → pyWsO (text.get? (bS + i)) = true := by
    intro i hi
    obtain ⟨c, hc, hw⟩ := countWhile_get_true pyWs (text.drop bS) i
      (by rw [← hjB]; exact hi)
    rw [get_drop_add] at hc
    rw [hc]
    exact hw
  have hAhead : letterO (text.get? (aS + jA)) = true := by
    have h1 := phrase_head_letter hphA (wordOK_head (hA0ok w0A (by simp)))
    rw [headLetter, head_eq_get0, get_drop_add, Nat.add_zero] at h1
    exact h1
  have hBhead : letterO (text.get? (bS + jB)) = true := by
    have h1 := phrase_head_letter hphB (wordOK_head (hB0ok w0B (by simp)))
    rw [headLetter, head_eq_get0, get_drop_add, Nat.add_zero] at h1
    exact h1
  have hrA := phraseC_r_le _ _ _ hphA
  rw [List.length_drop] at hrA
  have hrB := phraseC_r_le _ _ _ hphB
  rw [List.length_drop] at hrB
  have hWAlen : aS + jA ≤ text.length := by
    have h2 := le_trans hjAle (countWhile_le_length pyWs (text.drop aS))
    rw [List.length_drop] at h2
    omega
  have hIncompat : armsIncompat (w0A :: wsA) (w0B :: wsB) = true := by
    have h1 := crossPairOK_of_mem hmemA hmemB hne hA0mem hB0mem
    rw [crossPairOK, Bool.and_eq_true, Bool.and_eq_true] at h1
    exact h1.1.1
  have hContA : contFirstOK (w0A :: wsA) (w0B :: wsB) = true := by
    have h1 := crossPairOK_of_mem hmemA hmemB hne hA0mem hB0mem
    rw [crossPairOK, Bool.and_eq_true, Bool.and_eq_true] at h1
    exact h1.1.2
  by_cases hcase : bS ≤ aS + jA
  · -- the inner match starts inside the outer leading whitespace:
    -- both word phrases start at the same position, impossible
    exfalso
    have hrun : countWhile pyWs (text.drop bS) = (aS + jA) - bS := by
      apply countWhile_eq_of
      · intro i hi
        rw [get_drop_add]
        have h2 := hAws (bS + i - aS) (by omega)
        rw [show aS + (bS + i - aS) = bS + i from by omega] at h2
        exact h2
      · rw [get_drop_add, show bS + ((aS + jA) - bS) = aS + jA from by omega]
        exact letterO_not_ws hAhead
    have hWB : bS + jB = aS + jA := by omega
    rw [hWB] at hphB
    exact phrase_incompat (w0A :: wsA) (w0B :: wsB) (text.drop (aS + jA))
      restA restB hA0ok hB0ok hIncompat hphA hphB
  · -- the inner match starts after the outer words began
    have hp1 : 0 < bS - (aS + jA) := by omega
    have hbs1 : pyWsO (text.get? (bS - 1)) = true := by
      rw [lineStartAt, Bool.or_eq_true] at hlsB
      rcases hlsB with h0 | hnl
      · have h0e : bS = 0 := of_decide_eq_true h0
        omega
      · have hnl2 : text.get? (bS - 1) = some (Char.ofNat 10) :=
          of_decide_eq_true hnl
        rw [hnl2]
        decide
    have hwsrel : pyWsO ((text.drop (aS + jA)).get? (bS - (aS + jA) - 1)) = true := by
      rw [get_drop_add, show (aS + jA) + (bS - (aS + jA) - 1) = bS - 1
        from by omega]
      exact hbs1
    have hpc : bS - (aS + jA) ≤ (text.drop (aS + jA)).length - restA.length := by
      rw [List.length_drop]
      omega
    rcases phrase_region (w0A :: wsA) (text.drop (aS + jA)) restA
        (bS - (aS + jA)) hA0ok hphA hp1 hpc hwsrel with
      ⟨k, w, q, hk1, hk2, hkq, hkr, hk5, hk6⟩ | ⟨q, hq1, hq2, hq3, hq4⟩ |
      ⟨hr3, hr4⟩
    · -- the inner start sits in an inter-word run: the inner section's
      -- first word would equal a continuation word of the outer arm
      exfalso
      have hwmem : w ∈ wsA := by
        cases k with
        | zero => omega
        | succ m => exact List.get?_mem hk1
      have hwOK : wordOK w = true := hA0ok w (by simp [hwmem])
      have hQletter : letterO (text.get? (aS + jA + q)) = true := by
        obtain ⟨a, t, hd, hl⟩ := wordOK_head hwOK
        have hci := hk5
        rw [hd] at hci
        obtain ⟨c, rest2, hbase, hcc, -⟩ := ciPref_cons hci
        have hg : (text.drop (aS + jA)).get? (q + 0) = some c := by
          rw [← get_drop_add]
          rw [hbase]
          rfl
        rw [Nat.add_zero, get_drop_add] at hg
        rw [hg]
        show asciiLetter c = true
        rw [← charCI_letter_eq a c hcc]
        exact hl
      have hrunB : countWhile pyWs (text.drop bS) = (aS + jA + q) - bS := by
        apply countWhile_eq_of
        · intro i hi
          rw [get_drop_add]
          have h2 := hkr (bS + i - (aS + jA)) (by omega) (by omega)
          rw [get_drop_add, show (aS + jA) + (bS + i - (aS + jA)) = bS + i
            from by omega] at h2
          exact h2
        · rw [get_drop_add,
            show bS + ((aS + jA + q) - bS) = aS + jA + q from by omega]
          exact letterO_not_ws hQletter
      have hWB : bS + jB = aS + jA + q := by omega
      -- both words match at the same position with non-letter boundaries
      have hciW : ciPref w.data (text.drop (aS + jA + q)) = true := by
        have h2 := hk5
        rw [drop_drop_add] at h2
        exact h2
      have hbW : headLetter (text.drop (aS + jA + q + w.data.length)) = false := by
        have h2 := hk6
        rw [drop_drop_add] at h2
        rw [show aS + jA + (q + w.data.length) = aS + jA + q + w.data.length
          from by omega] at h2
        exact h2
      rw [hWB] at hphB
      have hciB : ciPref w0B.data (text.drop (aS + jA + q)) = true := hphB.1
      have hbB : headLetter ((text.drop (aS + jA + q)).drop w0B.data.length) =
          false := phrase_boundary_head hphB
      have hbW2 : headLetter ((text.drop (aS + jA + q)).drop w.data.length) =
          false := by
        rw [drop_drop_add]
        exact hbW
      have hrunEq := run_unique w.data w0B.data (text.drop (aS + jA + q))
        (wordOK_letters hwOK) (wordOK_letters (hB0ok w0B (by simp)))
        hciW hciB hbW2 hbB
      -- but the vocabulary says these words differ
      rw [contFirstOK] at hContA
      have h3 := (List.all_eq_true.mp hContA) w (by simpa using hwmem)
      have h4 : (lowerW w == lowerW w0B) = true := by
        rw [lowerW, lowerW, hrunEq]
        exact beq_self_eq_true _
      rw [h4] at h3
      exact absurd h3 (by decide)
    · -- the inner start sits in the run before the tail's colon: the inner
      -- section's first word would begin at the colon
      exfalso
      have hrunB : countWhile pyWs (text.drop bS) = (aS + jA + q) - bS := by
        apply countWhile_eq_of
        · intro i hi
          rw [get_drop_add]
          have h2 := hq2 (bS + i - (aS + jA)) (by omega) (by omega)
          rw [get_drop_add, show (aS + jA) + (bS + i - (aS + jA)) = bS + i
            from by omega] at h2
          exact h2
        · rw [get_drop_add,
            show bS + ((aS + jA + q) - bS) = aS + jA + q from by omega]
          rw [get_drop_add] at hq3
          rw [hq3]
          decide
      have hWB : bS + jB = aS + jA + q := by omega
      rw [hWB] at hBhead
      rw [get_drop_add] at hq3
      rw [hq3] at hBhead
      exact absurd hBhead (by decide)
    · -- the inner start sits in the trailing run of a `$`-ended match
      set C := (text.drop (aS + jA)).length - restA.length with hC
      have hCtext : aS + jA + C = aE := by
        rw [hC, List.length_drop]
        omega
      rcases hr4 with h4 | h4
      · -- the match runs to the end of the text: the inner match has no
        -- room for its first word
        exfalso
        have h5 : C = text.length - (aS + jA) := by
          rw [h4, List.length_drop]
        by_cases hWBl : bS + jB < text.length
        · have h6 := hr3 (bS + jB - (aS + jA)) (by omega) (by omega)
          rw [get_drop_add, show (aS + jA) + (bS + jB - (aS + jA)) = bS + jB
            from by omega] at h6
          rw [letterO_not_ws hBhead] at h6
          exact absurd h6 (by simp)
        · rw [List.get?_eq_none.mpr (by omega)] at hBhead
          exact absurd hBhead (by decide)
      · -- `$` held before a newline: the inner header also matches at the
        -- very start of the outer section's content slice
        have hnl : text.get? aE = some '\n' := by
          rw [get_drop_add] at h4
          rw [← hCtext]
          exact h4
        have hWBgt : aE < bS + jB := by
          by_contra hcon
          by_cases hWBl : bS + jB < aE
          · have h5 := hr3 (bS + jB - (aS + jA)) (by omega) (by omega)
            rw [get_drop_add, show (aS + jA) + (bS + jB - (aS + jA)) = bS + jB
              from by omega] at h5
            rw [letterO_not_ws hBhead] at h5
            exact absurd h5 (by simp)
          · have hWBe : bS + jB = aE := by omega
            rw [hWBe, hnl] at hBhead
            exact absurd hBhead (by decide)
        have hjB2 : (bS + jB) - aE ≤ countWhile pyWs (text.drop aE) := by
          apply countWhile_ge_of
          intro i hi
          rw [get_drop_add]
          cases Nat.eq_zero_or_pos i with
          | inl h0 =>
            subst h0
            rw [Nat.add_zero, hnl]
            decide
          | inr hpos =>
            have h2 := hBws (aE + i - bS) (by omega)
            rw [show bS + (aE + i - bS) = aE + i from by omega] at h2
            exact h2
        have hph2 : PhraseC (w0B :: wsB) ((text.drop aE).drop ((bS + jB) - aE))
            restB := by
          rw [drop_drop_add, show aE + ((bS + jB) - aE) = bS + jB from by omega]
          exact hphB
        have hsomeArm := armMatchK_isSome (w0B :: wsB) (text.drop aE) restB
          ((bS + jB) - aE) hjB2 hph2
        have hsomeArms := armsFirst_isSome armsB (w0B :: wsB) (text.drop aE)
          hB0mem hsomeArm
        cases haf : armsFirst armsB (text.drop aE) with
        | none => rw [haf] at hsomeArms; exact absurd hsomeArms (by simp)
        | some restX =>
          have hmatch0 : headerMatchAt armsB (text.drop aE) 0 =
              some ((text.drop aE).length - restX.length) := by
            rw [headerMatchAt]
            rw [if_pos (by simp [lineStartAt])]
            rw [List.drop_zero, haf]
          obtain ⟨s2, e2, hs2, hsearch⟩ := headerSearch_found armsB
            (text.drop aE) 0 _ (by omega) hmatch0
          have hs2z : s2 = 0 := by omega
          rw [hs2z] at hsearch
          have hle := minOtherStart_le text nA aE nB armsB 0 e2 hmemB
            (Ne.symm hne) hsearch
          omega

/-- C4: the six Section spans computed by the Section Segmenter are
pairwise non-overlapping half-open intervals of the input text — for two
different section names whose spans both exist, no position lies in both
spans — and a section type whose header pattern never matches yields the
empty section content rather than an error. -/
theorem section_spans_disjoint
    (text : List Char) (nA nB nC : String) (spA spB : Nat × Nat)
    (hne : nA ≠ nB)
    (hsA : extract_section_span text nA = some spA)
    (hsB : extract_section_span text nB = some spB) :
    (∀ x : Nat, ¬(spA.1 ≤ x ∧ x < spA.2 ∧ spB.1 ≤ x ∧ x < spB.2)) ∧
    (∀ arms, SECTION_HEADERS.lookup nC = some arms →
      headerSearch arms text = none →
      extract_section_content (⟨text⟩ : String) nC = "") := by
  constructor
  · obtain ⟨armsA, aS0, aE0, hlkA, hseA, hspA⟩ := extract_span_inv _ _ _ hsA
    obtain ⟨armsB, bS0, bE0, hlkB, hseB, hspB⟩ := extract_span_inv _ _ _ hsB
    have hmemA := lookup_mem _ _ _ hlkA
    have hmemB := lookup_mem _ _ _ hlkB
    have hmA := headerSearch_inv _ _ _ _ hseA
    have hmB := headerSearch_inv _ _ _ _ hseB
    obtain ⟨hlsA, ⟨restA, hafA, haE⟩, haSE, haEL⟩ := headerMatchAt_inv _ _ _ _ hmA
    obtain ⟨hlsB, ⟨restB, hafB, hbE⟩, hbSE, hbEL⟩ := headerMatchAt_inv _ _ _ _ hmB
    have e1 : spA.1 = aE0 := by rw [hspA]
    have e2 : spA.2 = minOtherStart text nA aE0 := by rw [hspA]
    have e3 : spB.1 = bE0 := by rw [hspB]
    have e4 : spB.2 = minOtherStart text nB bE0 := by rw [hspB]
    intro x hx
    obtain ⟨hx1, hx2, hx3, hx4⟩ := hx
    rw [e1] at hx1
    rw [e2] at hx2
    rw [e3] at hx3
    rw [e4] at hx4
    by_cases hc1 : aE0 ≤ bS0
    · -- the other section's header also matches inside this section's
      -- content slice, bounding next_section_start by its start
      have hls2 : lineStartAt (text.drop aE0) (bS0 - aE0) = true := by
        by_cases hz : bS0 - aE0 = 0
        · rw [lineStartAt, hz]
          simp
        · rw [lineStartAt, Bool.or_eq_true] at hlsB
          rcases hlsB with h0 | hnl
          · have h0e : bS0 = 0 := of_decide_eq_true h0
            omega
          · have hnl2 : text.get? (bS0 - 1) = some (Char.ofNat 10) :=
              of_decide_eq_true hnl
            rw [lineStartAt, Bool.or_eq_true]
            right
            apply decide_eq_true
            rw [get_drop_add, show aE0 + (bS0 - aE0 - 1) = bS0 - 1
              from by omega]
            exact hnl2
      have hdd2 : (text.drop aE0).drop (bS0 - aE0) = text.drop bS0 := by
        rw [drop_drop_add, show aE0 + (bS0 - aE0) = bS0 from by omega]
      have hmt : headerMatchAt armsB (text.drop aE0) (bS0 - aE0) =
          some ((text.drop aE0).length - restB.length) := by
        rw [headerMatchAt, if_pos hls2, hdd2, hafB]
      obtain ⟨s2, e2', hs2, hsearch⟩ := headerSearch_found armsB
        (text.drop aE0) (bS0 - aE0) _ (by rw [List.length_drop]; omega) hmt
      have hle := minOtherStart_le text nA aE0 nB armsB s2 e2' hmemB
        (Ne.symm hne) hsearch
      omega
    · by_cases hc2 : bE0 ≤ aS0
      · have hls2 : lineStartAt (text.drop bE0) (aS0 - bE0) = true := by
          by_cases hz : aS0 - bE0 = 0
          · rw [lineStartAt, hz]
            simp
          · rw [lineStartAt, Bool.or_eq_true] at hlsA
            rcases hlsA with h0 | hnl
            · have h0e : aS0 = 0 := of_decide_eq_true h0
              omega
            · have hnl2 : text.get? (aS0 - 1) = some (Char.ofNat 10) :=
                of_decide_eq_true hnl
              rw [lineStartAt, Bool.or_eq_true]
              right
              apply decide_eq_true
              rw [get_drop_add, show bE0 + (aS0 - bE0 - 1) = aS0 - 1
                from by omega]
              exact hnl2
        have hdd2 : (text.drop bE0).drop (aS0 - bE0) = text.drop aS0 := by
          rw [drop_drop_add, show bE0 + (aS0 - bE0) = aS0 from by omega]
        have hmt : headerMatchAt armsA (text.drop bE0) (aS0 - bE0) =
            some ((text.drop bE0).length - restA.length) := by
          rw [headerMatchAt, if_pos hls2, hdd2, hafA]
        obtain ⟨s2, e2', hs2, hsearch⟩ := headerSearch_found armsA
          (text.drop bE0) (aS0 - bE0) _ (by rw [List.length_drop]; omega) hmt
        have hle := minOtherStart_le text nB bE0 nA armsA s2 e2' hmemA hne
          hsearch
        omega
      · by_cases hc3 : aS0 ≤ bS0
        · have hcol := inside_match_analysis text nA nB armsA armsB hmemA
            hmemB hne aS0 aE0 bS0 bE0 hmA hmB hc3 (by omega)
          omega
        · have hcol := inside_match_analysis text nB nA armsB armsA hmemB
            hmemA (Ne.symm hne) bS0 bE0 aS0 aE0 hmB hmA (by omega) (by omega)
          omega
  · intro arms hlk hnone
    have h2 : extract_section_span text nC = none := by
      rw [extract_section_span, hlk]
      show (match headerSearch arms text with
        | none => none
        | some (_, e) => some (e, minOtherStart text nC e)) = none
      rw [hnone]
    show (match extract_section_span text nC with
      | none => ""
      | some (s, e) => (⟨pyStripList (pySlice text s e)⟩ : String)) = ""
    rw [h2]

/-- Concrete instance of the C4 guarantees on the text
"summary\nA\nskills\nB": the summary span (7, 10) and the skills span
(16, 18) never overlap, and the unmatched experience section yields the
empty string. -/
theorem section_spans_disjoint_witness :
    (∀ x : Nat, ¬(((7, 10) : Nat × Nat).1 ≤ x ∧ x < ((7, 10) : Nat × Nat).2 ∧
      ((16, 18) : Nat × Nat).1 ≤ x ∧ x < ((16, 18) : Nat × Nat).2)) ∧
    (∀ arms, SECTION_HEADERS.lookup ("experience") = some arms →
      headerSearch arms (("summary\nA\nskills\nB").data) = none →
      extract_section_content (⟨("summary\nA\nskills\nB").data⟩ : String)
        ("experience") = "") :=
  section_spans_disjoint (("summary\nA\nskills\nB").data) ("summary")
    ("skills") ("experience") (7, 10) (16, 18) (by decide) (by decide)
    (by decide)
